import Mathlib

/-!
KLEE array prototype: the switch-materialising pass.

A shallow embedding of `KLEE-Array-Prototype.cpp`: the four functions
`BuildArrayInfo`, `BuildGEPBlocks`, `GetGEPLoadPair` and `BuildSwitchStmts`
over a small model of the LLVM IR they manipulate, together with a reference
interpreter for the instructions the pass creates.

Conventions of the embedding:

* an LLVM object that the C++ handles through a pointer is given an identity
  (`InstId`, `BlockId`); fresh objects take their identity from the counter
  `Module.nextId`;
* uniqued constants (`Value`) are compared structurally, which is what pointer
  equality means for them;
* `std::map<Value *, _>` iterates in the order of the keys' addresses; that
  order is the parameter `addr` of every function that touches the map;
* a C++ step with undefined behaviour (operand index out of range, use of an
  uninitialised or dangling pointer) makes the embedded function return `none`;
* `BuildGEPBlocks` walks a block list that grows while it is walked, so its
  block loop takes a step budget and returns `none` when the budget runs out.
-/

set_option autoImplicit false

namespace KleeArray

/-! ## Types and constants -/

/-- LLVM types, as far as the pass looks at them. -/
inductive Ty where
  | integer (bits : Nat)
  | floating
  | pointer
  | array (elem : Ty) (numElements : Nat)
  | other
deriving DecidableEq, Repr

/-- Reading of `Type::isArrayTy`. -/
def Ty.isArrayTy : Ty → Bool
  | .array _ _ => true
  | _ => false

/-- Reading of `Type::isIntegerTy`. -/
def Ty.isIntegerTy : Ty → Bool
  | .integer _ => true
  | _ => false

/-- Reading of `ArrayType::getNumElements` (zero for a type that is no array). -/
def Ty.getNumElements : Ty → Nat
  | .array _ n => n
  | _ => 0

/-- Element type of an array type. -/
def Ty.getElementType : Ty → Option Ty
  | .array e _ => some e
  | _ => none

/-- An element constant (`Value *` key of the inner map).  LLVM uniques
constants, so two keys are the same pointer exactly when type and payload
agree. -/
structure Value where
  ty : Ty
  payload : Int
deriving DecidableEq, Repr

/-- The initializer of a global: its type, whether it is the
`ConstantAggregateZero` object, and its operand list. -/
structure Constant where
  ty : Ty
  isAggregateZero : Bool
  operands : List Value
deriving DecidableEq, Repr

/-- Reading of `User::getOperand`; out of range is undefined. -/
def Constant.getOperand (c : Constant) (i : Nat) : Option Value :=
  c.operands[i]?

/-- A global variable: `getName` and the initializer (`hasInitializer`). -/
structure GlobalVariable where
  name : String
  initializer : Option Constant
deriving DecidableEq, Repr

/-! ## The catalog `GlobalArrayInfo` -/

/-- Inner map `std::map<Value *, std::vector<int>>`, kept in key order. -/
abbrev ValueMap := List (Value × List Nat)

/-- Outer map `std::map<StringRef, ValueMap>`; it is only ever searched by
key, so the list order carries no meaning. -/
abbrev ArrayInfo := List (String × ValueMap)

/-- Lookup `map::find` on the inner map. -/
def ValueMap.find : ValueMap → Value → Option (List Nat)
  | [], _ => none
  | (k, x) :: rest, v => if k = v then some x else ValueMap.find rest v

/-- Position of a new entry in address order. -/
def ValueMap.place (addr : Value → Nat) : ValueMap → Value → List Nat → ValueMap
  | [], v, x => [(v, x)]
  | (k, y) :: rest, v, x =>
    if addr v < addr k then (v, x) :: (k, y) :: rest
    else (k, y) :: ValueMap.place addr rest v x

/-- Insertion `map::insert`: no effect when the key is present, otherwise the
entry goes to its place in address order. -/
def ValueMap.insert (addr : Value → Nat) (m : ValueMap) (v : Value) (x : List Nat) : ValueMap :=
  match m.find v with
  | some _ => m
  | none => ValueMap.place addr m v x

/-- Append one index to the vector stored under an existing key. -/
def ValueMap.append : ValueMap → Value → Nat → ValueMap
  | [], _, _ => []
  | (k, x) :: rest, v, i =>
    if k = v then (k, x ++ [i]) :: rest else (k, x) :: ValueMap.append rest v i

/-- The statement `m[v].push_back(i)`: `operator[]` creates the entry when it
is missing. -/
def ValueMap.pushBack (addr : Value → Nat) (m : ValueMap) (v : Value) (i : Nat) : ValueMap :=
  ValueMap.append (ValueMap.insert addr m v []) v i

/-- Lookup `map::find` on the outer map. -/
def ArrayInfo.find : ArrayInfo → String → Option ValueMap
  | [], _ => none
  | (k, m) :: rest, name => if k = name then some m else ArrayInfo.find rest name

/-- Insertion `map::insert` on the outer map (no effect when the key exists). -/
def ArrayInfo.insert : ArrayInfo → String → ValueMap → ArrayInfo
  | [], name, m => [(name, m)]
  | (k, y) :: rest, name, m =>
    if k = name then (k, y) :: rest else (k, y) :: ArrayInfo.insert rest name m

/-- Write back the inner map reached through `(*GlobalArrayInfo)[name]`. -/
def ArrayInfo.set : ArrayInfo → String → ValueMap → ArrayInfo
  | [], name, m => [(name, m)]
  | (k, y) :: rest, name, m =>
    if k = name then (k, m) :: rest else (k, y) :: ArrayInfo.set rest name m

/-- The inner map `(*GlobalArrayInfo)[name]` (empty when `operator[]` would
create it). -/
def ArrayInfo.get (info : ArrayInfo) (name : String) : ValueMap :=
  (info.find name).getD []

/-- Keys of the catalog. -/
def ArrayInfo.keys (info : ArrayInfo) : List String := info.map Prod.fst

/-- The element loop of `BuildArrayInfo` (`for (int i = 0; i < arrayElements; i++)`):
`remaining` iterations are left and the next index is `i`. -/
def elementLoop (addr : Value → Nat) (init : Constant) :
    Nat → Nat → ValueMap → Option ValueMap
  | 0, _, m => some m
  | remaining + 1, i, m =>
    match init.getOperand i with
    | none => none
    | some val =>
      let m1 :=
        match m.find val with
        | some _ => m.pushBack addr val i
        | none => (m.insert addr val []).pushBack addr val i
      elementLoop addr init remaining (i + 1) m1

/-- Body of the loop over the globals in `BuildArrayInfo`. -/
def visitGlobal (addr : Value → Nat) (info : ArrayInfo) (g : GlobalVariable) :
    Option ArrayInfo :=
  match g.initializer with
  | none => some info
  | some init =>
    if init.ty.isArrayTy then
      if init.isAggregateZero = false then
        match init.getOperand 0 with
        | none => none
        | some arrayPtr =>
          if arrayPtr.ty.isIntegerTy then
            let arrayElements := init.ty.getNumElements
            let arrayName := g.name
            let info1 :=
              match info.find arrayName with
              | none =>
                let fresh := info.insert arrayName []
                let sub := ValueMap.insert addr (fresh.get arrayName) arrayPtr []
                fresh.set arrayName (sub.pushBack addr arrayPtr 0)
              | some _ => info
            match elementLoop addr init arrayElements 0 (info1.get arrayName) with
            | none => none
            | some m => some (info1.set arrayName m)
          else some info
      else some info
    else some info

/-- The function `BuildArrayInfo`: the catalog after visiting every global. -/
def BuildArrayInfo (addr : Value → Nat) : ArrayInfo → List GlobalVariable → Option ArrayInfo
  | info, [] => some info
  | info, g :: gs =>
    match visitGlobal addr info g with
    | none => none
    | some info1 => BuildArrayInfo addr info1 gs

/-! ## The IR: operands, instructions, blocks, functions -/

/-- Identity of an instruction, argument or other local value. -/
abbrev InstId := Nat

/-- Identity of a basic block. -/
abbrev BlockId := Nat

/-- A `Value *` in operand position: a constant, a global, or a local value
(argument or instruction result).  A reference carries the name and type of
the value it designates; an unnamed value has the empty name. -/
inductive Operand where
  | const (c : Value)
  | global (name : String) (ty : Ty)
  | reg (id : InstId) (name : String) (ty : Ty)
deriving DecidableEq, Repr

/-- Reading of `Value::getName` (constants carry no name). -/
def Operand.getName : Operand → String
  | .const _ => ""
  | .global n _ => n
  | .reg _ n _ => n

/-- Reading of `Value::hasName`. -/
def Operand.hasName (o : Operand) : Bool := o.getName != ""

/-- Reading of `Value::getType`. -/
def Operand.getType : Operand → Ty
  | .const c => c.ty
  | .global _ t => t
  | .reg _ _ t => t

/-- Pointer comparison `operand == inst` against an instruction. -/
def Operand.isInst (o : Operand) (target : InstId) : Bool :=
  match o with
  | .reg id _ _ => id = target
  | _ => false

/-- Effect of `replaceAllUsesWith` on one operand slot. -/
def Operand.subst (old : InstId) (new : Operand) : Operand → Operand
  | .reg id n t => if id = old then new else .reg id n t
  | o => o

/-- Instruction kinds.  In `gep` the pointer operand is operand 0 and
`indices` are operands 1, 2, ...; `other` stands for every instruction the pass
never inspects (`isTerminator` tells whether it ends its block). -/
inductive InstKind where
  | gep (ptr : Operand) (indices : List Operand)
  | load (ptr : Operand) (align : Nat)
  | store (val : Operand) (ptr : Operand)
  | alloca (ty : Ty)
  | br (dest : BlockId)
  | switch (cond : Operand) (defaultDest : BlockId) (cases : List (Value × BlockId))
  | ret (val : Option Operand)
  | other (isTerminator : Bool) (operands : List Operand)
deriving DecidableEq, Repr

/-- An instruction: identity, name, kind. -/
structure Instruction where
  id : InstId
  name : String
  kind : InstKind
deriving DecidableEq, Repr

/-- A basic block: identity and instruction list. -/
structure BasicBlock where
  id : BlockId
  insts : List Instruction
deriving DecidableEq, Repr

/-- A function: name and block list in layout order. -/
structure Function where
  name : String
  blocks : List BasicBlock
deriving DecidableEq, Repr

/-- A module: globals, functions, and the next unused identity. -/
structure Module where
  globals : List GlobalVariable
  functions : List Function
  nextId : Nat
deriving DecidableEq, Repr

/-- Reading of `User::getOperand` on a GEP. -/
def gepOperand (ptr : Operand) (indices : List Operand) : Nat → Option Operand
  | 0 => some ptr
  | k + 1 => indices[k]?

/-- Instructions of a function, blocks in layout order. -/
def Function.insts (f : Function) : List Instruction :=
  f.blocks.flatMap (fun b => b.insts)

/-- Instructions of a module in traversal order: functions in declaration
order, blocks in layout order, instructions in block order. -/
def Module.insts (M : Module) : List Instruction :=
  M.functions.flatMap (fun f => f.insts)

/-- Effect of `replaceAllUsesWith` on the operand slots of an instruction. -/
def InstKind.subst (old : InstId) (new : Operand) : InstKind → InstKind
  | .gep p idx => .gep (Operand.subst old new p) (idx.map (Operand.subst old new))
  | .load p a => .load (Operand.subst old new p) a
  | .store v p => .store (Operand.subst old new v) (Operand.subst old new p)
  | .alloca t => .alloca t
  | .br d => .br d
  | .switch c d cs => .switch (Operand.subst old new c) d cs
  | .ret v => .ret (v.map (Operand.subst old new))
  | .other t ops => .other t (ops.map (Operand.subst old new))

/-! ## `BuildGEPBlocks` -/

/-- The test of `BuildGEPBlocks` on one instruction: a GEP whose pointer
operand has a name that is a key of the catalog. -/
def isRelevantGEP (info : ArrayInfo) (inst : Instruction) : Bool :=
  match inst.kind with
  | .gep ptr _ => ptr.hasName && (info.find ptr.getName).isSome
  | _ => false

/-- Mutable state of `BuildGEPBlocks` besides the block lists: the toggle
`splitBasicBlock`, the vector `relGeps`, and the identity counter. -/
structure SplitState where
  splitBasicBlock : Bool
  relGeps : List InstId
  nextId : Nat
deriving DecidableEq, Repr

/-- The instruction loop of `BuildGEPBlocks` on the block `bb`: `before` are the
instructions already passed, the argument list those from `inst_it` on.
Returns the state, the block as it is left, and the blocks inserted right
after it.

`SplitBlock(bb, I)` keeps the instructions before `I` in `bb`, appends a branch
to a new block placed right after `bb`, and moves `I` and what follows to the
new block (it first moves `I` past PHI nodes and landing pads; a GEP is
neither, and in a block the verifier accepts none follows a GEP).  With a GEP
at the very end of a block the second split moves nothing, as in a build
without assertions.  After either split `inst_it` is set to the last
instruction of `bb`, so the loop increment ends the loop. -/
def scanInsts (info : ArrayInfo) (st : SplitState) (bb : BlockId) :
    List Instruction → List Instruction → SplitState × BasicBlock × List BasicBlock
  | before, [] => (st, ⟨bb, before⟩, [])
  | before, inst :: rest =>
    if isRelevantGEP info inst then
      if st.splitBasicBlock = false then
        let newBlock : BasicBlock := ⟨st.nextId, inst :: rest⟩
        let jump : Instruction := ⟨st.nextId + 1, "", .br newBlock.id⟩
        ({ splitBasicBlock := true, relGeps := st.relGeps ++ [inst.id], nextId := st.nextId + 2 },
          ⟨bb, before ++ [jump]⟩, [newBlock])
      else
        let postGepBlock : BasicBlock := ⟨st.nextId, rest⟩
        let jump : Instruction := ⟨st.nextId + 1, "", .br postGepBlock.id⟩
        let jumpToLoadBlock : Instruction := ⟨st.nextId + 3, "", .br postGepBlock.id⟩
        let DefaultBlock : BasicBlock := ⟨st.nextId + 2, [jumpToLoadBlock]⟩
        ({ splitBasicBlock := false, relGeps := st.relGeps, nextId := st.nextId + 4 },
          ⟨bb, before ++ [inst, jump]⟩, [DefaultBlock, postGepBlock])
    else scanInsts info st bb (before ++ [inst]) rest

/-- The block loop of `BuildGEPBlocks` on one function: `done` are the blocks
behind `bb_it`, the argument list those from `bb_it` on.  Blocks created by a
split are placed right after the current block and are therefore visited
next.  One unit of `fuel` is spent per block visited. -/
def scanBlocks (info : ArrayInfo) :
    Nat → SplitState → List BasicBlock → List BasicBlock → Option (SplitState × List BasicBlock)
  | _, st, done, [] => some (st, done)
  | 0, _, _, _ :: _ => none
  | fuel + 1, st, done, b :: rest =>
    match scanInsts info st b.id [] b.insts with
    | (st1, b1, created) => scanBlocks info fuel st1 (done ++ [b1]) (created ++ rest)

/-- The function loop of `BuildGEPBlocks`; the toggle is not reset between
functions. -/
def scanFunctions (info : ArrayInfo) (fuel : Nat) :
    SplitState → List Function → List Function → Option (SplitState × List Function)
  | st, done, [] => some (st, done)
  | st, done, f :: rest =>
    match scanBlocks info fuel st [] f.blocks with
    | none => none
    | some (st1, blocks) => scanFunctions info fuel st1 (done ++ [⟨f.name, blocks⟩]) rest

/-- The function `BuildGEPBlocks`: the module after the splits and the vector
`relGeps`.  Every function gets the step budget `fuel`. -/
def BuildGEPBlocks (info : ArrayInfo) (fuel : Nat) (M : Module) :
    Option (Module × List InstId) :=
  match scanFunctions info fuel ⟨false, [], M.nextId⟩ [] M.functions with
  | none => none
  | some (st, fs) => some (⟨M.globals, fs, st.nextId⟩, st.relGeps)

/-! ## `GetGEPLoadPair` -/

/-- The test of `GetGEPLoadPair`: a load whose operand 0 is the given GEP. -/
def isLoadOf (gep : InstId) (inst : Instruction) : Bool :=
  match inst.kind with
  | .load ptr _ => ptr.isInst gep
  | _ => false

/-- The function `GetGEPLoadPair`: for every recorded GEP, in order, every load
of the module (in traversal order) whose address operand is that GEP.  Entry
`k` of the result is the pair `(GepsAndLoads.first[k], GepsAndLoads.second[k])`;
the two vectors always grow together. -/
def GetGEPLoadPair (M : Module) (relGeps : List InstId) : List (InstId × InstId) :=
  relGeps.flatMap fun gep =>
    M.functions.flatMap fun f =>
      f.blocks.flatMap fun bb =>
        (bb.insts.filter (isLoadOf gep)).map fun r => (gep, r.id)

/-! ## `BuildSwitchStmts` -/

/-- Where an instruction sits: function index and block index. -/
def locateInBlocks (target : InstId) : List BasicBlock → Nat → Option (Nat × Instruction)
  | [], _ => none
  | b :: rest, k =>
    match b.insts.find? (fun i => i.id = target) with
    | some inst => some (k, inst)
    | none => locateInBlocks target rest (k + 1)

/-- Function index, block index and current contents of the instruction with
the given identity (`none` for a pointer to an instruction that is in no
block). -/
def locateInFunctions (target : InstId) : List Function → Nat → Option (Nat × Nat × Instruction)
  | [], _ => none
  | f :: rest, k =>
    match locateInBlocks target f.blocks 0 with
    | some (bi, inst) => some (k, bi, inst)
    | none => locateInFunctions target rest (k + 1)

/-- The constant of the integer type of width `bits` whose bits are those of
`v` cut to that width (payload: signed reading). -/
def intLabel (bits : Nat) (v : Nat) : Value :=
  ⟨.integer bits,
    if v % 2 ^ bits < 2 ^ (bits - 1) then ((v % 2 ^ bits : Nat) : Int)
    else ((v % 2 ^ bits : Nat) : Int) - ((2 ^ bits : Nat) : Int)⟩

/-- Reading of `ConstantInt::get(Ty, V)`: the constant of integer type `Ty`
with the value `V` cut to the width of `Ty`; undefined for a type that is no
integer type. -/
def constantIntGet (ty : Ty) (v : Nat) : Option Value :=
  match ty with
  | .integer bits => some (intLabel bits v)
  | _ => none

/-- The index loop of `BuildSwitchStmts` for one catalog value: one new block
per index, holding the store of the value and the branch to `defBlock`, and
one case of the switch.  Returns the new cases, the new blocks (in creation
order) and the counter. -/
def indexLoop (val : Value) (holder : Operand) (defBlock : BlockId) (idxTy : Ty) :
    List Nat → Nat → Option (List (Value × BlockId) × List BasicBlock × Nat)
  | [], n => some ([], [], n)
  | idx :: rest, n =>
    let bi : Instruction := ⟨n + 1, "", .br defBlock⟩
    let strinst : Instruction := ⟨n + 2, "", .store (.const val) holder⟩
    let newBB : BasicBlock := ⟨n, [strinst, bi]⟩
    match constantIntGet idxTy idx with
    | none => none
    | some consInt =>
      match indexLoop val holder defBlock idxTy rest (n + 3) with
      | none => none
      | some (cases, blocks, n1) => some ((consInt, newBB.id) :: cases, newBB :: blocks, n1)

/-- The value loop of `BuildSwitchStmts` over the inner map, in the map's
iteration order; entries whose key is no integer are passed over. -/
def valueLoop (holder : Operand) (defBlock : BlockId) (idxTy : Ty) :
    ValueMap → Nat → Option (List (Value × BlockId) × List BasicBlock × Nat)
  | [], n => some ([], [], n)
  | (val, idxs) :: rest, n =>
    if val.ty.isIntegerTy then
      match indexLoop val holder defBlock idxTy idxs n with
      | none => none
      | some (cases1, blocks1, n1) =>
        match valueLoop holder defBlock idxTy rest n1 with
        | none => none
        | some (cases2, blocks2, n2) => some (cases1 ++ cases2, blocks1 ++ blocks2, n2)
    else valueLoop holder defBlock idxTy rest n

/-- Insert `x` before the instruction with identity `target`. -/
def insertBefore (target : InstId) (x : Instruction) : List Instruction → List Instruction
  | [] => []
  | i :: rest => if i.id = target then x :: i :: rest else i :: insertBefore target x rest

/-- Effect of `ReplaceInstWithInst(old, new)` on an instruction list: every
use of `old` becomes a use of `new`, and `new` takes the place of `old`. -/
def replaceInstWithInst (old : InstId) (newInst : Instruction) (newRef : Operand)
    (l : List Instruction) : List Instruction :=
  l.map fun i =>
    if i.id = old then newInst else { i with kind := InstKind.subst old newRef i.kind }

/-- Apply a rewriting to every instruction list of a function list. -/
def mapInstLists (g : List Instruction → List Instruction) (fs : List Function) :
    List Function :=
  fs.map fun f => ⟨f.name, f.blocks.map fun b => ⟨b.id, g b.insts⟩⟩

/-- One round of the pair loop of `BuildSwitchStmts`, for the pair
`(gepId, loadId)`. -/
def switchOnePair (info : ArrayInfo) (M : Module) (gepId loadId : InstId) : Option Module :=
  match locateInFunctions gepId M.functions 0 with
  | none => none
  | some (fi, bi, gepInst) =>
    match gepInst.kind with
    | .gep ptr indices =>
      let sr := ptr.getName
      match info.find sr with
      | none => some M
      | some sub =>
        match M.functions[fi]? with
        | none => none
        | some ParentFunction =>
          match ParentFunction.blocks[bi]?, ParentFunction.blocks[bi + 1]? with
          | some ParentBB, some defBlock =>
            match sub.head?, gepOperand ptr indices 2 with
            | some first, some idxOp =>
              let holderInst : Instruction := ⟨M.nextId, "holder", .alloca first.1.ty⟩
              let holder : Operand := .reg M.nextId "holder" .pointer
              let withHolder := insertBefore gepId holderInst ParentBB.insts
              let erased := withHolder.dropLast
              match valueLoop holder defBlock.id idxOp.getType sub (M.nextId + 2) with
              | none => none
              | some (cases, caseBlocks, n1) =>
                let si : Instruction := ⟨M.nextId + 1, "", .switch idxOp defBlock.id cases⟩
                let host : BasicBlock := ⟨ParentBB.id, erased ++ [si]⟩
                let blocks1 :=
                  ParentFunction.blocks.take bi ++ [host] ++ caseBlocks ++
                    ParentFunction.blocks.drop (bi + 1)
                let fs1 := M.functions.set fi ⟨ParentFunction.name, blocks1⟩
                match locateInFunctions loadId fs1 0 with
                | some (_, _, ⟨_, _, .load _ align⟩) =>
                  let newli : Instruction := ⟨n1, "optLoad", .load holder align⟩
                  let newRef : Operand := .reg n1 "optLoad" first.1.ty
                  some ⟨M.globals, mapInstLists (replaceInstWithInst loadId newli newRef) fs1, n1 + 1⟩
                | _ => none
            | _, _ => none
          | _, _ => none
    | _ => none

/-- The function `BuildSwitchStmts`: the pair loop. -/
def BuildSwitchStmts (info : ArrayInfo) : Module → List (InstId × InstId) → Option Module
  | M, [] => some M
  | M, (gepId, loadId) :: rest =>
    match switchOnePair info M gepId loadId with
    | none => none
    | some M1 => BuildSwitchStmts info M1 rest

/-! ## Reference interpreter -/

/-- Run-time values: integers, the address of a stack cell, the address of an
element of a global array. -/
inductive RVal where
  | int (v : Int)
  | stackCell (id : InstId)
  | elemPtr (global : String) (index : Int)
deriving DecidableEq, Repr

/-- Run-time state: values of the local names, contents of the stack cells. -/
structure Frame where
  env : List (InstId × RVal)
  cells : List (InstId × RVal)
deriving DecidableEq, Repr

/-- Value of an operand. -/
def evalOperand (fr : Frame) : Operand → Option RVal
  | .const c => some (.int c.payload)
  | .global name _ => some (.elemPtr name 0)
  | .reg id _ _ => fr.env.lookup id

/-- Element `k` of the initializer of the global called `name`. -/
def readGlobal (globals : List GlobalVariable) (name : String) (k : Int) : Option RVal :=
  match globals.find? (fun g => g.name = name) with
  | some ⟨_, some init⟩ =>
    if 0 ≤ k then (init.operands[k.toNat]?).map (fun v => RVal.int v.payload) else none
  | _ => none

/-- Value read through an address. -/
def readMem (globals : List GlobalVariable) (fr : Frame) : RVal → Option RVal
  | .stackCell c => fr.cells.lookup c
  | .elemPtr g k => readGlobal globals g k
  | .int _ => none

/-- Block with the given identity. -/
def findBlock (blocks : List BasicBlock) (id : BlockId) : Option BasicBlock :=
  blocks.find? (fun b => b.id = id)

/-- Target of a switch: the first case whose constant equals the value, else
the default target. -/
def switchTarget (cases : List (Value × BlockId)) (defaultDest : BlockId) (v : Int) : BlockId :=
  match cases.find? (fun c => c.1.payload = v) with
  | some c => c.2
  | none => defaultDest

/-- Execute from the given instruction list until the instruction `target` has
run, and return the value it produced.  Instructions of kind `other` that do
not end a block are passed over; execution is stuck (`none`) at a return, at
an unknown terminator, at the end of a block without terminator, and on any
operand without value. -/
def runTo (globals : List GlobalVariable) (blocks : List BasicBlock) (target : InstId) :
    Nat → Frame → List Instruction → Option RVal
  | 0, _, _ => none
  | _ + 1, _, [] => none
  | fuel + 1, fr, inst :: rest =>
    match inst.kind with
    | .alloca _ =>
      if inst.id = target then some (.stackCell inst.id)
      else runTo globals blocks target fuel ⟨(inst.id, .stackCell inst.id) :: fr.env, fr.cells⟩ rest
    | .gep ptr indices =>
      match evalOperand fr ptr, indices.mapM (evalOperand fr) with
      | some (.elemPtr g 0), some [.int 0, .int k] =>
        if inst.id = target then some (.elemPtr g k)
        else runTo globals blocks target fuel ⟨(inst.id, .elemPtr g k) :: fr.env, fr.cells⟩ rest
      | _, _ => none
    | .load ptr _ =>
      match (evalOperand fr ptr).bind (readMem globals fr) with
      | some v =>
        if inst.id = target then some v
        else runTo globals blocks target fuel ⟨(inst.id, v) :: fr.env, fr.cells⟩ rest
      | none => none
    | .store val ptr =>
      match evalOperand fr val, evalOperand fr ptr with
      | some v, some (.stackCell c) =>
        runTo globals blocks target fuel ⟨fr.env, (c, v) :: fr.cells⟩ rest
      | _, _ => none
    | .br dest =>
      match findBlock blocks dest with
      | some b => runTo globals blocks target fuel fr b.insts
      | none => none
    | .switch cond defaultDest cases =>
      match evalOperand fr cond with
      | some (.int v) =>
        match findBlock blocks (switchTarget cases defaultDest v) with
        | some b => runTo globals blocks target fuel fr b.insts
        | none => none
      | _ => none
    | .ret _ => none
    | .other isTerminator _ =>
      if isTerminator then none else runTo globals blocks target fuel fr rest

/-! ## Scenario data -/

/-- Constant `i32 v`. -/
def i32 (v : Int) : Value := ⟨.integer 32, v⟩

/-- An address order for the scenario constants: by payload. -/
def payloadAddr (v : Value) : Nat := v.payload.toNat

/-- The array `int data[5] = {0,2,4,6,8}` of the pass's own documentation. -/
def dataGlobal : GlobalVariable :=
  { name := "data"
    initializer := some
      { ty := .array (.integer 32) 5
        isAggregateZero := false
        operands := [i32 0, i32 2, i32 4, i32 6, i32 8] } }

/-- The index variable `sym_i` of the scenario (an argument of the function). -/
def symI : Operand := .reg 1 "sym_i" (.integer 32)

/-- The site `x = data[sym_i]` followed by a use of `x`, in one block. -/
def scenarioModule : Module :=
  { globals := [dataGlobal]
    functions :=
      [⟨"main",
        [⟨0,
          [⟨10, "arrayidx", .gep (.global "data" .pointer) [.const (i32 0), symI]⟩,
           ⟨11, "x", .load (.reg 10 "arrayidx" .pointer) 4⟩,
           ⟨12, "", .ret (some (.reg 11 "x" (.integer 32)))⟩]⟩]⟩]
    nextId := 100 }

/-- The entry point `Hello::runOnModule` as written: it builds the catalog,
splits the blocks and pairs the loads, and stops there (it has no call of
`BuildSwitchStmts`).  Returns the module as it is left and the pairs. -/
def runOnModule (addr : Value → Nat) (fuel : Nat) (M : Module) :
    Option (Module × List (InstId × InstId)) :=
  match BuildArrayInfo addr [] M.globals with
  | none => none
  | some info =>
    match BuildGEPBlocks info fuel M with
    | none => none
    | some (M1, relGeps) => some (M1, GetGEPLoadPair M1 relGeps)

/-- The whole transformation: the four components in order, `BuildSwitchStmts`
included. -/
def runPass (addr : Value → Nat) (fuel : Nat) (M : Module) : Option Module :=
  match BuildArrayInfo addr [] M.globals with
  | none => none
  | some info =>
    match BuildGEPBlocks info fuel M with
    | none => none
    | some (M1, relGeps) => BuildSwitchStmts info M1 (GetGEPLoadPair M1 relGeps)

/-! ## Well-formed input and the eligibility conditions -/

/-- A constant array as LLVM builds it: one operand per element of its type,
at least one element, every operand of the element type.  (The condition
only speaks about array-typed initializers other than the zero aggregate.) -/
def Constant.WellFormed (c : Constant) : Prop :=
  c.ty.isArrayTy = true → c.isAggregateZero = false →
    0 < c.operands.length ∧ c.operands.length = c.ty.getNumElements ∧
      ∀ v ∈ c.operands, c.ty.getElementType = some v.ty

instance (c : Constant) : Decidable c.WellFormed := by
  unfold Constant.WellFormed; infer_instance

/-- A global whose initializer, if any, is well formed. -/
def GlobalVariable.WellFormed (g : GlobalVariable) : Prop :=
  match g.initializer with
  | none => True
  | some init => init.WellFormed

instance (g : GlobalVariable) : Decidable g.WellFormed := by
  unfold GlobalVariable.WellFormed; split <;> infer_instance

/-- The four eligibility conditions in the words of the specification: (a) an
initializer, (b) of array type, (c) not the all-zero aggregate, (d) with an
integer element type. -/
def GlobalVariable.isEligible (g : GlobalVariable) : Bool :=
  match g.initializer with
  | none => false
  | some init =>
    init.ty.isArrayTy && !init.isAggregateZero &&
      (match init.ty.getElementType with
       | some e => e.isIntegerTy
       | none => false)

/-- The index list stored under a value (empty when the value is no key). -/
def ValueMap.indices (m : ValueMap) (v : Value) : List Nat := (m.find v).getD []

/-- Positions of the initializer that hold the constant `w`, in index order. -/
def Constant.positionsOf (init : Constant) (w : Value) : List Nat :=
  (List.range init.operands.length).filter (fun k => decide (init.operands[k]? = some w))

/-- The catalog of the scenario, in the order of `payloadAddr`. -/
def scenarioInfo : ArrayInfo :=
  [("data", [(i32 0, [0, 0]), (i32 2, [1]), (i32 4, [2]), (i32 6, [3]), (i32 8, [4])])]

/-- The blocks of the scenario function after `BuildGEPBlocks`. -/
def scenarioSplitBlocks : List BasicBlock :=
  [⟨0, [⟨101, "", .br 100⟩]⟩,
   ⟨100, [⟨10, "arrayidx", .gep (.global "data" .pointer) [.const (i32 0), symI]⟩,
     ⟨103, "", .br 102⟩]⟩,
   ⟨104, [⟨105, "", .br 102⟩]⟩,
   ⟨102, [⟨11, "x", .load (.reg 10 "arrayidx" .pointer) 4⟩,
     ⟨12, "", .ret (some (.reg 11 "x" (.integer 32)))⟩]⟩]

/-- Case lists of the switch instructions of a function. -/
def switchCases (f : Function) : List (List (Value × BlockId)) :=
  f.insts.filterMap fun i =>
    match i.kind with
    | .switch _ _ cs => some cs
    | _ => none

/-- GEPs whose base is called `name`. -/
def targets (name : String) (inst : Instruction) : Bool :=
  match inst.kind with
  | .gep ptr _ => ptr.getName = name
  | _ => false

/-- The loads of the module that read through the value `g`, in traversal
order. -/
def loadsOf (M : Module) (g : InstId) : List Instruction :=
  M.insts.filter (isLoadOf g)

/-- The (value, index) pairs of an inner map in the order in which
`BuildSwitchStmts` walks them. -/
def ValueMap.pairs (m : ValueMap) : List (Value × Nat) :=
  m.flatMap fun e => e.2.map fun k => (e.1, k)

/-- Keys of an inner map. -/
def ValueMap.keys (m : ValueMap) : List Value := m.map Prod.fst

/-- Constant of the integer type of width `bits`. -/
def intConst (bits : Nat) (v : Int) : Value := ⟨.integer bits, v⟩

/-- A global constant integer array with the given name, element width and
values. -/
def arrayGlobal (name : String) (bits : Nat) (vs : List Int) : GlobalVariable :=
  { name := name
    initializer := some
      { ty := .array (.integer bits) vs.length
        isAggregateZero := false
        operands := vs.map (intConst bits) } }

/-! ## The shape of the splitter's result -/

/-- Number of relevant GEPs in an instruction list. -/
def relevantCount (info : ArrayInfo) (l : List Instruction) : Nat :=
  (l.filter (isRelevantGEP info)).length

/-- Blocks that replace the block `bb`, from the instruction list `after` on
(`before` already passed), when the toggle is off at its start: for every
relevant GEP the current block is closed with a branch, then come the block
of the GEP, its default block, and the continuation block, which is split in
the same way.  Also returns the recorded GEPs and the identity counter. -/
def splitInsts (info : ArrayInfo) :
    Nat → BlockId → List Instruction → List Instruction → List BasicBlock × List InstId × Nat
  | n, bb, before, [] => ([⟨bb, before⟩], [], n)
  | n, bb, before, inst :: rest =>
    if isRelevantGEP info inst then
      match splitInsts info (n + 6) (n + 2) [] rest with
      | (bs, ids, n1) =>
        (⟨bb, before ++ [⟨n + 1, "", .br n⟩]⟩ ::
          ⟨n, [inst, ⟨n + 3, "", .br (n + 2)⟩]⟩ ::
          ⟨n + 4, [⟨n + 5, "", .br (n + 2)⟩]⟩ :: bs, inst.id :: ids, n1)
    else splitInsts info n bb (before ++ [inst]) rest

/-- The same for a block list. -/
def splitBlocks (info : ArrayInfo) : Nat → List BasicBlock → List BasicBlock × List InstId × Nat
  | n, [] => ([], [], n)
  | n, b :: rest =>
    match splitInsts info n b.id [] b.insts with
    | (bs1, ids1, n1) =>
      match splitBlocks info n1 rest with
      | (bs2, ids2, n2) => (bs1 ++ bs2, ids1 ++ ids2, n2)

/-- The same for a function list. -/
def splitFunctions (info : ArrayInfo) : Nat → List Function → List Function × List InstId × Nat
  | n, [] => ([], [], n)
  | n, f :: rest =>
    match splitBlocks info n f.blocks with
    | (bs, ids1, n1) =>
      match splitFunctions info n1 rest with
      | (fs, ids2, n2) => (⟨f.name, bs⟩ :: fs, ids1 ++ ids2, n2)

/-- Block visits `BuildGEPBlocks` makes on a block list: one per block and
three more per relevant GEP. -/
def scanCost (info : ArrayInfo) : List BasicBlock → Nat
  | [] => 0
  | b :: rest => 1 + 3 * relevantCount info b.insts + scanCost info rest

/-- A step budget that is enough for every function of the module. -/
def splitBudget (info : ArrayInfo) (M : Module) : Nat :=
  (M.functions.map fun f => scanCost info f.blocks).foldr max 0

/-- The recorded site `g` has its scaffolding in the block list: its block
holds the GEP and a branch to the continuation block `p`, the next block in
layout is a default block (a single branch to `p`), and `p` follows. -/
def SiteHasDefault (blocks : List BasicBlock) (g : InstId) : Prop :=
  ∃ (front back : List BasicBlock) (b d p j1 j2 : Nat) (gi : Instruction)
    (rest : List Instruction),
    blocks = front ++ ⟨b, [gi, ⟨j1, "", .br p⟩]⟩ :: ⟨d, [⟨j2, "", .br p⟩]⟩ :: ⟨p, rest⟩ :: back ∧
      gi.id = g

/-! ## The shape of the materializer's result -/

/-- Cases that `BuildSwitchStmts` adds for a list of (value, index) pairs when
the index operand has the integer type of width `bits`; `n` is the identity
counter. -/
def caseList (bits : Nat) : Nat → List (Value × Nat) → List (Value × BlockId)
  | _, [] => []
  | n, (_, k) :: rest => (intLabel bits k, n) :: caseList bits (n + 3) rest

/-- The block of one case: the store of the value into the scratch cell and
the branch to the default block. -/
def caseBlock (holder : Operand) (d : BlockId) (n : Nat) (v : Value) : BasicBlock :=
  ⟨n, [⟨n + 2, "", .store (.const v) holder⟩, ⟨n + 1, "", .br d⟩]⟩

/-- Blocks that `BuildSwitchStmts` creates for a list of (value, index) pairs. -/
def caseBlocks (holder : Operand) (d : BlockId) : Nat → List (Value × Nat) → List BasicBlock
  | _, [] => []
  | n, (v, _) :: rest => caseBlock holder d n v :: caseBlocks holder d (n + 3) rest

/-- Instructions without modelled effect that do not end a block. -/
def isPlain (x : Instruction) : Bool :=
  match x.kind with
  | .other false _ => true
  | _ => false

/-- A program with one constant integer array and one read of it through one
index computation: the global `name` with the values `vs` of width `bits`, and
one function whose single block is `pre`, the GEP `name[idx]`, the load
through that GEP, and `post`.  The index `idx` is a local value of integer
type. -/
structure ReadSite where
  name : String
  bits : Nat
  vs : List Int
  fname : String
  entry : Nat
  pre : List Instruction
  post : List Instruction
  gepId : Nat
  loadId : Nat
  align : Nat
  iId : Nat
  iname : String
  ibits : Nat
  nextId : Nat

/-- The index operand. -/
def ReadSite.idx (S : ReadSite) : Operand := .reg S.iId S.iname (.integer S.ibits)

/-- The index computation. -/
def ReadSite.gep (S : ReadSite) : Instruction :=
  ⟨S.gepId, "arrayidx", .gep (.global S.name .pointer) [.const (i32 0), S.idx]⟩

/-- The read. -/
def ReadSite.load (S : ReadSite) : Instruction :=
  ⟨S.loadId, "x", .load (.reg S.gepId "arrayidx" .pointer) S.align⟩

/-- The program. -/
def ReadSite.module (S : ReadSite) : Module :=
  { globals := [arrayGlobal S.name S.bits S.vs]
    functions := [⟨S.fname, [⟨S.entry, S.pre ++ S.gep :: S.load :: S.post⟩]⟩]
    nextId := S.nextId }

/-- Side conditions on a `ReadSite`: the array is named and not empty, its
indices fit the index type, `pre` is straight-line code without modelled
effect, `post` holds no further site on the array and no further read through
the GEP, identities are unique among the named instructions and below the
counter. -/
structure ReadSite.WellFormed (S : ReadSite) : Prop where
  named : S.name ≠ ""
  nonempty : S.vs ≠ []
  width : S.vs.length ≤ 2 ^ (S.ibits - 1)
  pre_plain : ∀ x ∈ S.pre, isPlain x = true
  post_no_site : ∀ x ∈ S.post, targets S.name x = false
  post_no_read : ∀ x ∈ S.post, isLoadOf S.gepId x = false
  ids : ∀ x ∈ S.pre ++ S.post, x.id ≠ S.gepId ∧ x.id ≠ S.loadId
  fresh : S.entry < S.nextId ∧ S.gepId < S.nextId ∧ S.loadId < S.nextId ∧ S.iId < S.nextId
  distinct : S.gepId ≠ S.loadId ∧ S.iId ≠ S.gepId ∧ S.iId ≠ S.loadId

/-- The blocks of the function of a `ReadSite` after `BuildGEPBlocks`. -/
def ReadSite.blocksAfterSplit (S : ReadSite) : List BasicBlock :=
  [⟨S.entry, S.pre ++ [⟨S.nextId + 1, "", .br S.nextId⟩]⟩,
   ⟨S.nextId, [S.gep, ⟨S.nextId + 3, "", .br (S.nextId + 2)⟩]⟩,
   ⟨S.nextId + 4, [⟨S.nextId + 5, "", .br (S.nextId + 2)⟩]⟩,
   ⟨S.nextId + 2, S.load :: S.post⟩]

/-- The module of a `ReadSite` after `BuildGEPBlocks`. -/
def ReadSite.moduleAfterSplit (S : ReadSite) : Module :=
  { globals := [arrayGlobal S.name S.bits S.vs]
    functions := [⟨S.fname, S.blocksAfterSplit⟩]
    nextId := S.nextId + 6 }

/-- The scratch cell. -/
def ReadSite.holder (S : ReadSite) : Operand := .reg (S.nextId + 6) "holder" .pointer

/-- Identity of the load that replaces the read. -/
def ReadSite.newLoadId (S : ReadSite) (m : ValueMap) : Nat :=
  S.nextId + 8 + 3 * m.pairs.length

/-- The load of the scratch cell that replaces the read. -/
def ReadSite.newLoad (S : ReadSite) (m : ValueMap) : Instruction :=
  ⟨S.newLoadId m, "optLoad", .load S.holder S.align⟩

/-- Rewriting of an instruction list by `ReplaceInstWithInst` for the read. -/
def ReadSite.rewrite (S : ReadSite) (m : ValueMap) (l : List Instruction) : List Instruction :=
  replaceInstWithInst S.loadId (S.newLoad m) (.reg (S.newLoadId m) "optLoad" (.integer S.bits)) l

/-- The blocks of the function after the pass, for the catalog entry `m` of
the array. -/
def ReadSite.transformedBlocks (S : ReadSite) (m : ValueMap) : List BasicBlock :=
  [⟨S.entry, S.rewrite m S.pre ++ [⟨S.nextId + 1, "", .br S.nextId⟩]⟩,
   ⟨S.nextId,
     [⟨S.nextId + 6, "holder", .alloca (.integer S.bits)⟩, S.gep,
      ⟨S.nextId + 7, "", .switch S.idx (S.nextId + 4) (caseList S.ibits (S.nextId + 8) m.pairs)⟩]⟩] ++
    caseBlocks S.holder (S.nextId + 4) (S.nextId + 8) m.pairs ++
    [⟨S.nextId + 4, [⟨S.nextId + 5, "", .br (S.nextId + 2)⟩]⟩,
     ⟨S.nextId + 2, S.newLoad m :: S.rewrite m S.post⟩]

/-- The module after the pass. -/
def ReadSite.transformed (S : ReadSite) (m : ValueMap) : Module :=
  { globals := [arrayGlobal S.name S.bits S.vs]
    functions := [⟨S.fname, S.transformedBlocks m⟩]
    nextId := S.newLoadId m + 1 }

/-- The scenario as a `ReadSite`. -/
def scenarioSite : ReadSite :=
  { name := "data", bits := 32, vs := [0, 2, 4, 6, 8], fname := "main", entry := 0
    pre := [], post := [⟨12, "", .ret (some (.reg 11 "x" (.integer 32)))⟩]
    gepId := 10, loadId := 11, align := 4, iId := 1, iname := "sym_i", ibits := 32
    nextId := 100 }

/-- What the continuation block `cont` of a site holds, given the instructions
`rest` that followed the site in its original block and the blocks `back`
that come after the continuation block: nothing when nothing followed the
site; when the next instruction `x` is itself a relevant GEP, a single branch
to the next block, which starts with `x`; otherwise `cont` starts with `x`. -/
def ContinuationOf (info : ArrayInfo) (rest cont : List Instruction)
    (back : List BasicBlock) : Prop :=
  match rest with
  | [] => cont = []
  | x :: _ =>
    if isRelevantGEP info x then
      ∃ (j q : Nat) (tail : List Instruction),
        cont = [⟨j, "", .br q⟩] ∧ back.head? = some ⟨q, x :: tail⟩
    else cont.head? = some x

/-- The scaffolding of the site `g`, which was followed by `rest` in its
original block: the block of the site holds `g` and a branch to the
continuation block `p`; the next block in layout is the default block, a
single branch to `p`; then comes `p`, described by `ContinuationOf`. -/
def SiteScaffold (info : ArrayInfo) (blocks : List BasicBlock) (g : Instruction)
    (rest : List Instruction) : Prop :=
  ∃ (front back : List BasicBlock) (b d p j1 j2 : Nat) (cont : List Instruction),
    blocks = front ++ ⟨b, [g, ⟨j1, "", .br p⟩]⟩ :: ⟨d, [⟨j2, "", .br p⟩]⟩ :: ⟨p, cont⟩ :: back ∧
      ContinuationOf info rest cont back

/-- A second index into `data`. -/
def symJ : Operand := .reg 2 "sym_j" (.integer 32)

/-- A function with two index computations on `data` in a row, followed by
the two reads. -/
def twoSiteModule : Module :=
  { globals := [dataGlobal]
    functions :=
      [⟨"main",
        [⟨0,
          [⟨10, "p", .gep (.global "data" .pointer) [.const (i32 0), symI]⟩,
           ⟨11, "q", .gep (.global "data" .pointer) [.const (i32 0), symJ]⟩,
           ⟨12, "x", .load (.reg 10 "p" .pointer) 4⟩,
           ⟨13, "y", .load (.reg 11 "q" .pointer) 4⟩,
           ⟨14, "", .ret (some (.reg 12 "x" (.integer 32)))⟩]⟩]⟩]
    nextId := 100 }

/-- The blocks of `twoSiteModule` after `BuildGEPBlocks`. -/
def twoSiteSplitBlocks : List BasicBlock :=
  [⟨0, [⟨101, "", .br 100⟩]⟩,
   ⟨100, [⟨10, "p", .gep (.global "data" .pointer) [.const (i32 0), symI]⟩,
     ⟨103, "", .br 102⟩]⟩,
   ⟨104, [⟨105, "", .br 102⟩]⟩,
   ⟨102, [⟨107, "", .br 106⟩]⟩,
   ⟨106, [⟨11, "q", .gep (.global "data" .pointer) [.const (i32 0), symJ]⟩,
     ⟨109, "", .br 108⟩]⟩,
   ⟨110, [⟨111, "", .br 108⟩]⟩,
   ⟨108, [⟨12, "x", .load (.reg 10 "p" .pointer) 4⟩,
     ⟨13, "y", .load (.reg 11 "q" .pointer) 4⟩,
     ⟨14, "", .ret (some (.reg 12 "x" (.integer 32)))⟩]⟩]

/-- A first global called `data`: `int data[2] = {1,2}`. -/
def firstData : GlobalVariable :=
  { name := "data"
    initializer := some
      { ty := .array (.integer 32) 2, isAggregateZero := false, operands := [i32 1, i32 2] } }

/-- A second global called `data`: `int data[1] = {7}`. -/
def secondData : GlobalVariable :=
  { name := "data"
    initializer := some
      { ty := .array (.integer 32) 1, isAggregateZero := false, operands := [i32 7] } }

/-- The entries of an inner map whose key has an integer type. -/
def ValueMap.integerEntries (m : ValueMap) : ValueMap :=
  m.filter fun e => e.1.ty.isIntegerTy

/-- A catalog whose entry for `data` holds a 32-bit integer value (the first
key, which gives the scratch cell its type) and a floating-point value. -/
def mixedInfo : ArrayInfo :=
  [("data", [(i32 0, [0]), (⟨.floating, 4⟩, [1])])]

/-- The catalog without the values that are not of integer type. -/
def ArrayInfo.integerEntries (info : ArrayInfo) : ArrayInfo :=
  info.map fun e => (e.1, e.2.integerEntries)

/-- How one round of the pair loop of `BuildSwitchStmts` ends: it finishes
with a module, or it comes to a step that has no defined behaviour.  The
function returns `void`, raises nothing and calls no handler, so an error is
not among the ends. -/
inductive RoundEnd where
  /-- The round ran to its end. -/
  | finished (M : Module)
  /-- The pair's first component points to no index computation of the module. -/
  | danglingGep
  /-- The call `begin()->first` on an inner map without entries. -/
  | emptyEntry
  /-- The variable `defBlock` is read although the search loop never assigned
  it; `soFar` is the module as the round has changed it by then. -/
  | uninitializedDefBlock (soFar : Module)
  /-- The call `getOperand(2)` on an index computation with fewer operands. -/
  | operandOutOfRange
  /-- The call `ConstantInt::get` with a type that is no integer type. -/
  | notAnIntegerType
  /-- The pair's second component points to no load of the module. -/
  | danglingLoad
deriving DecidableEq, Repr

/-- The module a round returns, if it finishes. -/
def RoundEnd.result : RoundEnd → Option Module
  | .finished M => some M
  | _ => none

/-- One round of the pair loop of `BuildSwitchStmts`, statement by statement:
the lookup of the name, the search for `defBlock` (which assigns nothing when
no block follows), the creation of `holder` before the index computation, the
erasure of the last instruction of the block, and only then the creation of
the switch, which reads `defBlock`. -/
def switchOnePairTrace (info : ArrayInfo) (M : Module) (gepId loadId : InstId) : RoundEnd :=
  match locateInFunctions gepId M.functions 0 with
  | none => .danglingGep
  | some (fi, bi, gepInst) =>
    match gepInst.kind with
    | .gep ptr indices =>
      match info.find ptr.getName with
      | none => .finished M
      | some sub =>
        match M.functions[fi]? with
        | none => .danglingGep
        | some ParentFunction =>
          match ParentFunction.blocks[bi]? with
          | none => .danglingGep
          | some ParentBB =>
            match sub.head? with
            | none => .emptyEntry
            | some first =>
              let holderInst : Instruction := ⟨M.nextId, "holder", .alloca first.1.ty⟩
              let holder : Operand := .reg M.nextId "holder" .pointer
              let erased := (insertBefore gepId holderInst ParentBB.insts).dropLast
              match ParentFunction.blocks[bi + 1]? with
              | none =>
                .uninitializedDefBlock
                  ⟨M.globals,
                    M.functions.set fi
                      ⟨ParentFunction.name, ParentFunction.blocks.set bi ⟨ParentBB.id, erased⟩⟩,
                    M.nextId + 1⟩
              | some defBlock =>
                match gepOperand ptr indices 2 with
                | none => .operandOutOfRange
                | some idxOp =>
                  match valueLoop holder defBlock.id idxOp.getType sub (M.nextId + 2) with
                  | none => .notAnIntegerType
                  | some (cases, caseBlocks, n1) =>
                    let si : Instruction := ⟨M.nextId + 1, "", .switch idxOp defBlock.id cases⟩
                    let host : BasicBlock := ⟨ParentBB.id, erased ++ [si]⟩
                    let blocks1 :=
                      ParentFunction.blocks.take bi ++ [host] ++ caseBlocks ++
                        ParentFunction.blocks.drop (bi + 1)
                    let fs1 := M.functions.set fi ⟨ParentFunction.name, blocks1⟩
                    match locateInFunctions loadId fs1 0 with
                    | some (_, _, ⟨_, _, .load _ align⟩) =>
                      let newli : Instruction := ⟨n1, "optLoad", .load holder align⟩
                      let newRef : Operand := .reg n1 "optLoad" first.1.ty
                      .finished
                        ⟨M.globals, mapInstLists (replaceInstWithInst loadId newli newRef) fs1,
                          n1 + 1⟩
                    | _ => .danglingLoad
    | _ => .danglingGep

/-- The scenario module after `BuildGEPBlocks`. -/
def scenarioSplitModule : Module := ⟨[dataGlobal], [⟨"main", scenarioSplitBlocks⟩], 106⟩

/-- The blocks of the scenario function after the round of `BuildSwitchStmts`
for the pair (10, 11). -/
def scenarioSwitchBlocks : List BasicBlock :=
  [⟨0, [⟨101, "", .br 100⟩]⟩,
   ⟨100, [⟨106, "holder", .alloca (.integer 32)⟩,
     ⟨10, "arrayidx", .gep (.global "data" .pointer) [.const (i32 0), symI]⟩,
     ⟨107, "", .switch symI 104
       [(i32 0, 108), (i32 0, 111), (i32 1, 114), (i32 2, 117), (i32 3, 120), (i32 4, 123)]⟩]⟩,
   ⟨108, [⟨110, "", .store (.const (i32 0)) (.reg 106 "holder" .pointer)⟩, ⟨109, "", .br 104⟩]⟩,
   ⟨111, [⟨113, "", .store (.const (i32 0)) (.reg 106 "holder" .pointer)⟩, ⟨112, "", .br 104⟩]⟩,
   ⟨114, [⟨116, "", .store (.const (i32 2)) (.reg 106 "holder" .pointer)⟩, ⟨115, "", .br 104⟩]⟩,
   ⟨117, [⟨119, "", .store (.const (i32 4)) (.reg 106 "holder" .pointer)⟩, ⟨118, "", .br 104⟩]⟩,
   ⟨120, [⟨122, "", .store (.const (i32 6)) (.reg 106 "holder" .pointer)⟩, ⟨121, "", .br 104⟩]⟩,
   ⟨123, [⟨125, "", .store (.const (i32 8)) (.reg 106 "holder" .pointer)⟩, ⟨124, "", .br 104⟩]⟩,
   ⟨104, [⟨105, "", .br 102⟩]⟩,
   ⟨102, [⟨126, "optLoad", .load (.reg 106 "holder" .pointer) 4⟩,
     ⟨12, "", .ret (some (.reg 126 "optLoad" (.integer 32)))⟩]⟩]

/-- What a round of `BuildSwitchStmts` leaves at a site on the array with the
initializer `init`, in function `fi` and block `bi` of the module `M` it
started from (`M1` is the module after the round; `ptr` and `indices` are
the operands of the index computation): the block of the site ends in a
switch on operand 2 of the index computation whose default target is the
block that followed the site's block in `M`; the scratch cell `holder` is
allocated in the block of the site; for every index `k` with element `v` the
switch has a case labelled with the constant `k` of the index type whose
target is a new block holding exactly the store of `v` into the scratch cell
and the branch to the default block. -/
def SwitchStructure (init : Constant) (M M1 : Module) (fi bi : Nat) (ptr : Operand)
    (indices : List Operand) : Prop :=
  ∃ F D idxOp cs F1 host ty,
    M.functions[fi]? = some F ∧ F.blocks[bi + 1]? = some D ∧
    gepOperand ptr indices 2 = some idxOp ∧
    M1.functions[fi]? = some F1 ∧ F1.blocks[bi]? = some host ∧
    ⟨M.nextId, "holder", .alloca ty⟩ ∈ host.insts ∧
    host.insts.getLast? = some ⟨M.nextId + 1, "", .switch idxOp D.id cs⟩ ∧
    ∀ k v, init.operands[k]? = some v →
      ∃ c j, constantIntGet idxOp.getType k = some c ∧ (c, j) ∈ cs ∧ M.nextId ≤ j ∧
        (⟨j, [⟨j + 2, "", .store (.const v) (.reg M.nextId "holder" .pointer)⟩,
          ⟨j + 1, "", .br D.id⟩]⟩ : BasicBlock) ∈ F1.blocks

/-- The global `@u = global [2 x float] undef`: an array-typed initializer
that is not the zero aggregate and has no operands. -/
def undefFloats : GlobalVariable :=
  { name := "u"
    initializer := some { ty := .array .floating 2, isAggregateZero := false, operands := [] } }

/-- The global `@v = global [5 x i32] undef`. -/
def undefInts : GlobalVariable :=
  { name := "v"
    initializer := some
      { ty := .array (.integer 32) 5, isAggregateZero := false, operands := [] } }

/-! ## Programs with one array and one read, and runs side by side -/

/-- Effect of `ReplaceInstWithInst(old, new)` on one instruction: the
instruction `old` becomes `new`, every other instruction has its uses of
`old` redirected to `new`. -/
def redirect (old : Nat) (newInst : Instruction) (newRef : Operand) (x : Instruction) :
    Instruction :=
  if x.id = old then newInst else { x with kind := InstKind.subst old newRef x.kind }

/-- What the pass leaves of an instruction list of the block of the site: the
instructions in front of the index computation `gid` (with the read
redirected by `f`), closed by the branch to the block of the index
computation; a list without the index computation is only redirected. -/
def cutAtSite (gid host brId : Nat) (f : Instruction → Instruction) :
    List Instruction → List Instruction
  | [] => []
  | x :: r => if x.id = gid then [⟨brId, "", .br host⟩] else f x :: cutAtSite gid host brId f r

/-- Correspondence between a frame `fo` of a run of the original function and
a frame `ft` of a run of the transformed function: the local values of the
original function agree, the value of the read `lid` is the value of the new
load `newId`, the stack cells of the original function agree, and once the
index computation `gid` has produced the address of element `k`, the scratch
cell `hid` exists and holds element `k` whenever that element exists.  The
remaining fields say that the original run knows no identity from `n0` on. -/
structure FrameRel (G : List GlobalVariable) (name : String) (n0 gid lid hid newId : Nat)
    (fo ft : Frame) : Prop where
  old : ∀ id, id < n0 → id ≠ lid → ft.env.lookup id = fo.env.lookup id
  read : ft.env.lookup newId = fo.env.lookup lid
  cells : ∀ c, c < n0 → ft.cells.lookup c = fo.cells.lookup c
  bound : ∀ id, n0 ≤ id → fo.env.lookup id = none
  envCells : ∀ id c, fo.env.lookup id = some (.stackCell c) → c < n0
  memCells : ∀ k c, fo.cells.lookup k = some (.stackCell c) → c < n0
  site : ∀ p, fo.env.lookup gid = some p →
    ∃ k, p = .elemPtr name k ∧ ft.env.lookup hid = some (.stackCell hid) ∧
      ∀ v, readGlobal G name k = some v → ft.cells.lookup hid = some v
/-- The data of a site after the pass, as far as a run of the function sees
them: the array, the index computation `gid` and what followed it in its
block (`rest`), the read `lid`, the scratch cell `hid`, the new load `newId`,
and the identities of the blocks and instructions the pass created. -/
structure SiteData where
  G : List GlobalVariable
  name : String
  n0 : Nat
  gid : Nat
  gname : String
  gty : Ty
  zero : Value
  idx : Operand
  rest : List Instruction
  lid : Nat
  hid : Nat
  holderTy : Ty
  newId : Nat
  newTy : Ty
  align : Nat
  host : Nat
  brId : Nat
  swId : Nat
  cases : List (Value × BlockId)
  dflt : Nat
  dbrId : Nat
  cont : Nat

/-- The index computation. -/
def SiteData.gep (D : SiteData) : Instruction :=
  ⟨D.gid, D.gname, .gep (.global D.name D.gty) [.const D.zero, D.idx]⟩

/-- The reference to the new load that replaces the uses of the read. -/
def SiteData.newRef (D : SiteData) : Operand := .reg D.newId "optLoad" D.newTy

/-- The reference to the scratch cell. -/
def SiteData.holder (D : SiteData) : Operand := .reg D.hid "holder" .pointer

/-- The load of the scratch cell. -/
def SiteData.newLoad (D : SiteData) : Instruction := ⟨D.newId, "optLoad", .load D.holder D.align⟩

/-- The effect of `ReplaceInstWithInst` for the read on one instruction. -/
def SiteData.redirect (D : SiteData) : Instruction → Instruction :=
  KleeArray.redirect D.lid D.newLoad D.newRef

/-- The transformed counterpart of an instruction list of the original
function. -/
def SiteData.cut (D : SiteData) : List Instruction → List Instruction :=
  cutAtSite D.gid D.host D.brId D.redirect

/-- The block of the index computation after the pass: the scratch cell, the
index computation and the switch. -/
def SiteData.hostBlock (D : SiteData) : BasicBlock :=
  ⟨D.host,
    [⟨D.hid, "holder", .alloca D.holderTy⟩, D.redirect D.gep,
     ⟨D.swId, "", .switch (Operand.subst D.lid D.newRef D.idx) D.dflt D.cases⟩]⟩

/-- The instruction of the transformed function that stands for the
instruction `t` of the original function. -/
def SiteData.target (D : SiteData) (t : Nat) : Nat := if t = D.lid then D.newId else t

/-- What a run needs to know about the blocks `blocksO` of the original
function and the blocks `blocksT` of the transformed function. -/
structure SiteData.Valid (D : SiteData) (blocksO blocksT : List BasicBlock) : Prop where
  gid_ne_lid : D.gid ≠ D.lid
  gid_lt : D.gid < D.n0
  lid_lt : D.lid < D.n0
  hid_ge : D.n0 ≤ D.hid
  newId_ge : D.n0 ≤ D.newId
  hid_ne : D.hid ≠ D.newId
  fresh : ∀ b ∈ blocksO, ∀ x ∈ b.insts, x.id < D.n0
  site : ∀ b ∈ blocksO, ∀ x L, (x :: L) <:+ b.insts → x.id = D.gid → x = D.gep ∧ L = D.rest
  read : ∀ b ∈ blocksO, ∀ x ∈ b.insts, x.id = D.lid →
    ∃ nm ty a, x.kind = .load (.reg D.gid nm ty) a
  old : ∀ id b, findBlock blocksO id = some b →
    findBlock blocksT id = some ⟨b.id, D.cut b.insts⟩
  hostAt : findBlock blocksT D.host = some D.hostBlock
  dfltAt : findBlock blocksT D.dflt = some ⟨D.dflt, [⟨D.dbrId, "", .br D.cont⟩]⟩
  contAt : findBlock blocksT D.cont = some ⟨D.cont, D.cut D.rest⟩
  caseAt : ∀ k v, readGlobal D.G D.name k = some v →
    ∃ b c j1 j2, switchTarget D.cases D.dflt k = b ∧
      findBlock blocksT b =
        some ⟨b, [⟨j1, "", .store (.const c) D.holder⟩, ⟨j2, "", .br D.dflt⟩]⟩ ∧
      RVal.int c.payload = v
  noCase : ∀ k, readGlobal D.G D.name k = none → switchTarget D.cases D.dflt k = D.dflt
/-- A program with one constant integer array and a single read of it through
one index computation: the global `name` with the values `vs` of width `bits`;
any functions `fsBefore` and `fsAfter`; and the function `fname`, whose blocks
are `bsBefore`, the block `site` with the instructions `pre`, the index
computation `gep @name, zero, idx` and `rest`, and `bsAfter`.  The read is the
instruction `read`, wherever it stands. -/
structure ReadProgram where
  name : String
  bits : Nat
  vs : List Int
  fsBefore : List Function
  fname : String
  bsBefore : List BasicBlock
  site : Nat
  pre : List Instruction
  gepId : Nat
  gepName : String
  zero : Value
  idx : Operand
  ibits : Nat
  rest : List Instruction
  bsAfter : List BasicBlock
  fsAfter : List Function
  read : Instruction
  nextId : Nat

/-- The index computation. -/
def ReadProgram.gep (S : ReadProgram) : Instruction :=
  ⟨S.gepId, S.gepName, .gep (.global S.name .pointer) [.const S.zero, S.idx]⟩

/-- The block of the index computation. -/
def ReadProgram.siteBlock (S : ReadProgram) : BasicBlock :=
  ⟨S.site, S.pre ++ S.gep :: S.rest⟩

/-- The blocks of the function of the site. -/
def ReadProgram.blocks (S : ReadProgram) : List BasicBlock :=
  S.bsBefore ++ S.siteBlock :: S.bsAfter

/-- The program. -/
def ReadProgram.module (S : ReadProgram) : Module :=
  { globals := [arrayGlobal S.name S.bits S.vs]
    functions := S.fsBefore ++ ⟨S.fname, S.blocks⟩ :: S.fsAfter
    nextId := S.nextId }

/-- The instructions of the program other than the index computation. -/
def ReadProgram.others (S : ReadProgram) : List Instruction :=
  S.fsBefore.flatMap Function.insts ++
    (S.bsBefore.flatMap (fun b => b.insts) ++
      (S.pre ++ (S.rest ++
        (S.bsAfter.flatMap (fun b => b.insts) ++ S.fsAfter.flatMap Function.insts))))

/-- Side conditions on a `ReadProgram`: the array is named and not empty; the
index operand has an integer type in which every index of the array is a
non-negative number; no other instruction is an index computation on a base
called like the array; the index computation is the address operand of
exactly one load, the read; instruction identities are pairwise different and
below the counter of the module, and the block identities of the function of
the site are below that counter. -/
structure ReadProgram.WellFormed (S : ReadProgram) : Prop where
  named : S.name ≠ ""
  nonempty : S.vs ≠ []
  index_type : S.idx.getType = .integer S.ibits
  width : S.vs.length ≤ 2 ^ (S.ibits - 1)
  single_site : ∀ x ∈ S.others, targets S.name x = false
  single_read : loadsOf S.module S.gepId = [S.read]
  inst_ids : (S.module.insts.map fun x => x.id).Nodup
  inst_fresh : ∀ x ∈ S.module.insts, x.id < S.nextId
  block_fresh : ∀ b ∈ S.blocks, b.id < S.nextId

/-- The blocks of the function of the site after `BuildGEPBlocks`. -/
def ReadProgram.blocksAfterSplit (S : ReadProgram) : List BasicBlock :=
  S.bsBefore ++
    ⟨S.site, S.pre ++ [⟨S.nextId + 1, "", .br S.nextId⟩]⟩ ::
    ⟨S.nextId, [S.gep, ⟨S.nextId + 3, "", .br (S.nextId + 2)⟩]⟩ ::
    ⟨S.nextId + 4, [⟨S.nextId + 5, "", .br (S.nextId + 2)⟩]⟩ ::
    ⟨S.nextId + 2, S.rest⟩ :: S.bsAfter

/-- The module after `BuildGEPBlocks`. -/
def ReadProgram.moduleAfterSplit (S : ReadProgram) : Module :=
  { globals := [arrayGlobal S.name S.bits S.vs]
    functions := S.fsBefore ++ ⟨S.fname, S.blocksAfterSplit⟩ :: S.fsAfter
    nextId := S.nextId + 6 }

/-- The data of the site after the pass, for the catalog entry `m` of the
array and the alignment `a` of the read. -/
def ReadProgram.data (S : ReadProgram) (m : ValueMap) (a : Nat) : SiteData :=
  { G := [arrayGlobal S.name S.bits S.vs]
    name := S.name
    n0 := S.nextId
    gid := S.gepId
    gname := S.gepName
    gty := .pointer
    zero := S.zero
    idx := S.idx
    rest := S.rest
    lid := S.read.id
    hid := S.nextId + 6
    holderTy := .integer S.bits
    newId := S.nextId + 8 + 3 * m.pairs.length
    newTy := .integer S.bits
    align := a
    host := S.nextId
    brId := S.nextId + 1
    swId := S.nextId + 7
    cases := caseList S.ibits (S.nextId + 8) m.pairs
    dflt := S.nextId + 4
    dbrId := S.nextId + 5
    cont := S.nextId + 2 }

/-- The blocks of the function of the site after the round of
`BuildSwitchStmts`, before the uses of the read are redirected. -/
def ReadProgram.blocksAfterSwitch (S : ReadProgram) (m : ValueMap) : List BasicBlock :=
  S.bsBefore ++
    ⟨S.site, S.pre ++ [⟨S.nextId + 1, "", .br S.nextId⟩]⟩ ::
    ⟨S.nextId,
      [⟨S.nextId + 6, "holder", .alloca (.integer S.bits)⟩, S.gep,
       ⟨S.nextId + 7, "", .switch S.idx (S.nextId + 4) (caseList S.ibits (S.nextId + 8) m.pairs)⟩]⟩ ::
    (caseBlocks (.reg (S.nextId + 6) "holder" .pointer) (S.nextId + 4) (S.nextId + 8) m.pairs ++
      ⟨S.nextId + 4, [⟨S.nextId + 5, "", .br (S.nextId + 2)⟩]⟩ ::
      ⟨S.nextId + 2, S.rest⟩ :: S.bsAfter)

/-- The module after the pass. -/
def ReadProgram.transformed (S : ReadProgram) (m : ValueMap) (a : Nat) : Module :=
  { globals := [arrayGlobal S.name S.bits S.vs]
    functions :=
      mapInstLists
        (replaceInstWithInst S.read.id (S.data m a).newLoad (S.data m a).newRef)
        (S.fsBefore ++ ⟨S.fname, S.blocksAfterSwitch m⟩ :: S.fsAfter)
    nextId := S.nextId + 8 + 3 * m.pairs.length + 1 }
/-- The blocks of the function of the site after the pass. -/
def ReadProgram.blocksAfterPass (S : ReadProgram) (m : ValueMap) (a : Nat) : List BasicBlock :=
  (S.blocksAfterSwitch m).map fun b =>
    ⟨b.id, replaceInstWithInst S.read.id (S.data m a).newLoad (S.data m a).newRef b.insts⟩
/-- The state at the entry of the function of the site: the frame binds only
arguments, that is, names that exist in the module and that no instruction of
the module defines; no argument is the address of a stack cell, and no stack
cell exists yet. -/
structure ReadProgram.Entry (S : ReadProgram) (fr : Frame) : Prop where
  cells : fr.cells = []
  args : ∀ id v, fr.env.lookup id = some v →
    id < S.nextId ∧ (∀ c, v ≠ .stackCell c) ∧ ∀ x ∈ S.module.insts, x.id ≠ id
/-- The scenario with a use of the read, in two blocks: the entry block
allocates a cell and branches to the block of the site, which reads
`x = data[sym_i]`, stores `x` into the cell and loads it back. -/
def scenarioProgram : ReadProgram :=
  { name := "data", bits := 32, vs := [0, 2, 4, 6, 8]
    fsBefore := [], fname := "main"
    bsBefore := [⟨0, [⟨2, "cell", .alloca (.integer 32)⟩, ⟨3, "", .br 5⟩]⟩]
    site := 5, pre := []
    gepId := 10, gepName := "arrayidx", zero := i32 0, idx := symI, ibits := 32
    rest :=
      [⟨11, "x", .load (.reg 10 "arrayidx" .pointer) 4⟩,
       ⟨12, "", .store (.reg 11 "x" (.integer 32)) (.reg 2 "cell" .pointer)⟩,
       ⟨13, "y", .load (.reg 2 "cell" .pointer) 4⟩,
       ⟨14, "", .ret (some (.reg 13 "y" (.integer 32)))⟩]
    bsAfter := [], fsAfter := []
    read := ⟨11, "x", .load (.reg 10 "arrayidx" .pointer) 4⟩
    nextId := 100 }

/-! ## Theorems -/

/-! ## Lemmas on the maps -/

theorem ValueMap.find_place (addr : Value → Nat) (m : ValueMap) (v : Value) (x : List Nat)
    (w : Value) (habs : m.find v = none) :
    (ValueMap.place addr m v x).find w = if w = v then some x else m.find w := by
  induction m with
  | nil =>
    by_cases h : w = v
    · subst h; simp [ValueMap.place, ValueMap.find]
    · have h2 : ¬ v = w := fun e => h e.symm
      simp [ValueMap.place, ValueMap.find, h, h2]
  | cons e rest ih =>
    obtain ⟨k, y⟩ := e
    have hk : ¬ k = v := by
      intro e; subst e; simp [ValueMap.find] at habs
    have hrest : ValueMap.find rest v = none := by
      simpa [ValueMap.find, hk] using habs
    by_cases hlt : addr v < addr k
    · by_cases h : w = v
      · subst h; simp [ValueMap.place, ValueMap.find, hlt]
      · have h2 : ¬ v = w := fun e => h e.symm
        simp [ValueMap.place, ValueMap.find, hlt, h, h2]
    · by_cases h : w = v
      · subst h; simp [ValueMap.place, ValueMap.find, hlt, hk, ih hrest]
      · by_cases hkw : k = w
        · subst hkw; simp [ValueMap.place, ValueMap.find, hlt, h]
        · simp [ValueMap.place, ValueMap.find, hlt, ih hrest, h, hkw]

theorem ValueMap.find_insert (addr : Value → Nat) (m : ValueMap) (v : Value) (x : List Nat)
    (w : Value) :
    (ValueMap.insert addr m v x).find w =
      if w = v then some ((m.find v).getD x) else m.find w := by
  unfold ValueMap.insert
  cases hf : m.find v with
  | some y =>
    by_cases h : w = v
    · subst h; simp [hf]
    · simp [h]
  | none =>
    simp only [ValueMap.find_place addr m v x w hf]
    by_cases h : w = v
    · simp [h]
    · simp [h]

theorem ValueMap.find_append (m : ValueMap) (v : Value) (i : Nat) (w : Value) :
    (ValueMap.append m v i).find w =
      if w = v then (m.find v).map (fun x => x ++ [i]) else m.find w := by
  induction m with
  | nil => by_cases h : w = v <;> simp [ValueMap.append, ValueMap.find, h]
  | cons e rest ih =>
    obtain ⟨k, y⟩ := e
    by_cases hk : k = v
    · subst hk
      by_cases h : w = k
      · subst h; simp [ValueMap.append, ValueMap.find]
      · have h2 : ¬ k = w := fun e => h e.symm
        simp [ValueMap.append, ValueMap.find, h, h2]
    · by_cases h : w = v
      · subst h; simp [ValueMap.append, ValueMap.find, hk, ih]
      · by_cases hkw : k = w
        · subst hkw; simp [ValueMap.append, ValueMap.find, hk, h]
        · simp [ValueMap.append, ValueMap.find, hk, ih, h, hkw]

theorem ValueMap.find_pushBack (addr : Value → Nat) (m : ValueMap) (v : Value) (i : Nat)
    (w : Value) :
    (m.pushBack addr v i).find w =
      if w = v then some (m.indices v ++ [i]) else m.find w := by
  unfold ValueMap.pushBack ValueMap.indices
  rw [ValueMap.find_append]
  by_cases h : w = v
  · subst h; simp [ValueMap.find_insert]
  · simp [ValueMap.find_insert, h]

theorem ValueMap.insert_of_find (addr : Value → Nat) (m : ValueMap) (v : Value)
    (y z : List Nat) (h : m.find v = some z) : ValueMap.insert addr m v y = m := by
  unfold ValueMap.insert
  rw [h]

theorem ValueMap.insert_insert (addr : Value → Nat) (m : ValueMap) (v : Value)
    (x y : List Nat) :
    ValueMap.insert addr (ValueMap.insert addr m v x) v y = ValueMap.insert addr m v x := by
  have h := ValueMap.find_insert addr m v x v
  simp only [if_true] at h
  exact ValueMap.insert_of_find addr _ v y _ h

theorem ValueMap.indices_pushBack (addr : Value → Nat) (m : ValueMap) (v : Value) (i : Nat)
    (w : Value) :
    (m.pushBack addr v i).indices w =
      if w = v then m.indices v ++ [i] else m.indices w := by
  unfold ValueMap.indices
  rw [ValueMap.find_pushBack]
  by_cases h : w = v
  · subst h; simp [ValueMap.indices]
  · simp [h]

theorem ArrayInfo.find_after_insert (info : ArrayInfo) (name : String) (m : ValueMap) (k : String) :
    (info.insert name m).find k =
      if k = name then some ((info.find name).getD m) else info.find k := by
  induction info with
  | nil =>
    by_cases h : k = name
    · subst h; simp [ArrayInfo.insert, ArrayInfo.find]
    · have h2 : ¬ name = k := fun e => h e.symm
      simp [ArrayInfo.insert, ArrayInfo.find, h, h2]
  | cons e rest ih =>
    obtain ⟨n, y⟩ := e
    by_cases hn : n = name
    · subst hn
      by_cases h : k = n
      · subst h; simp [ArrayInfo.insert, ArrayInfo.find]
      · have h2 : ¬ n = k := fun e => h e.symm
        simp [ArrayInfo.insert, ArrayInfo.find, h, h2]
    · by_cases h : k = name
      · subst h; simp [ArrayInfo.insert, ArrayInfo.find, hn, ih]
      · by_cases hnk : n = k
        · subst hnk; simp [ArrayInfo.insert, ArrayInfo.find, hn, h]
        · simp [ArrayInfo.insert, ArrayInfo.find, hn, ih, h, hnk]

theorem ArrayInfo.find_set (info : ArrayInfo) (name : String) (m : ValueMap) (k : String) :
    (info.set name m).find k = if k = name then some m else info.find k := by
  induction info with
  | nil =>
    by_cases h : k = name
    · subst h; simp [ArrayInfo.set, ArrayInfo.find]
    · have h2 : ¬ name = k := fun e => h e.symm
      simp [ArrayInfo.set, ArrayInfo.find, h, h2]
  | cons e rest ih =>
    obtain ⟨n, y⟩ := e
    by_cases hn : n = name
    · subst hn
      by_cases h : k = n
      · subst h; simp [ArrayInfo.set, ArrayInfo.find]
      · have h2 : ¬ n = k := fun e => h e.symm
        simp [ArrayInfo.set, ArrayInfo.find, h, h2]
    · by_cases h : k = name
      · subst h; simp [ArrayInfo.set, ArrayInfo.find, hn, ih]
      · by_cases hnk : n = k
        · subst hnk; simp [ArrayInfo.set, ArrayInfo.find, hn, h]
        · simp [ArrayInfo.set, ArrayInfo.find, hn, ih, h, hnk]

theorem ArrayInfo.mem_keys_iff (info : ArrayInfo) (name : String) :
    name ∈ info.keys ↔ (info.find name).isSome = true := by
  induction info with
  | nil => simp [ArrayInfo.keys, ArrayInfo.find]
  | cons e rest ih =>
    obtain ⟨n, y⟩ := e
    by_cases hn : n = name
    · subst hn; simp [ArrayInfo.keys, ArrayInfo.find]
    · have h2 : ¬ name = n := fun e => hn e.symm
      simp only [ArrayInfo.keys] at ih
      simp [ArrayInfo.keys, ArrayInfo.find, hn, h2, ih]

/-! ## The catalog builder on well-formed input -/

theorem elementLoop_spec (addr : Value → Nat) (init : Constant) :
    ∀ (remaining i : Nat) (m : ValueMap), i + remaining ≤ init.operands.length →
      ∃ m1, elementLoop addr init remaining i m = some m1 ∧
        ∀ w, m1.indices w = m.indices w ++
          (List.range' i remaining).filter (fun k => decide (init.operands[k]? = some w)) := by
  intro remaining
  induction remaining with
  | zero =>
    intro i m _
    exact ⟨m, rfl, by intro w; simp⟩
  | succ r ih =>
    intro i m hle
    have hi : i < init.operands.length := by omega
    have hop : init.getOperand i = some (init.operands[i]) := by
      simp [Constant.getOperand, List.getElem?_eq_getElem hi]
    have hstep : (match m.find init.operands[i] with
        | some _ => m.pushBack addr init.operands[i] i
        | none => (m.insert addr init.operands[i] []).pushBack addr init.operands[i] i)
        = m.pushBack addr init.operands[i] i := by
      cases m.find init.operands[i] with
      | some _ => rfl
      | none => simp [ValueMap.pushBack, ValueMap.insert_insert]
    obtain ⟨m1, h1, h2⟩ := ih (i + 1) (m.pushBack addr init.operands[i] i) (by omega)
    refine ⟨m1, ?_, ?_⟩
    · simp only [elementLoop, hop, hstep]
      exact h1
    · intro w
      rw [h2 w, ValueMap.indices_pushBack, List.range'_succ]
      by_cases hw : w = init.operands[i]
      · subst hw
        simp [List.filter_cons, List.getElem?_eq_getElem hi]
      · have hw2 : ¬ init.operands[i] = w := fun e => hw e.symm
        simp [List.filter_cons, List.getElem?_eq_getElem hi, hw, hw2]

/-- On a well-formed, array-typed, non-zero initializer the code's test on
operand 0 is the test on the element type. -/
theorem wellFormed_operand0 (init : Constant) (hwf : init.WellFormed)
    (harr : init.ty.isArrayTy = true) (hz : init.isAggregateZero = false) :
    ∃ op0, init.getOperand 0 = some op0 ∧ init.operands[0]? = some op0 ∧
      init.ty.getElementType = some op0.ty ∧
      init.operands.length = init.ty.getNumElements := by
  obtain ⟨hpos, hlen, hty⟩ := hwf harr hz
  refine ⟨init.operands[0], ?_, ?_, ?_, hlen⟩
  · simp [Constant.getOperand, List.getElem?_eq_getElem hpos]
  · simp [List.getElem?_eq_getElem hpos]
  · exact hty _ (List.getElem_mem _)

theorem visitGlobal_skip (addr : Value → Nat) (info : ArrayInfo) (g : GlobalVariable)
    (hwf : g.WellFormed) (hne : g.isEligible = false) :
    visitGlobal addr info g = some info := by
  unfold visitGlobal
  cases hinit : g.initializer with
  | none => rfl
  | some init =>
    simp only
    have hwf1 : init.WellFormed := by
      simpa [GlobalVariable.WellFormed, hinit] using hwf
    by_cases harr : init.ty.isArrayTy = true
    · by_cases hz : init.isAggregateZero = false
      · obtain ⟨op0, h0, _, hel, _⟩ := wellFormed_operand0 init hwf1 harr hz
        have hint : op0.ty.isIntegerTy = false := by
          simpa [GlobalVariable.isEligible, hinit, harr, hz, hel] using hne
        simp [harr, hz, h0, hint]
      · simp [harr, hz]
    · simp [harr]

/-- What one eligible global does to the catalog. -/
theorem visitGlobal_eligible (addr : Value → Nat) (info : ArrayInfo) (g : GlobalVariable)
    (init : Constant) (hinit : g.initializer = some init)
    (hwf : g.WellFormed) (he : g.isEligible = true) :
    ∃ op0 m info1, init.operands[0]? = some op0 ∧
      visitGlobal addr info g = some info1 ∧
      (∀ k, info1.find k = if k = g.name then some m else info.find k) ∧
      (∀ w, m.indices w =
        (match info.find g.name with
         | none => if w = op0 then [0] else []
         | some sub => sub.indices w) ++ init.positionsOf w) := by
  have hwf1 : init.WellFormed := by
    simpa [GlobalVariable.WellFormed, hinit] using hwf
  have he1 : init.ty.isArrayTy = true ∧ init.isAggregateZero = false ∧
      (match init.ty.getElementType with
       | some e => e.isIntegerTy
       | none => false) = true := by
    simpa [GlobalVariable.isEligible, hinit, and_assoc] using he
  obtain ⟨harr, hz, hel0⟩ := he1
  obtain ⟨op0, h0, h0', hel, hlen⟩ := wellFormed_operand0 init hwf1 harr hz
  have hint : op0.ty.isIntegerTy = true := by simpa [hel] using hel0
  cases hfind : info.find g.name with
  | none =>
    have hget : ((info.insert g.name []).set g.name
        ((ValueMap.insert addr ((info.insert g.name []).get g.name) op0 []).pushBack addr op0 0)).get
          g.name = (ValueMap.insert addr [] op0 []).pushBack addr op0 0 := by
      simp [ArrayInfo.get, ArrayInfo.find_set, ArrayInfo.find_after_insert, hfind]
    obtain ⟨m, hm, hidx⟩ := elementLoop_spec addr init init.ty.getNumElements 0
      ((ValueMap.insert addr [] op0 []).pushBack addr op0 0) (by omega)
    have hv : visitGlobal addr info g = some (((info.insert g.name []).set g.name
        ((ValueMap.insert addr ((info.insert g.name []).get g.name) op0 []).pushBack addr
          op0 0)).set g.name m) := by
      simp only [visitGlobal, hinit, harr, hz, h0, hint, hfind, hget, hm, if_true]
    refine ⟨op0, m, _, h0', hv, ?_, ?_⟩
    · intro k
      by_cases hk : k = g.name
      · simp [ArrayInfo.find_set, hk]
      · simp [ArrayInfo.find_set, ArrayInfo.find_after_insert, hk]
    · intro w
      rw [hidx w, ValueMap.indices_pushBack]
      have hr : List.range' 0 init.ty.getNumElements = List.range init.operands.length := by
        rw [hlen, List.range_eq_range']
      simp only [Constant.positionsOf, hr]
      by_cases hw : w = op0
      · simp [hw, ValueMap.indices, ValueMap.insert, ValueMap.find, ValueMap.place]
      · have hw2 : ¬ op0 = w := fun e => hw e.symm
        simp [hw, hw2, ValueMap.indices, ValueMap.insert, ValueMap.find, ValueMap.place]
  | some sub =>
    have hget : info.get g.name = sub := by simp [ArrayInfo.get, hfind]
    obtain ⟨m, hm, hidx⟩ := elementLoop_spec addr init init.ty.getNumElements 0 sub (by omega)
    have hv : visitGlobal addr info g = some (info.set g.name m) := by
      simp only [visitGlobal, hinit, harr, hz, h0, hint, hfind, hget, hm, if_true]
    refine ⟨op0, m, _, h0', hv, ?_, ?_⟩
    · intro k
      by_cases hk : k = g.name
      · simp [ArrayInfo.find_set, hk]
      · simp [ArrayInfo.find_set, hk]
    · intro w
      rw [hidx w]
      have hr : List.range' 0 init.ty.getNumElements = List.range init.operands.length := by
        rw [hlen, List.range_eq_range']
      simp only [Constant.positionsOf, hr]

theorem visitGlobal_find (addr : Value → Nat) (info : ArrayInfo) (g : GlobalVariable)
    (hwf : g.WellFormed) :
    ∃ info1, visitGlobal addr info g = some info1 ∧
      (∀ k, k ≠ g.name → info1.find k = info.find k) ∧
      ((info1.find g.name).isSome = true ↔
        ((info.find g.name).isSome = true ∨ g.isEligible = true)) := by
  cases he : g.isEligible with
  | false =>
    exact ⟨info, visitGlobal_skip addr info g hwf he, fun _ _ => rfl, by simp⟩
  | true =>
    cases hinit : g.initializer with
    | none => simp [GlobalVariable.isEligible, hinit] at he
    | some init =>
      obtain ⟨op0, m, info1, _, hv, hf, _⟩ := visitGlobal_eligible addr info g init hinit hwf he
      refine ⟨info1, hv, ?_, ?_⟩
      · intro k hk; simp [hf k, hk]
      · simp [hf g.name]

theorem BuildArrayInfo_append (addr : Value → Nat) (l1 l2 : List GlobalVariable) :
    ∀ info, BuildArrayInfo addr info (l1 ++ l2) =
      (BuildArrayInfo addr info l1).bind (fun i => BuildArrayInfo addr i l2) := by
  induction l1 with
  | nil => intro info; simp [BuildArrayInfo]
  | cons g gs ih =>
    intro info
    simp only [List.cons_append, BuildArrayInfo]
    cases visitGlobal addr info g with
    | none => rfl
    | some info1 => exact ih info1

theorem BuildArrayInfo_find (addr : Value → Nat) (gvl : List GlobalVariable)
    (hwf : ∀ g ∈ gvl, g.WellFormed) :
    ∀ info, ∃ res, BuildArrayInfo addr info gvl = some res ∧
      ∀ name, ((res.find name).isSome = true ↔
        ((info.find name).isSome = true ∨ ∃ g ∈ gvl, g.name = name ∧ g.isEligible = true)) := by
  induction gvl with
  | nil => intro info; exact ⟨info, rfl, by simp⟩
  | cons g gs ih =>
    intro info
    obtain ⟨info1, hv, hother, hself⟩ := visitGlobal_find addr info g (hwf g (by simp))
    obtain ⟨res, hres, hiff⟩ := ih (fun x hx => hwf x (by simp [hx])) info1
    refine ⟨res, by simp [BuildArrayInfo, hv, hres], ?_⟩
    intro name
    rw [hiff name]
    by_cases hn : name = g.name
    · subst hn
      rw [hself]
      constructor
      · rintro ((h | h) | ⟨x, hx, hxn, hxe⟩)
        · exact Or.inl h
        · exact Or.inr ⟨g, by simp, rfl, h⟩
        · exact Or.inr ⟨x, by simp [hx], hxn, hxe⟩
      · rintro (h | ⟨x, hx, hxn, hxe⟩)
        · exact Or.inl (Or.inl h)
        · rcases List.mem_cons.mp hx with rfl | hx
          · exact Or.inl (Or.inr hxe)
          · exact Or.inr ⟨x, hx, hxn, hxe⟩
    · rw [hother name hn]
      constructor
      · rintro (h | ⟨x, hx, hxn, hxe⟩)
        · exact Or.inl h
        · exact Or.inr ⟨x, by simp [hx], hxn, hxe⟩
      · rintro (h | ⟨x, hx, hxn, hxe⟩)
        · exact Or.inl h
        · rcases List.mem_cons.mp hx with rfl | hx
          · exact absurd hxn.symm hn
          · exact Or.inr ⟨x, hx, hxn, hxe⟩

theorem BuildArrayInfo_find_other (addr : Value → Nat) (gvl : List GlobalVariable)
    (name : String) (hwf : ∀ g ∈ gvl, g.WellFormed) (hne : ∀ g ∈ gvl, g.name ≠ name) :
    ∀ info, ∃ res, BuildArrayInfo addr info gvl = some res ∧ res.find name = info.find name := by
  induction gvl with
  | nil => intro info; exact ⟨info, rfl, rfl⟩
  | cons g gs ih =>
    intro info
    obtain ⟨info1, hv, hother, _⟩ := visitGlobal_find addr info g (hwf g (by simp))
    obtain ⟨res, hres, hf⟩ :=
      ih (fun x hx => hwf x (by simp [hx])) (fun x hx => hne x (by simp [hx])) info1
    refine ⟨res, by simp [BuildArrayInfo, hv, hres], ?_⟩
    rw [hf, hother name (fun e => hne g (by simp) e.symm)]

theorem filter_eq_singleton_split {α : Type} (p : α → Bool) (a : α) :
    ∀ l : List α, l.filter p = [a] →
      ∃ l1 l2, l = l1 ++ a :: l2 ∧ (∀ x ∈ l1, p x = false) ∧ (∀ x ∈ l2, p x = false) := by
  intro l
  induction l with
  | nil => intro h; simp at h
  | cons x xs ih =>
    intro h
    by_cases hx : p x = true
    · rw [List.filter_cons_of_pos hx] at h
      obtain ⟨rfl, h2⟩ := List.cons_eq_cons.mp h
      refine ⟨[], xs, rfl, by simp, ?_⟩
      intro y hy
      by_contra hc
      have : y ∈ xs.filter p := List.mem_filter.mpr ⟨hy, by simpa using hc⟩
      rw [h2] at this
      simp at this
    · rw [List.filter_cons_of_neg hx] at h
      obtain ⟨l1, l2, rfl, h1, h2⟩ := ih h
      refine ⟨x :: l1, l2, rfl, ?_, h2⟩
      intro y hy
      rcases List.mem_cons.mp hy with rfl | hy
      · simpa using hx
      · exact h1 y hy

/-- The catalog entry of an eligible array whose name no other global has. -/
theorem BuildArrayInfo_unique_entry (addr : Value → Nat) (gvl : List GlobalVariable)
    (A : GlobalVariable) (init : Constant)
    (hwf : ∀ g ∈ gvl, g.WellFormed) (hA : A.initializer = some init)
    (he : A.isEligible = true)
    (huniq : gvl.filter (fun g => decide (g.name = A.name)) = [A]) :
    ∃ info m op0, BuildArrayInfo addr [] gvl = some info ∧ info.find A.name = some m ∧
      init.operands[0]? = some op0 ∧
      ∀ w, m.indices w = (if w = op0 then [0] else []) ++ init.positionsOf w := by
  obtain ⟨l1, l2, rfl, h1, h2⟩ := filter_eq_singleton_split _ A gvl huniq
  have hwf1 : ∀ g ∈ l1, g.WellFormed := fun g hg => hwf g (by simp [hg])
  have hwf2 : ∀ g ∈ l2, g.WellFormed := fun g hg => hwf g (by simp [hg])
  have hwfA : A.WellFormed := hwf A (by simp)
  obtain ⟨i1, hi1, hf1⟩ := BuildArrayInfo_find_other addr l1 A.name hwf1
    (fun g hg => by simpa using h1 g hg) []
  obtain ⟨op0, m, i2, hop, hv, hf2, hidx⟩ := visitGlobal_eligible addr i1 A init hA hwfA he
  obtain ⟨i3, hi3, hf3⟩ := BuildArrayInfo_find_other addr l2 A.name hwf2
    (fun g hg => by simpa using h2 g hg) i2
  refine ⟨i3, m, op0, ?_, ?_, hop, ?_⟩
  · rw [BuildArrayInfo_append, hi1]
    simp [BuildArrayInfo, hv, hi3]
  · rw [hf3, hf2]; simp
  · intro w
    rw [hidx w, hf1]
    simp [ArrayInfo.find]

/-- Catalog eligibility on well-formed globals (array initializers that carry
their elements as operands): starting from the empty catalog `BuildArrayInfo`
returns a catalog whose keys are exactly the names of the globals that (a)
have an initializer (b) of array type (c) other than the all-zero aggregate
(d) with integer element type; a global that fails one of the conditions
leaves every catalog unchanged. -/
theorem buildArrayInfo_keys_iff_eligible (addr : Value → Nat) (gvl : List GlobalVariable)
    (hwf : ∀ g ∈ gvl, g.WellFormed) :
    ∃ info, BuildArrayInfo addr [] gvl = some info ∧
      (∀ name, name ∈ info.keys ↔ ∃ g ∈ gvl, g.name = name ∧ g.isEligible = true) ∧
      (∀ (cat : ArrayInfo) (g : GlobalVariable), g ∈ gvl → g.isEligible = false →
        visitGlobal addr cat g = some cat) := by
  obtain ⟨res, hres, hiff⟩ := BuildArrayInfo_find addr gvl hwf []
  refine ⟨res, hres, ?_, ?_⟩
  · intro name
    rw [ArrayInfo.mem_keys_iff, hiff name]
    simp [ArrayInfo.find]
  · intro cat g hg hne
    exact visitGlobal_skip addr cat g (hwf g hg) hne

/-- Example of the eligibility test on well-formed globals: `data` (eligible)
and an uninitialised `buf`. -/
theorem buildArrayInfo_keys_iff_eligible_witness :
    ∃ info, BuildArrayInfo payloadAddr [] [dataGlobal, ⟨"buf", none⟩] = some info ∧
      (∀ name, name ∈ info.keys ↔
        ∃ g ∈ [dataGlobal, (⟨"buf", none⟩ : GlobalVariable)],
          g.name = name ∧ g.isEligible = true) ∧
      (∀ (cat : ArrayInfo) (g : GlobalVariable),
        g ∈ [dataGlobal, (⟨"buf", none⟩ : GlobalVariable)] → g.isEligible = false →
        visitGlobal payloadAddr cat g = some cat) :=
  buildArrayInfo_keys_iff_eligible payloadAddr [dataGlobal, ⟨"buf", none⟩] (by decide)

/-- C5: On `@u = global [2 x float] undef`, an array initializer without
operands that is not the zero aggregate and fails condition (d),
`BuildArrayInfo` does not pass the global over: it reads operand 0 of the
initializer, which does not exist (no defined result).  The same happens on
`@v = global [5 x i32] undef`, which meets (a) to (d): no catalog with the key
`v` is returned.  Next to a global without initializer the run is undefined
as well. -/
theorem buildArrayInfo_reads_operand_of_undef :
    undefFloats.isEligible = false ∧ undefFloats.initializer.map (fun c => c.operands) = some [] ∧
      BuildArrayInfo payloadAddr [] [undefFloats] = none ∧
      undefInts.isEligible = true ∧
      BuildArrayInfo payloadAddr [] [undefInts] = none ∧
      BuildArrayInfo payloadAddr [] [dataGlobal, undefFloats] = none :=
  ⟨by decide, by decide, by decide, by decide, by decide, by decide⟩

/-- C6: For an eligible, well-formed array `A` whose name no other global
has, index `k` is in the catalog's index list for the constant `v` under
the name of `A` exactly when element `k` of the initializer of `A` is `v`
(for every `k`, hence for every `k < N`). -/
theorem buildArrayInfo_index_iff_element (addr : Value → Nat) (gvl : List GlobalVariable)
    (A : GlobalVariable) (init : Constant)
    (hwf : ∀ g ∈ gvl, g.WellFormed) (hA : A.initializer = some init)
    (he : A.isEligible = true)
    (huniq : gvl.filter (fun g => decide (g.name = A.name)) = [A]) :
    ∃ info, BuildArrayInfo addr [] gvl = some info ∧
      ∀ (k : Nat) (v : Value),
        k ∈ (info.get A.name).indices v ↔ init.operands[k]? = some v := by
  obtain ⟨info, m, op0, hb, hf, hop, hidx⟩ :=
    BuildArrayInfo_unique_entry addr gvl A init hwf hA he huniq
  refine ⟨info, hb, ?_⟩
  intro k v
  have hget : info.get A.name = m := by simp [ArrayInfo.get, hf]
  rw [hget, hidx v]
  simp only [List.mem_append, Constant.positionsOf, List.mem_filter, List.mem_range,
    decide_eq_true_eq]
  constructor
  · rintro (h | ⟨_, h⟩)
    · by_cases hv : v = op0
      · subst hv
        simp only [if_true, List.mem_singleton] at h
        subst h; exact hop
      · simp [hv] at h
    · exact h
  · intro h
    refine Or.inr ⟨?_, h⟩
    by_contra hc
    rw [List.getElem?_eq_none (by omega)] at h
    simp at h

/-- Witness for C6: the array `data` next to an uninitialised global. -/
theorem buildArrayInfo_index_iff_element_witness :
    ∃ info, BuildArrayInfo payloadAddr [] [⟨"buf", none⟩, dataGlobal] = some info ∧
      ∀ (k : Nat) (v : Value),
        k ∈ (info.get dataGlobal.name).indices v ↔
          [i32 0, i32 2, i32 4, i32 6, i32 8][k]? = some v :=
  buildArrayInfo_index_iff_element payloadAddr [⟨"buf", none⟩, dataGlobal] dataGlobal
    ⟨.array (.integer 32) 5, false, [i32 0, i32 2, i32 4, i32 6, i32 8]⟩
    (by decide) rfl (by decide) (by decide)

/-- C2: On `int data[5] = {0,2,4,6,8}` the catalog lists index 0 twice under
the value 0 (whatever the address order of the keys), and the index lists of
`data` hold 6 entries for 5 elements: the lists are no partition of
`{0,...,4}`. -/
theorem buildArrayInfo_data_lists_index_zero_twice :
    (∀ addr : Value → Nat, ∃ info, BuildArrayInfo addr [] [dataGlobal] = some info ∧
      (info.get "data").indices (i32 0) = [0, 0]) ∧
    BuildArrayInfo payloadAddr [] [dataGlobal] =
      some [("data", [(i32 0, [0, 0]), (i32 2, [1]), (i32 4, [2]), (i32 6, [3]), (i32 8, [4])])] ∧
    ((BuildArrayInfo payloadAddr [] [dataGlobal]).map fun info =>
      ((info.get "data").map fun e => e.2.length).sum) = some 6 := by
  refine ⟨?_, by decide, by decide⟩
  intro addr
  obtain ⟨info, m, op0, hb, hf, hop, hidx⟩ :=
    BuildArrayInfo_unique_entry addr [dataGlobal] dataGlobal
      ⟨.array (.integer 32) 5, false, [i32 0, i32 2, i32 4, i32 6, i32 8]⟩
      (by decide) rfl (by decide) (by decide)
  refine ⟨info, hb, ?_⟩
  have hget : info.get "data" = m := by
    have : dataGlobal.name = "data" := rfl
    rw [this] at hf
    simp [ArrayInfo.get, hf]
  have h0 : op0 = i32 0 := by
    simpa using hop.symm
  rw [hget, hidx (i32 0), h0]
  decide

/-! ## Invariants of the inner map -/

theorem ValueMap.find_none_iff (m : ValueMap) (v : Value) :
    m.find v = none ↔ v ∉ m.keys := by
  induction m with
  | nil => simp [ValueMap.find, ValueMap.keys]
  | cons e rest ih =>
    obtain ⟨k, y⟩ := e
    simp only [ValueMap.keys] at ih
    by_cases hk : k = v
    · subst hk; simp [ValueMap.find, ValueMap.keys]
    · have hk2 : ¬ v = k := fun e => hk e.symm
      simp [ValueMap.find, ValueMap.keys, hk, hk2, ih]

theorem ValueMap.find_of_mem (m : ValueMap) (hnd : m.keys.Nodup) :
    ∀ e ∈ m, m.find e.1 = some e.2 := by
  induction m with
  | nil => intro e he; simp at he
  | cons x rest ih =>
    obtain ⟨k, y⟩ := x
    intro e he
    have hnd2 : (k :: ValueMap.keys rest).Nodup := by simpa [ValueMap.keys] using hnd
    obtain ⟨hk, hrest⟩ := List.nodup_cons.mp hnd2
    rcases List.mem_cons.mp he with rfl | he
    · simp [ValueMap.find]
    · have hne : ¬ k = e.1 := by
        intro h
        apply hk
        rw [h]
        exact List.mem_map.mpr ⟨e, he, rfl⟩
      simp only [ValueMap.find, hne, if_false]
      exact ih hrest e he

theorem ValueMap.mem_of_find (m : ValueMap) (v : Value) (x : List Nat)
    (h : m.find v = some x) : (v, x) ∈ m := by
  induction m with
  | nil => simp [ValueMap.find] at h
  | cons e rest ih =>
    obtain ⟨k, y⟩ := e
    by_cases hk : k = v
    · subst hk
      simp only [ValueMap.find, if_true, Option.some.injEq] at h
      subst h; simp
    · simp only [ValueMap.find, hk, if_false] at h
      exact List.mem_cons_of_mem _ (ih h)

theorem ValueMap.keys_place (addr : Value → Nat) (m : ValueMap) (v : Value) (x : List Nat) :
    ∀ k, k ∈ (ValueMap.place addr m v x).keys ↔ k = v ∨ k ∈ m.keys := by
  induction m with
  | nil => intro k; simp [ValueMap.place, ValueMap.keys]
  | cons e rest ih =>
    obtain ⟨k0, y⟩ := e
    intro k
    simp only [ValueMap.keys] at ih
    by_cases hlt : addr v < addr k0
    · simp [ValueMap.place, ValueMap.keys, hlt]
    · simp only [ValueMap.place, hlt, if_false, ValueMap.keys, List.map_cons, List.mem_cons, ih k]
      tauto

theorem ValueMap.nodup_place (addr : Value → Nat) (m : ValueMap) (v : Value) (x : List Nat)
    (habs : v ∉ m.keys) (hnd : m.keys.Nodup) : (ValueMap.place addr m v x).keys.Nodup := by
  induction m with
  | nil => simp [ValueMap.place, ValueMap.keys]
  | cons e rest ih =>
    obtain ⟨k0, y⟩ := e
    have hnd2 : (k0 :: ValueMap.keys rest).Nodup := by simpa [ValueMap.keys] using hnd
    obtain ⟨hk, hrest⟩ := List.nodup_cons.mp hnd2
    have habs2 : v ≠ k0 ∧ v ∉ ValueMap.keys rest := by
      simpa [ValueMap.keys] using habs
    by_cases hlt : addr v < addr k0
    · simp only [ValueMap.place, hlt, if_true]
      have : (v :: k0 :: ValueMap.keys rest).Nodup :=
        List.nodup_cons.mpr ⟨by simpa using habs2, hnd2⟩
      simpa [ValueMap.keys] using this
    · simp only [ValueMap.place, hlt, if_false]
      have h1 := ih habs2.2 hrest
      have h2 : k0 ∉ (ValueMap.place addr rest v x).keys := by
        rw [ValueMap.keys_place]
        rintro (h | h)
        · exact habs2.1 h.symm
        · exact hk h
      have : (k0 :: (ValueMap.place addr rest v x).keys).Nodup := List.nodup_cons.mpr ⟨h2, h1⟩
      simpa [ValueMap.keys] using this

theorem ValueMap.keys_append (m : ValueMap) (v : Value) (i : Nat) :
    (ValueMap.append m v i).keys = m.keys := by
  induction m with
  | nil => rfl
  | cons e rest ih =>
    obtain ⟨k, y⟩ := e
    simp only [ValueMap.keys] at ih
    by_cases hk : k = v
    · simp [ValueMap.append, ValueMap.keys, hk]
    · simp [ValueMap.append, ValueMap.keys, hk, ih]

theorem ValueMap.keys_pushBack (addr : Value → Nat) (m : ValueMap) (v : Value) (i : Nat)
    (hnd : m.keys.Nodup) :
    (m.pushBack addr v i).keys.Nodup ∧
      ∀ k, k ∈ (m.pushBack addr v i).keys → k = v ∨ k ∈ m.keys := by
  unfold ValueMap.pushBack
  rw [ValueMap.keys_append]
  unfold ValueMap.insert
  cases hf : m.find v with
  | some y => exact ⟨hnd, fun k hk => Or.inr hk⟩
  | none =>
    have habs : v ∉ m.keys := (ValueMap.find_none_iff m v).mp hf
    exact ⟨ValueMap.nodup_place addr m v [] habs hnd,
      fun k hk => (ValueMap.keys_place addr m v [] k).mp hk⟩

theorem elementLoop_keys (addr : Value → Nat) (init : Constant) :
    ∀ (remaining i : Nat) (m m1 : ValueMap),
      elementLoop addr init remaining i m = some m1 → m.keys.Nodup →
      m1.keys.Nodup ∧ ∀ k ∈ m1.keys, k ∈ m.keys ∨ k ∈ init.operands := by
  intro remaining
  induction remaining with
  | zero =>
    intro i m m1 h hnd
    simp only [elementLoop, Option.some.injEq] at h
    subst h
    exact ⟨hnd, fun k hk => Or.inl hk⟩
  | succ r ih =>
    intro i m m1 h hnd
    cases hop : init.getOperand i with
    | none => simp [elementLoop, hop] at h
    | some val =>
      have hstep : (match m.find val with
          | some _ => m.pushBack addr val i
          | none => (m.insert addr val []).pushBack addr val i)
          = m.pushBack addr val i := by
        cases m.find val with
        | some _ => rfl
        | none => simp [ValueMap.pushBack, ValueMap.insert_insert]
      simp only [elementLoop, hop, hstep] at h
      obtain ⟨hnd1, hsub1⟩ := ValueMap.keys_pushBack addr m val i hnd
      obtain ⟨hnd2, hsub2⟩ := ih (i + 1) _ m1 h hnd1
      refine ⟨hnd2, ?_⟩
      intro k hk
      rcases hsub2 k hk with h1 | h1
      · rcases hsub1 k h1 with h2 | h2
        · right
          subst h2
          have : init.operands[i]? = some k := by simpa [Constant.getOperand] using hop
          exact List.getElem?_mem this
        · exact Or.inl h2
      · exact Or.inr h1

/-- The catalog entry that a first visit of an eligible global creates has
distinct keys, all of them operands of the initializer. -/
theorem visitGlobal_entry_keys (addr : Value → Nat) (info info1 : ArrayInfo)
    (g : GlobalVariable) (init : Constant) (m : ValueMap)
    (hinit : g.initializer = some init) (hnew : info.find g.name = none)
    (hv : visitGlobal addr info g = some info1) (hm : info1.find g.name = some m)
    (he : g.isEligible = true) :
    m.keys.Nodup ∧ ∀ k ∈ m.keys, k ∈ init.operands := by
  have he1 : init.ty.isArrayTy = true ∧ init.isAggregateZero = false ∧
      (match init.ty.getElementType with
       | some e => e.isIntegerTy
       | none => false) = true := by
    simpa [GlobalVariable.isEligible, hinit, and_assoc] using he
  obtain ⟨harr, hz, _⟩ := he1
  cases h0 : init.getOperand 0 with
  | none => simp [visitGlobal, hinit, harr, hz, h0] at hv
  | some op0 =>
    by_cases hint : op0.ty.isIntegerTy = true
    · have hget : ((info.insert g.name []).set g.name
          ((ValueMap.insert addr ((info.insert g.name []).get g.name) op0 []).pushBack addr op0 0)).get
            g.name = (ValueMap.insert addr [] op0 []).pushBack addr op0 0 := by
        simp [ArrayInfo.get, ArrayInfo.find_set, ArrayInfo.find_after_insert, hnew]
      simp only [visitGlobal, hinit, harr, hz, h0, hint, hnew, hget, if_true] at hv
      cases hloop : elementLoop addr init init.ty.getNumElements 0
          ((ValueMap.insert addr [] op0 []).pushBack addr op0 0) with
      | none => simp [hloop] at hv
      | some m2 =>
        simp only [hloop, Option.some.injEq] at hv
        subst hv
        have hm2 : m2 = m := by
          simpa [ArrayInfo.find_set] using hm
        subst hm2
        have hstart : ((ValueMap.insert addr [] op0 []).pushBack addr op0 0).keys = [op0] := by
          simp [ValueMap.pushBack, ValueMap.insert, ValueMap.find, ValueMap.place,
            ValueMap.append, ValueMap.keys]
        obtain ⟨hnd, hsub⟩ := elementLoop_keys addr init _ 0 _ m2 hloop (by rw [hstart]; simp)
        refine ⟨hnd, ?_⟩
        intro k hk
        rcases hsub k hk with h1 | h1
        · rw [hstart] at h1
          have hk0 : k = op0 := by simpa using h1
          subst hk0
          have : init.operands[0]? = some k := by simpa [Constant.getOperand] using h0
          exact List.getElem?_mem this
        · exact h1
    · have hint2 : op0.ty.isIntegerTy = false := by simpa using hint
      simp only [visitGlobal, hinit, harr, hz, h0, hint2, if_true, Bool.false_eq_true,
        if_false, Option.some.injEq] at hv
      subst hv
      rw [hnew] at hm
      exact Option.noConfusion hm

theorem ValueMap.mem_pairs (m : ValueMap) (p : Value × Nat) :
    p ∈ m.pairs ↔ ∃ e ∈ m, p.1 = e.1 ∧ p.2 ∈ e.2 := by
  unfold ValueMap.pairs
  simp only [List.mem_flatMap, List.mem_map]
  constructor
  · rintro ⟨e, he, k, hk, rfl⟩
    exact ⟨e, he, rfl, hk⟩
  · rintro ⟨e, he, h1, h2⟩
    exact ⟨e, he, p.2, h2, by rw [← h1]⟩

/-- The catalog that `BuildArrayInfo` builds for a module whose only global is
a constant integer array. -/
theorem catalog_of_array (addr : Value → Nat) (name : String) (bits : Nat) (vs : List Int)
    (hvs : vs ≠ []) :
    ∃ info m, BuildArrayInfo addr [] [arrayGlobal name bits vs] = some info ∧
      info.find name = some m ∧ (∀ k, k ≠ name → info.find k = none) ∧ m ≠ [] ∧
      (∀ e ∈ m, e.1.ty = .integer bits) ∧
      (∀ p ∈ m.pairs, vs[p.2]? = some p.1.payload) ∧
      (∀ k < vs.length, ∃ v, (v, k) ∈ m.pairs) := by
  have hlen : 0 < vs.length := List.length_pos.mpr hvs
  have hwfA : (arrayGlobal name bits vs).WellFormed := by
    simp only [GlobalVariable.WellFormed, arrayGlobal, Constant.WellFormed]
    intro _ _
    refine ⟨by simpa using hlen, by simp [Ty.getNumElements], ?_⟩
    intro v hv
    obtain ⟨x, _, rfl⟩ := List.mem_map.mp hv
    rfl
  have hwf : ∀ g ∈ [arrayGlobal name bits vs], g.WellFormed := by
    intro g hg
    rw [List.mem_singleton.mp hg]; exact hwfA
  have hel : (arrayGlobal name bits vs).isEligible = true := by
    simp [GlobalVariable.isEligible, arrayGlobal, Ty.isArrayTy, Ty.getElementType,
      Ty.isIntegerTy]
  have huniq : [arrayGlobal name bits vs].filter
      (fun g => decide (g.name = (arrayGlobal name bits vs).name)) = [arrayGlobal name bits vs] := by
    simp
  have hname : (arrayGlobal name bits vs).name = name := rfl
  obtain ⟨info, m, op0, hb, hf, hop, hidx⟩ :=
    BuildArrayInfo_unique_entry addr [arrayGlobal name bits vs] (arrayGlobal name bits vs) _
      hwf rfl hel huniq
  rw [hname] at hf
  have hv : visitGlobal addr [] (arrayGlobal name bits vs) = some info := by
    cases hvis : visitGlobal addr [] (arrayGlobal name bits vs) with
    | none => simp [BuildArrayInfo, hvis] at hb
    | some x => simpa [BuildArrayInfo, hvis] using hb
  obtain ⟨hnd, hkeys⟩ := visitGlobal_entry_keys addr [] info (arrayGlobal name bits vs) _ m rfl
    (by simp [ArrayInfo.find]) hv (by rw [hname]; exact hf) hel
  obtain ⟨res, hres, hiff⟩ := BuildArrayInfo_find addr [arrayGlobal name bits vs] hwf []
  have hres2 : res = info := by
    rw [hres] at hb; exact Option.some.inj hb
  subst hres2
  have hmem : ∀ (k : Nat) (v : Value), k ∈ m.indices v ↔ (vs.map (intConst bits))[k]? = some v := by
    intro k v
    rw [hidx v]
    simp only [List.mem_append, Constant.positionsOf, List.mem_filter, List.mem_range,
      decide_eq_true_eq]
    constructor
    · rintro (h | ⟨_, h⟩)
      · by_cases hv0 : v = op0
        · subst hv0
          simp only [if_true, List.mem_singleton] at h
          subst h; exact hop
        · simp [hv0] at h
      · exact h
    · intro h
      refine Or.inr ⟨?_, h⟩
      by_contra hc
      rw [List.getElem?_eq_none (by omega)] at h
      simp at h
  refine ⟨res, m, hb, hf, ?_, ?_, ?_, ?_, ?_⟩
  · intro k hk
    have h := hiff k
    cases hfk : res.find k with
    | none => rfl
    | some x =>
      rw [hfk] at h
      have := h.mp rfl
      simp [ArrayInfo.find, arrayGlobal] at this
      exact absurd this.1.symm hk
  · intro hm
    have h0 : 0 ∈ m.indices op0 := (hmem 0 op0).mpr hop
    rw [hm] at h0
    simp [ValueMap.indices, ValueMap.find] at h0
  · intro e he
    have hk : e.1 ∈ (vs.map (intConst bits)) := hkeys e.1 (List.mem_map.mpr ⟨e, he, rfl⟩)
    obtain ⟨x, _, hx⟩ := List.mem_map.mp hk
    rw [← hx]; rfl
  · intro p hp
    obtain ⟨e, he, h1, h2⟩ := (ValueMap.mem_pairs m p).mp hp
    have hfind := ValueMap.find_of_mem m hnd e he
    have hin : p.2 ∈ m.indices p.1 := by
      rw [h1]; simp [ValueMap.indices, hfind, h2]
    have hq := (hmem p.2 p.1).mp hin
    rw [List.getElem?_map] at hq
    cases hvk : vs[p.2]? with
    | none => simp [hvk] at hq
    | some x =>
      simp only [hvk, Option.map_some', Option.some.injEq] at hq
      rw [← hq]; rfl
  · intro k hk
    have hq : (vs.map (intConst bits))[k]? = some (intConst bits vs[k]) := by
      simp [List.getElem?_map, List.getElem?_eq_getElem hk]
    have hin := (hmem k _).mpr hq
    cases hfind : m.find (intConst bits vs[k]) with
    | none => simp [ValueMap.indices, hfind] at hin
    | some x =>
      have hx : k ∈ x := by simpa [ValueMap.indices, hfind] using hin
      have := ValueMap.mem_of_find m _ x hfind
      exact ⟨intConst bits vs[k], (ValueMap.mem_pairs m _).mpr ⟨_, this, rfl, hx⟩⟩

/-! ## The splitter computes `splitFunctions` -/

theorem scanInsts_continue (info : ArrayInfo) (rest : List BasicBlock) :
    ∀ (after before : List Instruction) (bb : BlockId) (k : Nat) (rel : List InstId)
      (n : Nat) (done : List BasicBlock),
      (match scanInsts info ⟨false, rel, n⟩ bb before after with
        | (st1, b1, created) =>
          scanBlocks info (k + 3 * relevantCount info after) st1 (done ++ [b1]) (created ++ rest)) =
      scanBlocks info k ⟨false, rel ++ (splitInsts info n bb before after).2.1,
          (splitInsts info n bb before after).2.2⟩
        (done ++ (splitInsts info n bb before after).1) rest := by
  intro after
  induction after with
  | nil =>
    intro before bb k rel n done
    simp [scanInsts, splitInsts, relevantCount]
  | cons inst r ih =>
    intro before bb k rel n done
    by_cases hrel : isRelevantGEP info inst = true
    · have hcnt : relevantCount info (inst :: r) = relevantCount info r + 1 := by
        simp [relevantCount, List.filter_cons, hrel]
      have hfuel : k + 3 * relevantCount info (inst :: r) =
          (((k + 3 * relevantCount info r) + 1) + 1) + 1 := by rw [hcnt]; ring
      have hbr : ∀ (i : Nat) (d : BlockId),
          isRelevantGEP info ⟨i, "", .br d⟩ = false := fun _ _ => rfl
      have key := ih [] (n + 2) k (rel ++ [inst.id]) (n + 6)
        (done ++ [⟨bb, before ++ [⟨n + 1, "", .br n⟩]⟩, ⟨n, [inst, ⟨n + 3, "", .br (n + 2)⟩]⟩,
          ⟨n + 4, [⟨n + 5, "", .br (n + 2)⟩]⟩])
      rw [hfuel]
      simp only [scanInsts, hrel, if_true, scanBlocks, List.singleton_append, List.nil_append,
        List.cons_append, hbr, Bool.false_eq_true, if_false, List.append_assoc]
      simp only [splitInsts, hrel, if_true, List.append_assoc, List.singleton_append,
        List.cons_append, List.nil_append] at key ⊢
      exact key
    · have hrel2 : isRelevantGEP info inst = false := by simpa using hrel
      have hcnt : relevantCount info (inst :: r) = relevantCount info r := by
        simp [relevantCount, List.filter_cons, hrel2]
      rw [hcnt]
      simp only [scanInsts, splitInsts, hrel2, Bool.false_eq_true, if_false]
      exact ih (before ++ [inst]) bb k rel n done

theorem scanBlocks_eq (info : ArrayInfo) :
    ∀ (todo : List BasicBlock) (k : Nat) (rel : List InstId) (n : Nat) (done : List BasicBlock),
      scanBlocks info (k + scanCost info todo) ⟨false, rel, n⟩ done todo =
        some (⟨false, rel ++ (splitBlocks info n todo).2.1, (splitBlocks info n todo).2.2⟩,
          done ++ (splitBlocks info n todo).1) := by
  intro todo
  induction todo with
  | nil => intro k rel n done; simp [scanBlocks, splitBlocks]
  | cons b rest ih =>
    intro k rel n done
    have hfuel : k + scanCost info (b :: rest) =
        ((k + scanCost info rest) + 3 * relevantCount info b.insts) + 1 := by
      simp [scanCost]; ring
    rw [hfuel]
    simp only [scanBlocks]
    refine Eq.trans
      (scanInsts_continue info rest b.insts [] b.id (k + scanCost info rest) rel n done) ?_
    rw [ih]
    simp [splitBlocks, List.append_assoc]

theorem scanFunctions_eq (info : ArrayInfo) (fuel : Nat) :
    ∀ (todo : List Function) (rel : List InstId) (n : Nat) (done : List Function),
      (∀ f ∈ todo, scanCost info f.blocks ≤ fuel) →
      scanFunctions info fuel ⟨false, rel, n⟩ done todo =
        some (⟨false, rel ++ (splitFunctions info n todo).2.1, (splitFunctions info n todo).2.2⟩,
          done ++ (splitFunctions info n todo).1) := by
  intro todo
  induction todo with
  | nil => intro rel n done _; simp [scanFunctions, splitFunctions]
  | cons f rest ih =>
    intro rel n done hfuel
    have hf : scanCost info f.blocks ≤ fuel := hfuel f (by simp)
    obtain ⟨k, hk⟩ := Nat.exists_eq_add_of_le hf
    have hk2 : fuel = k + scanCost info f.blocks := by omega
    have hstep := scanBlocks_eq info f.blocks k rel n []
    rw [← hk2] at hstep
    simp only [scanFunctions, hstep, List.nil_append]
    rw [ih _ _ _ (fun x hx => hfuel x (by simp [hx]))]
    simp [splitFunctions, List.append_assoc]

theorem scanCost_le_budget (info : ArrayInfo) (M : Module) :
    ∀ f ∈ M.functions, scanCost info f.blocks ≤ splitBudget info M := by
  unfold splitBudget
  generalize M.functions = fs
  induction fs with
  | nil => simp
  | cons x xs ih =>
    intro f hf
    rcases List.mem_cons.mp hf with rfl | hf
    · simp
    · have := ih f hf
      simp only [List.map_cons, List.foldr_cons]
      omega

/-- With enough fuel `BuildGEPBlocks` returns, and what it returns is
`splitFunctions`. -/
theorem BuildGEPBlocks_eq (info : ArrayInfo) (fuel : Nat) (M : Module)
    (hfuel : splitBudget info M ≤ fuel) :
    BuildGEPBlocks info fuel M =
      some (⟨M.globals, (splitFunctions info M.nextId M.functions).1,
          (splitFunctions info M.nextId M.functions).2.2⟩,
        (splitFunctions info M.nextId M.functions).2.1) := by
  unfold BuildGEPBlocks
  rw [scanFunctions_eq info fuel M.functions [] M.nextId []
    (fun f hf => le_trans (scanCost_le_budget info M f hf) hfuel)]
  simp

/-! ## Properties of the splitter's result -/

theorem splitInsts_ids (info : ArrayInfo) :
    ∀ (after before : List Instruction) (n : Nat) (bb : BlockId),
      (splitInsts info n bb before after).2.1 =
        (after.filter (isRelevantGEP info)).map (fun i => i.id) := by
  intro after
  induction after with
  | nil => intro before n bb; simp [splitInsts]
  | cons inst r ih =>
    intro before n bb
    by_cases hrel : isRelevantGEP info inst = true
    · simp [splitInsts, hrel, List.filter_cons, ih]
    · have hrel2 : isRelevantGEP info inst = false := by simpa using hrel
      simp [splitInsts, hrel2, List.filter_cons, ih]

theorem splitBlocks_ids (info : ArrayInfo) :
    ∀ (blocks : List BasicBlock) (n : Nat),
      (splitBlocks info n blocks).2.1 =
        ((blocks.flatMap fun b => b.insts).filter (isRelevantGEP info)).map (fun i => i.id) := by
  intro blocks
  induction blocks with
  | nil => intro n; simp [splitBlocks]
  | cons b rest ih =>
    intro n
    simp [splitBlocks, splitInsts_ids, ih, List.flatMap_cons]

theorem splitFunctions_ids (info : ArrayInfo) :
    ∀ (fs : List Function) (n : Nat),
      (splitFunctions info n fs).2.1 =
        ((fs.flatMap fun f => f.insts).filter (isRelevantGEP info)).map (fun i => i.id) := by
  intro fs
  induction fs with
  | nil => intro n; simp [splitFunctions]
  | cons f rest ih =>
    intro n
    simp [splitFunctions, splitBlocks_ids, ih, List.flatMap_cons, Function.insts]

theorem splitInsts_none (info : ArrayInfo) :
    ∀ (after before : List Instruction) (n : Nat) (bb : BlockId),
      (∀ i ∈ after, isRelevantGEP info i = false) →
      splitInsts info n bb before after = ([⟨bb, before ++ after⟩], [], n) := by
  intro after
  induction after with
  | nil => intro before n bb _; simp [splitInsts]
  | cons inst r ih =>
    intro before n bb h
    have h1 : isRelevantGEP info inst = false := h inst (by simp)
    simp only [splitInsts, h1, Bool.false_eq_true, if_false]
    rw [ih _ _ _ (fun i hi => h i (by simp [hi]))]
    simp

theorem splitBlocks_none (info : ArrayInfo) :
    ∀ (blocks : List BasicBlock) (n : Nat),
      (∀ i ∈ blocks.flatMap (fun b => b.insts), isRelevantGEP info i = false) →
      splitBlocks info n blocks = (blocks, [], n) := by
  intro blocks
  induction blocks with
  | nil => intro n _; simp [splitBlocks]
  | cons b rest ih =>
    intro n h
    have h1 : ∀ i ∈ b.insts, isRelevantGEP info i = false :=
      fun i hi => h i (by simp [List.flatMap_cons, hi])
    have h2 : ∀ i ∈ rest.flatMap (fun b => b.insts), isRelevantGEP info i = false :=
      fun i hi => h i (by
        simp only [List.flatMap_cons, List.mem_append]; exact Or.inr hi)
    simp [splitBlocks, splitInsts_none info b.insts [] n b.id h1, ih n h2]

theorem splitFunctions_none (info : ArrayInfo) :
    ∀ (fs : List Function) (n : Nat),
      (∀ i ∈ fs.flatMap (fun f => f.insts), isRelevantGEP info i = false) →
      splitFunctions info n fs = (fs, [], n) := by
  intro fs
  induction fs with
  | nil => intro n _; simp [splitFunctions]
  | cons f rest ih =>
    intro n h
    have h1 : ∀ i ∈ f.blocks.flatMap (fun b => b.insts), isRelevantGEP info i = false :=
      fun i hi => h i (by
        simp only [List.flatMap_cons, List.mem_append, Function.insts]; exact Or.inl hi)
    have h2 : ∀ i ∈ rest.flatMap (fun f => f.insts), isRelevantGEP info i = false :=
      fun i hi => h i (by
        simp only [List.flatMap_cons, List.mem_append]; exact Or.inr hi)
    simp [splitFunctions, splitBlocks_none info f.blocks n h1, ih n h2]

theorem splitInsts_head (info : ArrayInfo) :
    ∀ (after before : List Instruction) (n : Nat) (bb : BlockId),
      ∃ x tail, (splitInsts info n bb before after).1 = ⟨bb, x⟩ :: tail := by
  intro after
  induction after with
  | nil => intro before n bb; exact ⟨before, [], by simp [splitInsts]⟩
  | cons inst r ih =>
    intro before n bb
    by_cases hrel : isRelevantGEP info inst = true
    · refine ⟨before ++ [⟨n + 1, "", .br n⟩],
        ⟨n, [inst, ⟨n + 3, "", .br (n + 2)⟩]⟩ :: ⟨n + 4, [⟨n + 5, "", .br (n + 2)⟩]⟩ ::
          (splitInsts info (n + 6) (n + 2) [] r).1, ?_⟩
      simp only [splitInsts, hrel, if_true]
    · have hrel2 : isRelevantGEP info inst = false := by simpa using hrel
      obtain ⟨x, tail, h⟩ := ih (before ++ [inst]) n bb
      exact ⟨x, tail, by simp only [splitInsts, hrel2, Bool.false_eq_true, if_false, h]⟩

theorem SiteHasDefault.extend {blocks : List BasicBlock} {g : InstId}
    (h : SiteHasDefault blocks g) (xs ys : List BasicBlock) :
    SiteHasDefault (xs ++ blocks ++ ys) g := by
  obtain ⟨front, back, b, d, p, j1, j2, gi, rest, hb, hg⟩ := h
  exact ⟨xs ++ front, back ++ ys, b, d, p, j1, j2, gi, rest, by simp [hb], hg⟩

theorem splitInsts_sites (info : ArrayInfo) :
    ∀ (after before : List Instruction) (n : Nat) (bb : BlockId),
      ∀ g ∈ (splitInsts info n bb before after).2.1,
        SiteHasDefault (splitInsts info n bb before after).1 g := by
  intro after
  induction after with
  | nil => intro before n bb g hg; simp [splitInsts] at hg
  | cons inst r ih =>
    intro before n bb g hg
    by_cases hrel : isRelevantGEP info inst = true
    · simp only [splitInsts, hrel, if_true] at hg ⊢
      rcases List.mem_cons.mp hg with rfl | hg
      · obtain ⟨x, tail, hx⟩ := splitInsts_head info r [] (n + 6) (n + 2)
        exact ⟨[⟨bb, before ++ [⟨n + 1, "", .br n⟩]⟩], tail, n, n + 4, n + 2, n + 3, n + 5,
          inst, x, by simp [hx], rfl⟩
      · have h := (ih [] (n + 6) (n + 2) g hg).extend
          [⟨bb, before ++ [⟨n + 1, "", .br n⟩]⟩, ⟨n, [inst, ⟨n + 3, "", .br (n + 2)⟩]⟩,
            ⟨n + 4, [⟨n + 5, "", .br (n + 2)⟩]⟩] []
        simpa using h
    · have hrel2 : isRelevantGEP info inst = false := by simpa using hrel
      simp only [splitInsts, hrel2, Bool.false_eq_true, if_false] at hg ⊢
      exact ih _ _ _ g hg

theorem splitBlocks_sites (info : ArrayInfo) :
    ∀ (blocks : List BasicBlock) (n : Nat),
      ∀ g ∈ (splitBlocks info n blocks).2.1, SiteHasDefault (splitBlocks info n blocks).1 g := by
  intro blocks
  induction blocks with
  | nil => intro n g hg; simp [splitBlocks] at hg
  | cons b rest ih =>
    intro n g hg
    simp only [splitBlocks, List.mem_append] at hg ⊢
    rcases hg with hg | hg
    · have h := (splitInsts_sites info b.insts [] n b.id g hg).extend []
        (splitBlocks info (splitInsts info n b.id [] b.insts).2.2 rest).1
      simpa using h
    · have h := (ih _ g hg).extend (splitInsts info n b.id [] b.insts).1 []
      simpa using h

theorem splitFunctions_sites (info : ArrayInfo) :
    ∀ (fs : List Function) (n : Nat),
      ∀ g ∈ (splitFunctions info n fs).2.1,
        ∃ f ∈ (splitFunctions info n fs).1, SiteHasDefault f.blocks g := by
  intro fs
  induction fs with
  | nil => intro n g hg; simp [splitFunctions] at hg
  | cons f rest ih =>
    intro n g hg
    simp only [splitFunctions, List.mem_append] at hg ⊢
    rcases hg with hg | hg
    · exact ⟨⟨f.name, (splitBlocks info n f.blocks).1⟩, by simp,
        splitBlocks_sites info f.blocks n g hg⟩
    · obtain ⟨f1, hf1, hs⟩ := ih _ g hg
      exact ⟨f1, by simp [hf1], hs⟩

/-! ## The materializer's loops compute `caseList` and `caseBlocks` -/

theorem caseList_append (bits : Nat) :
    ∀ (l1 l2 : List (Value × Nat)) (n : Nat),
      caseList bits n (l1 ++ l2) = caseList bits n l1 ++ caseList bits (n + 3 * l1.length) l2 := by
  intro l1
  induction l1 with
  | nil => intro l2 n; simp [caseList]
  | cons p rest ih =>
    intro l2 n
    obtain ⟨v, k⟩ := p
    have : n + 3 + 3 * rest.length = n + 3 * (rest.length + 1) := by ring
    rw [List.cons_append]
    simp only [caseList, ih, List.length_cons, this, List.cons_append]

theorem caseBlocks_append (holder : Operand) (d : BlockId) :
    ∀ (l1 l2 : List (Value × Nat)) (n : Nat),
      caseBlocks holder d n (l1 ++ l2) =
        caseBlocks holder d n l1 ++ caseBlocks holder d (n + 3 * l1.length) l2 := by
  intro l1
  induction l1 with
  | nil => intro l2 n; simp [caseBlocks]
  | cons p rest ih =>
    intro l2 n
    obtain ⟨v, k⟩ := p
    have : n + 3 + 3 * rest.length = n + 3 * (rest.length + 1) := by ring
    rw [List.cons_append]
    simp only [caseBlocks, ih, List.length_cons, this, List.cons_append]

theorem indexLoop_eq (val : Value) (holder : Operand) (d : BlockId) (bits : Nat) :
    ∀ (idxs : List Nat) (n : Nat),
      indexLoop val holder d (.integer bits) idxs n =
        some (caseList bits n (idxs.map fun k => (val, k)),
          caseBlocks holder d n (idxs.map fun k => (val, k)), n + 3 * idxs.length) := by
  intro idxs
  induction idxs with
  | nil => intro n; simp [indexLoop, caseList, caseBlocks]
  | cons k rest ih =>
    intro n
    simp only [indexLoop, constantIntGet, ih, List.map_cons, caseList, caseBlocks, caseBlock,
      List.length_cons]
    have : n + 3 + 3 * rest.length = n + 3 * (rest.length + 1) := by ring
    rw [this]

theorem valueLoop_eq (holder : Operand) (d : BlockId) (bits : Nat) :
    ∀ (m : ValueMap) (n : Nat), (∀ e ∈ m, e.1.ty.isIntegerTy = true) →
      valueLoop holder d (.integer bits) m n =
        some (caseList bits n m.pairs, caseBlocks holder d n m.pairs, n + 3 * m.pairs.length) := by
  intro m
  induction m with
  | nil => intro n _; simp [valueLoop, ValueMap.pairs, caseList, caseBlocks]
  | cons e rest ih =>
    intro n h
    obtain ⟨v, idxs⟩ := e
    have hv : v.ty.isIntegerTy = true := h (v, idxs) (by simp)
    have hrest := ih (n + 3 * idxs.length) (fun x hx => h x (by simp [hx]))
    have hpairs : ValueMap.pairs ((v, idxs) :: rest) =
        (idxs.map fun k => (v, k)) ++ ValueMap.pairs rest := by
      simp [ValueMap.pairs]
    simp only [valueLoop, hv, if_true, indexLoop_eq, hrest, hpairs, caseList_append,
      caseBlocks_append, List.length_map, List.length_append]
    have : n + 3 * idxs.length + 3 * (ValueMap.pairs rest).length =
        n + 3 * (idxs.length + (ValueMap.pairs rest).length) := by ring
    rw [this]

theorem splitInsts_relevant (info : ArrayInfo) (n : Nat) (bb : BlockId)
    (before rest : List Instruction) (inst : Instruction) (h : isRelevantGEP info inst = true) :
    splitInsts info n bb before (inst :: rest) =
      (⟨bb, before ++ [⟨n + 1, "", .br n⟩]⟩ ::
        ⟨n, [inst, ⟨n + 3, "", .br (n + 2)⟩]⟩ ::
        ⟨n + 4, [⟨n + 5, "", .br (n + 2)⟩]⟩ :: (splitInsts info (n + 6) (n + 2) [] rest).1,
        inst.id :: (splitInsts info (n + 6) (n + 2) [] rest).2.1,
        (splitInsts info (n + 6) (n + 2) [] rest).2.2) := by
  simp only [splitInsts, h, if_true]

theorem splitInsts_skip_plain (info : ArrayInfo) :
    ∀ (pre before rest : List Instruction) (n : Nat) (bb : BlockId),
      (∀ x ∈ pre, isRelevantGEP info x = false) →
      splitInsts info n bb before (pre ++ rest) = splitInsts info n bb (before ++ pre) rest := by
  intro pre
  induction pre with
  | nil => intro before rest n bb _; simp
  | cons x xs ih =>
    intro before rest n bb h
    have hx : isRelevantGEP info x = false := h x (by simp)
    rw [List.cons_append]
    simp only [splitInsts, hx, Bool.false_eq_true, if_false]
    rw [ih _ _ _ _ (fun y hy => h y (by simp [hy]))]
    simp

/-! ## The pass on a `ReadSite` -/

theorem isPlain_not_relevant (info : ArrayInfo) (x : Instruction) (h : isPlain x = true) :
    isRelevantGEP info x = false := by
  unfold isPlain at h
  unfold isRelevantGEP
  cases hk : x.kind <;> simp_all

theorem isPlain_not_load (g : InstId) (x : Instruction) (h : isPlain x = true) :
    isLoadOf g x = false := by
  unfold isPlain at h
  unfold isLoadOf
  cases hk : x.kind <;> simp_all

theorem not_target_not_relevant (info : ArrayInfo) (name : String) (x : Instruction)
    (hinfo : ∀ k, k ≠ name → info.find k = none) (h : targets name x = false) :
    isRelevantGEP info x = false := by
  unfold targets at h
  unfold isRelevantGEP
  cases hk : x.kind with
  | gep ptr idx =>
    rw [hk] at h
    have hne : ptr.getName ≠ name := by simpa using h
    simp [hinfo _ hne]
  | _ => rfl

theorem ReadSite.relevant_facts (S : ReadSite) (hS : S.WellFormed) (info : ArrayInfo)
    (m : ValueMap) (hfind : info.find S.name = some m)
    (hother : ∀ k, k ≠ S.name → info.find k = none) :
    (∀ x ∈ S.pre, isRelevantGEP info x = false) ∧ isRelevantGEP info S.gep = true ∧
      (∀ x ∈ S.load :: S.post, isRelevantGEP info x = false) := by
  refine ⟨fun x hx => isPlain_not_relevant info x (hS.pre_plain x hx), ?_, ?_⟩
  · have hn : (S.name != "") = true := by simpa using hS.named
    simp [isRelevantGEP, ReadSite.gep, Operand.hasName, Operand.getName, hfind, hn]
  · intro x hx
    rcases List.mem_cons.mp hx with rfl | hx
    · rfl
    · exact not_target_not_relevant info S.name x hother (hS.post_no_site x hx)

theorem ReadSite.buildGEPBlocks (S : ReadSite) (hS : S.WellFormed) (info : ArrayInfo)
    (m : ValueMap) (hfind : info.find S.name = some m)
    (hother : ∀ k, k ≠ S.name → info.find k = none) (fuel : Nat) (hfuel : 4 ≤ fuel) :
    BuildGEPBlocks info fuel S.module = some (S.moduleAfterSplit, [S.gepId]) := by
  obtain ⟨hpre, hgep, hpost⟩ := S.relevant_facts hS info m hfind hother
  have hcount : relevantCount info (S.pre ++ S.gep :: S.load :: S.post) = 1 := by
    have h1 : S.pre.filter (isRelevantGEP info) = [] := by
      simpa [List.filter_eq_nil_iff] using hpre
    have h2 : (S.load :: S.post).filter (isRelevantGEP info) = [] := by
      rw [List.filter_eq_nil_iff]
      intro a ha
      simp [hpost a ha]
    simp [relevantCount, List.filter_append, List.filter_cons, hgep, h1, h2]
  have hbudget : splitBudget info S.module ≤ fuel := by
    simp only [splitBudget, ReadSite.module, List.map_cons, List.map_nil, List.foldr_cons,
      List.foldr_nil, scanCost, hcount]
    omega
  have hsplit : splitInsts info S.nextId S.entry [] (S.pre ++ S.gep :: S.load :: S.post) =
      (S.blocksAfterSplit, [S.gepId], S.nextId + 6) := by
    rw [splitInsts_skip_plain info S.pre [] _ _ _ hpre, splitInsts_relevant info _ _ _ _ _ hgep,
      splitInsts_none info (S.load :: S.post) [] _ _ hpost]
    simp [ReadSite.blocksAfterSplit, ReadSite.gep]
  rw [BuildGEPBlocks_eq info fuel S.module hbudget]
  simp [ReadSite.module, splitFunctions, KleeArray.splitBlocks, hsplit, ReadSite.moduleAfterSplit]

theorem ReadSite.getGEPLoadPair (S : ReadSite) (hS : S.WellFormed) :
    GetGEPLoadPair S.moduleAfterSplit [S.gepId] = [(S.gepId, S.loadId)] := by
  have h1 : S.pre.filter (isLoadOf S.gepId) = [] := by
    rw [List.filter_eq_nil_iff]
    intro a ha
    simp [isPlain_not_load S.gepId a (hS.pre_plain a ha)]
  have h2 : S.post.filter (isLoadOf S.gepId) = [] := by
    rw [List.filter_eq_nil_iff]
    intro a ha
    simp [hS.post_no_read a ha]
  have hl : isLoadOf S.gepId S.load = true := by
    simp [isLoadOf, ReadSite.load, Operand.isInst]
  have hg : isLoadOf S.gepId S.gep = false := rfl
  have hbr : ∀ (i : InstId) (d : BlockId), isLoadOf S.gepId ⟨i, "", .br d⟩ = false :=
    fun _ _ => rfl
  have hid : S.load.id = S.loadId := rfl
  simp [GetGEPLoadPair, ReadSite.moduleAfterSplit, ReadSite.blocksAfterSplit, List.filter_append,
    List.filter_cons, h1, h2, hl, hg, hbr, hid]

theorem find_id_none (l : List Instruction) (t : InstId) (h : ∀ x ∈ l, x.id ≠ t) :
    l.find? (fun i => decide (i.id = t)) = none := by
  rw [List.find?_eq_none]
  intro x hx
  simpa using h x hx

theorem locateInBlocks_caseBlocks (holder : Operand) (d : BlockId) (t : Nat)
    (tail : List BasicBlock) :
    ∀ (pairs : List (Value × Nat)) (n k : Nat), t < n →
      locateInBlocks t (caseBlocks holder d n pairs ++ tail) k =
        locateInBlocks t tail (k + pairs.length) := by
  intro pairs
  induction pairs with
  | nil => intro n k _; simp [caseBlocks]
  | cons p rest ih =>
    intro n k hlt
    obtain ⟨v, i⟩ := p
    have h1 : ¬ n + 2 = t := by omega
    have h2 : ¬ n + 1 = t := by omega
    rw [show caseBlocks holder d n ((v, i) :: rest) =
      caseBlock holder d n v :: caseBlocks holder d (n + 3) rest from rfl, List.cons_append]
    simp only [locateInBlocks, caseBlock, List.find?_cons, h1, h2, decide_False, List.find?_nil]
    rw [ih (n + 3) (k + 1) (by omega)]
    simp only [List.length_cons]
    congr 1
    omega

theorem caseBlocks_map_replace (h : Nat) (hname : String) (hty : Ty) (d : BlockId)
    (old : Nat) (newInst : Instruction) (newRef : Operand) (hne : h ≠ old) :
    ∀ (pairs : List (Value × Nat)) (n : Nat), old < n →
      (caseBlocks (.reg h hname hty) d n pairs).map
          (fun b => (⟨b.id, replaceInstWithInst old newInst newRef b.insts⟩ : BasicBlock)) =
        caseBlocks (.reg h hname hty) d n pairs := by
  intro pairs
  induction pairs with
  | nil => intro n _; simp [caseBlocks]
  | cons p rest ih =>
    intro n hlt
    obtain ⟨v, i⟩ := p
    have h1 : ¬ n + 2 = old := by omega
    have h2 : ¬ n + 1 = old := by omega
    rw [show caseBlocks (.reg h hname hty) d n ((v, i) :: rest) =
      caseBlock (.reg h hname hty) d n v :: caseBlocks (.reg h hname hty) d (n + 3) rest from rfl,
      List.map_cons, ih (n + 3) (by omega)]
    congr 1
    simp [caseBlock, replaceInstWithInst, h1, h2, InstKind.subst, Operand.subst, hne]

theorem ReadSite.switchOnePair (S : ReadSite) (hS : S.WellFormed) (info : ArrayInfo)
    (m : ValueMap) (hfind : info.find S.name = some m) (hm : m ≠ [])
    (hty : ∀ e ∈ m, e.1.ty = .integer S.bits) :
    KleeArray.switchOnePair info S.moduleAfterSplit S.gepId S.loadId = some (S.transformed m) := by
  obtain ⟨hentry, hgepfresh, hloadfresh, hifresh⟩ := hS.fresh
  obtain ⟨hgl, hig, hil⟩ := hS.distinct
  have hpre_gep : ∀ x ∈ S.pre, x.id ≠ S.gepId := fun x hx => (hS.ids x (by simp [hx])).1
  have hpre_load : ∀ x ∈ S.pre, x.id ≠ S.loadId := fun x hx => (hS.ids x (by simp [hx])).2
  have hpost_load : ∀ x ∈ S.post, x.id ≠ S.loadId := fun x hx => (hS.ids x (by simp [hx])).2
  have hfindg : (S.pre ++ [(⟨S.nextId + 1, "", .br S.nextId⟩ : Instruction)]).find?
      (fun i => decide (i.id = S.gepId)) = none := by
    apply find_id_none
    intro x hx
    rcases List.mem_append.mp hx with hx | hx
    · exact hpre_gep x hx
    · have : x = ⟨S.nextId + 1, "", .br S.nextId⟩ := by simpa using hx
      subst this; show S.nextId + 1 ≠ S.gepId; omega
  have hloc : locateInFunctions S.gepId [⟨S.fname, S.blocksAfterSplit⟩] 0 =
      some (0, 1, S.gep) := by
    have hg : S.gep.id = S.gepId := rfl
    simp [ReadSite.blocksAfterSplit, locateInFunctions, locateInBlocks,
      hfindg, List.find?_cons, hg]
  obtain ⟨first, mrest, hmeq⟩ := List.exists_cons_of_ne_nil hm
  have hfirst : first.1.ty = .integer S.bits := hty first (by rw [hmeq]; simp)
  have hint : ∀ e ∈ m, e.1.ty.isIntegerTy = true := by
    intro e he; rw [hty e he]; rfl
  have hvl := valueLoop_eq S.holder (S.nextId + 4) S.ibits m (S.nextId + 6 + 2) hint
  have hfindl : (S.rewrite m S.pre ++ [(⟨S.nextId + 1, "", .br S.nextId⟩ : Instruction)]).find?
      (fun i => decide (i.id = S.loadId)) = none := by
    apply find_id_none
    intro x hx
    rcases List.mem_append.mp hx with hx | hx
    · simp only [ReadSite.rewrite, replaceInstWithInst, List.mem_map] at hx
      obtain ⟨y, hy, rfl⟩ := hx
      have := hpre_load y hy
      simp only [this, if_false]
      exact this
    · have : x = ⟨S.nextId + 1, "", .br S.nextId⟩ := by simpa using hx
      subst this; show S.nextId + 1 ≠ S.loadId; omega
  have hfindl0 : (S.pre ++ [(⟨S.nextId + 1, "", .br S.nextId⟩ : Instruction)]).find?
      (fun i => decide (i.id = S.loadId)) = none := by
    apply find_id_none
    intro x hx
    rcases List.mem_append.mp hx with hx | hx
    · exact hpre_load x hx
    · have : x = ⟨S.nextId + 1, "", .br S.nextId⟩ := by simpa using hx
      subst this; show S.nextId + 1 ≠ S.loadId; omega
  have hrw_pre : replaceInstWithInst S.loadId (S.newLoad m)
      (.reg (S.newLoadId m) "optLoad" (.integer S.bits))
      (S.pre ++ [(⟨S.nextId + 1, "", .br S.nextId⟩ : Instruction)]) =
      S.rewrite m S.pre ++ [⟨S.nextId + 1, "", .br S.nextId⟩] := by
    have h1 : ¬ S.nextId + 1 = S.loadId := by omega
    simp [ReadSite.rewrite, replaceInstWithInst, h1, InstKind.subst]
  have hcb := caseBlocks_map_replace (S.nextId + 6) "holder" .pointer (S.nextId + 4) S.loadId
    (S.newLoad m) (.reg (S.newLoadId m) "optLoad" (.integer S.bits)) (by omega) m.pairs
    (S.nextId + 8) (by omega)
  have hlocl := locateInBlocks_caseBlocks S.holder (S.nextId + 4) S.loadId
    [⟨S.nextId + 4, [⟨S.nextId + 5, "", .br (S.nextId + 2)⟩]⟩, ⟨S.nextId + 2, S.load :: S.post⟩]
    m.pairs (S.nextId + 8) 2 (by omega)
  have e1 : ¬ S.nextId + 6 = S.loadId := by omega
  have e2 : ¬ S.nextId + 7 = S.loadId := by omega
  have e3 : ¬ S.nextId + 5 = S.loadId := by omega
  have e4 : ¬ S.gepId = S.loadId := hgl
  have e5 : ¬ S.iId = S.loadId := hil
  have hlid : S.load.id = S.loadId := rfl
  have hgid : S.gep.id = S.gepId := rfl
  have hloc2 : locateInFunctions S.loadId
      [⟨S.fname, ⟨S.entry, S.pre ++ [⟨S.nextId + 1, "", .br S.nextId⟩]⟩ ::
        ⟨S.nextId, [⟨S.nextId + 6, "holder", .alloca (.integer S.bits)⟩, S.gep,
          ⟨S.nextId + 7, "", .switch S.idx (S.nextId + 4)
            (caseList S.ibits (S.nextId + 8) m.pairs)⟩]⟩ ::
        (caseBlocks S.holder (S.nextId + 4) (S.nextId + 8) m.pairs ++
        [⟨S.nextId + 4, [⟨S.nextId + 5, "", .br (S.nextId + 2)⟩]⟩,
         ⟨S.nextId + 2, S.load :: S.post⟩])⟩] 0 =
      some (0, 2 + m.pairs.length + 1, S.load) := by
    simp only [locateInFunctions, locateInBlocks, hfindl0, List.find?_cons, hgid, e1, e2, e3, e4,
      decide_False, List.find?_nil, Nat.zero_add, Nat.reduceAdd]
    rw [hlocl]
    simp only [locateInBlocks, List.find?_cons, e3, decide_False, List.find?_nil, hlid,
      decide_True]
  have hgk : S.gep.kind = .gep (.global S.name .pointer) [.const (i32 0), S.idx] := rfl
  have hfs : S.moduleAfterSplit.functions = [⟨S.fname, S.blocksAfterSplit⟩] := rfl
  have hnid : S.moduleAfterSplit.nextId = S.nextId + 6 := rfl
  have hgl0 : S.moduleAfterSplit.globals = [arrayGlobal S.name S.bits S.vs] := rfl
  have hb1 : S.blocksAfterSplit[1]? =
      some ⟨S.nextId, [S.gep, ⟨S.nextId + 3, "", .br (S.nextId + 2)⟩]⟩ := rfl
  have hb2 : S.blocksAfterSplit[1 + 1]? =
      some ⟨S.nextId + 4, [⟨S.nextId + 5, "", .br (S.nextId + 2)⟩]⟩ := rfl
  have hhead : m.head? = some first := by rw [hmeq]; rfl
  have hop2 : gepOperand (.global S.name .pointer) [.const (i32 0), S.idx] 2 = some S.idx := rfl
  have hidxty : S.idx.getType = .integer S.ibits := rfl
  have hins : insertBefore S.gepId ⟨S.nextId + 6, "holder", .alloca first.1.ty⟩
      [S.gep, ⟨S.nextId + 3, "", .br (S.nextId + 2)⟩] =
      [⟨S.nextId + 6, "holder", .alloca (.integer S.bits)⟩, S.gep,
        ⟨S.nextId + 3, "", .br (S.nextId + 2)⟩] := by
    simp [insertBefore, hgid, hfirst]
  have hholder : (Operand.reg (S.nextId + 6) "holder" .pointer) = S.holder := rfl
  have htake : S.blocksAfterSplit.take 1 =
      [⟨S.entry, S.pre ++ [⟨S.nextId + 1, "", .br S.nextId⟩]⟩] := rfl
  have hdrop : S.blocksAfterSplit.drop (1 + 1) =
      [⟨S.nextId + 4, [⟨S.nextId + 5, "", .br (S.nextId + 2)⟩]⟩,
       ⟨S.nextId + 2, S.load :: S.post⟩] := rfl
  simp only [KleeArray.switchOnePair, hloc, hgk, Operand.getName, hfind, hfs, hnid, hgl0,
    List.getElem?_cons_zero, hb1, hb2, hhead, hop2, hidxty, hins, hholder, hvl, htake, hdrop,
    List.dropLast, List.set_cons_zero, List.cons_append, List.nil_append, List.singleton_append,
    Nat.reduceAdd, Nat.add_assoc, hloc2]
  have hnl : S.nextId + (8 + 3 * m.pairs.length) = S.newLoadId m := by
    unfold ReadSite.newLoadId; omega
  have hnl2 : S.nextId + (8 + (3 * m.pairs.length + 1)) = S.newLoadId m + 1 := by
    unfold ReadSite.newLoadId; omega
  have hl : S.load = ⟨S.loadId, "x", .load (.reg S.gepId "arrayidx" .pointer) S.align⟩ := rfl
  rw [hnl, hnl2, hl, hfirst]
  simp only [ReadSite.transformed, Option.some.injEq, Module.mk.injEq, true_and, and_true]
  have hnewli : (⟨S.newLoadId m, "optLoad", .load S.holder S.align⟩ : Instruction) =
      S.newLoad m := rfl
  have hgsub : InstKind.subst S.loadId (.reg (S.newLoadId m) "optLoad" (.integer S.bits))
      S.gep.kind = S.gep.kind := by
    simp [ReadSite.gep, InstKind.subst, Operand.subst, ReadSite.idx, e5]
  have hrw_host : replaceInstWithInst S.loadId (S.newLoad m)
      (.reg (S.newLoadId m) "optLoad" (.integer S.bits))
      [⟨S.nextId + 6, "holder", .alloca (.integer S.bits)⟩, S.gep,
       ⟨S.nextId + 7, "", .switch S.idx (S.nextId + 4)
         (caseList S.ibits (S.nextId + 8) m.pairs)⟩] =
      [⟨S.nextId + 6, "holder", .alloca (.integer S.bits)⟩, S.gep,
       ⟨S.nextId + 7, "", .switch S.idx (S.nextId + 4)
         (caseList S.ibits (S.nextId + 8) m.pairs)⟩] := by
    simp only [replaceInstWithInst, List.map_cons, List.map_nil, e1, e2, hgid, e4, if_false,
      hgsub]
    simp [InstKind.subst, Operand.subst, ReadSite.idx, e5]
    rfl
  have hrw_def : replaceInstWithInst S.loadId (S.newLoad m)
      (.reg (S.newLoadId m) "optLoad" (.integer S.bits))
      [⟨S.nextId + 5, "", .br (S.nextId + 2)⟩] = [⟨S.nextId + 5, "", .br (S.nextId + 2)⟩] := by
    simp [replaceInstWithInst, e3, InstKind.subst]
  have hrw_post : replaceInstWithInst S.loadId (S.newLoad m)
      (.reg (S.newLoadId m) "optLoad" (.integer S.bits))
      (⟨S.loadId, "x", .load (.reg S.gepId "arrayidx" .pointer) S.align⟩ :: S.post) =
      S.newLoad m :: S.rewrite m S.post := by
    simp [replaceInstWithInst, ReadSite.rewrite]
  rw [hnewli]
  simp only [mapInstLists, List.map_cons, List.map_nil, List.map_append, hrw_pre, hrw_host,
    hrw_def, hrw_post, ← hholder, hcb, ReadSite.transformedBlocks, List.cons_append,
    List.nil_append]

theorem ReadSite.runPass_eq (S : ReadSite) (hS : S.WellFormed) (addr : Value → Nat)
    (fuel : Nat) (hfuel : 4 ≤ fuel) :
    ∃ m, runPass addr fuel S.module = some (S.transformed m) ∧
      (∀ p ∈ m.pairs, S.vs[p.2]? = some p.1.payload) ∧
      (∀ k < S.vs.length, ∃ v, (v, k) ∈ m.pairs) := by
  obtain ⟨info, m, hb, hfind, hother, hm, hty, hp1, hp2⟩ :=
    catalog_of_array addr S.name S.bits S.vs hS.nonempty
  refine ⟨m, ?_, hp1, hp2⟩
  have hg : S.module.globals = [arrayGlobal S.name S.bits S.vs] := rfl
  unfold runPass
  rw [hg, hb]
  simp only [S.buildGEPBlocks hS info m hfind hother fuel hfuel, S.getGEPLoadPair hS,
    BuildSwitchStmts, S.switchOnePair hS info m hfind hm hty]

/-! ## Executing the transformed function -/

theorem intLabel_payload (bits k : Nat) (h : k < 2 ^ (bits - 1)) :
    (intLabel bits k).payload = (k : Int) := by
  have hle : 2 ^ (bits - 1) ≤ 2 ^ bits := Nat.pow_le_pow_right (by norm_num) (Nat.sub_le bits 1)
  have hmod : k % 2 ^ bits = k := Nat.mod_eq_of_lt (lt_of_lt_of_le h hle)
  simp [intLabel, hmod, h]

theorem findBlock_caseBlocks_lt (holder : Operand) (d : BlockId) (x : Nat)
    (tail : List BasicBlock) :
    ∀ (pairs : List (Value × Nat)) (n : Nat), x < n →
      findBlock (caseBlocks holder d n pairs ++ tail) x = findBlock tail x := by
  intro pairs
  induction pairs with
  | nil => intro n _; simp [caseBlocks]
  | cons p rest ih =>
    intro n hlt
    obtain ⟨v, i⟩ := p
    have h1 : ¬ n = x := by omega
    rw [show caseBlocks holder d n ((v, i) :: rest) =
      caseBlock holder d n v :: caseBlocks holder d (n + 3) rest from rfl, List.cons_append]
    have := ih (n + 3) (by omega)
    simp only [findBlock] at this ⊢
    simp only [List.find?_cons, caseBlock, h1, decide_False, this]

/-- The switch sends the index `i` to the block of a pair with index `i`. -/
theorem case_dispatch (holder : Operand) (d : BlockId) (bits : Nat) (i : Nat) :
    ∀ (pairs : List (Value × Nat)) (n : Nat),
      (∀ p ∈ pairs, p.2 < 2 ^ (bits - 1)) → (∃ v, (v, i) ∈ pairs) →
      ∃ v b, (v, i) ∈ pairs ∧ switchTarget (caseList bits n pairs) d (i : Int) = b ∧ n ≤ b ∧
        findBlock (caseBlocks holder d n pairs) b = some (caseBlock holder d b v) := by
  intro pairs
  induction pairs with
  | nil => intro n _ h; obtain ⟨v, hv⟩ := h; simp at hv
  | cons p rest ih =>
    intro n hw hex
    obtain ⟨v0, k0⟩ := p
    have hk0 : (intLabel bits k0).payload = (k0 : Int) :=
      intLabel_payload bits k0 (hw (v0, k0) (by simp))
    by_cases hki : k0 = i
    · subst hki
      refine ⟨v0, n, by simp, ?_, le_refl n, ?_⟩
      · simp [switchTarget, caseList, List.find?_cons, hk0]
      · simp [findBlock, caseBlocks, caseBlock, List.find?_cons]
    · have hex2 : ∃ v, (v, i) ∈ rest := by
        obtain ⟨v, hv⟩ := hex
        rcases List.mem_cons.mp hv with h | h
        · exact absurd (congrArg Prod.snd h).symm hki
        · exact ⟨v, h⟩
      obtain ⟨v, b, hv, ht, hb, hf⟩ := ih (n + 3) (fun p hp => hw p (by simp [hp])) hex2
      refine ⟨v, b, by simp [hv], ?_, by omega, ?_⟩
      · have hne : ¬ ((k0 : Int) = (i : Int)) := by
          intro h; exact hki (by exact_mod_cast h)
        simp only [switchTarget, caseList, List.find?_cons, hk0, hne, decide_False] at ht ⊢
        exact ht
      · have hnb : ¬ n = b := by omega
        simp only [findBlock, caseBlocks, caseBlock, List.find?_cons, hnb, decide_False] at hf ⊢
        exact hf

theorem runTo_skip_plain (globals : List GlobalVariable) (blocks : List BasicBlock)
    (target : InstId) (rest : List Instruction) :
    ∀ (pre : List Instruction) (fuel : Nat) (fr : Frame), (∀ x ∈ pre, isPlain x = true) →
      runTo globals blocks target (pre.length + fuel) fr (pre ++ rest) =
        runTo globals blocks target fuel fr rest := by
  intro pre
  induction pre with
  | nil => intro fuel fr _; simp
  | cons x xs ih =>
    intro fuel fr h
    have hx : isPlain x = true := h x (by simp)
    have hlen : (x :: xs).length + fuel = (xs.length + fuel) + 1 := by
      simp only [List.length_cons]; omega
    rw [hlen, List.cons_append]
    unfold isPlain at hx
    cases hk : x.kind with
    | other t ops =>
      rw [hk] at hx
      cases t with
      | true => simp at hx
      | false =>
        simp only [runTo, hk, Bool.false_eq_true, if_false]
        exact ih fuel fr (fun y hy => h y (by simp [hy]))
    | _ => rw [hk] at hx; simp at hx

theorem ReadSite.rewrite_plain (S : ReadSite) (hS : S.WellFormed) (m : ValueMap) :
    ∀ x ∈ S.rewrite m S.pre, isPlain x = true := by
  intro x hx
  simp only [ReadSite.rewrite, replaceInstWithInst, List.mem_map] at hx
  obtain ⟨y, hy, rfl⟩ := hx
  have hid : ¬ y.id = S.loadId := (hS.ids y (by simp [hy])).2
  have hp := hS.pre_plain y hy
  simp only [hid, if_false]
  unfold isPlain at hp ⊢
  cases hk : y.kind with
  | other t ops =>
    rw [hk] at hp
    cases t with
    | true => simp at hp
    | false => simp [hk, InstKind.subst]
  | _ => rw [hk] at hp; simp at hp

theorem ReadSite.run_transformed (S : ReadSite) (hS : S.WellFormed) (m : ValueMap)
    (hp1 : ∀ p ∈ m.pairs, S.vs[p.2]? = some p.1.payload)
    (hp2 : ∀ k < S.vs.length, ∃ v, (v, k) ∈ m.pairs) (i : Nat) (hi : i < S.vs.length) :
    runTo [arrayGlobal S.name S.bits S.vs] (S.transformedBlocks m) (S.newLoadId m)
        (S.pre.length + 8) ⟨[(S.iId, .int i)], []⟩
        (S.rewrite m S.pre ++ [⟨S.nextId + 1, "", .br S.nextId⟩]) =
      some (.int S.vs[i]) := by
  obtain ⟨hentry, hgepfresh, hloadfresh, hifresh⟩ := hS.fresh
  obtain ⟨hgl, hig, hil⟩ := hS.distinct
  have hw : ∀ p ∈ m.pairs, p.2 < 2 ^ (S.ibits - 1) := by
    intro p hp
    have h := hp1 p hp
    have hlt : p.2 < S.vs.length := by
      by_contra hc
      rw [List.getElem?_eq_none (by omega)] at h
      exact Option.noConfusion h
    exact lt_of_lt_of_le hlt hS.width
  obtain ⟨v, b, hv, ht, hb, hf⟩ :=
    case_dispatch S.holder (S.nextId + 4) S.ibits i m.pairs (S.nextId + 8) hw (hp2 i hi)
  have hval : v.payload = S.vs[i] := by
    have h := hp1 (v, i) hv
    rw [List.getElem?_eq_getElem hi] at h
    exact (Option.some.inj h).symm
  have hlen : (S.rewrite m S.pre).length = S.pre.length := by
    simp [ReadSite.rewrite, replaceInstWithInst]
  rw [← hlen, runTo_skip_plain _ _ _ _ _ _ _ (S.rewrite_plain hS m)]
  have hblocks : S.transformedBlocks m =
      ⟨S.entry, S.rewrite m S.pre ++ [⟨S.nextId + 1, "", .br S.nextId⟩]⟩ ::
      ⟨S.nextId,
        [⟨S.nextId + 6, "holder", .alloca (.integer S.bits)⟩, S.gep,
         ⟨S.nextId + 7, "", .switch S.idx (S.nextId + 4)
           (caseList S.ibits (S.nextId + 8) m.pairs)⟩]⟩ ::
      (caseBlocks S.holder (S.nextId + 4) (S.nextId + 8) m.pairs ++
      [⟨S.nextId + 4, [⟨S.nextId + 5, "", .br (S.nextId + 2)⟩]⟩,
       ⟨S.nextId + 2, S.newLoad m :: S.rewrite m S.post⟩]) := by
    simp [ReadSite.transformedBlocks]
  have n1 : ¬ S.entry = S.nextId := by omega
  have n2 : ¬ S.entry = b := by omega
  have n3 : ¬ S.nextId = b := by omega
  have n4 : ¬ S.entry = S.nextId + 4 := by omega
  have n5 : ¬ S.entry = S.nextId + 2 := by omega
  have hB_host : findBlock (S.transformedBlocks m) S.nextId = some
      ⟨S.nextId,
        [⟨S.nextId + 6, "holder", .alloca (.integer S.bits)⟩, S.gep,
         ⟨S.nextId + 7, "", .switch S.idx (S.nextId + 4)
           (caseList S.ibits (S.nextId + 8) m.pairs)⟩]⟩ := by
    rw [hblocks]
    simp [findBlock, List.find?_cons, n1]
  have hB_case : findBlock (S.transformedBlocks m) b =
      some (caseBlock S.holder (S.nextId + 4) b v) := by
    rw [hblocks]
    simp only [findBlock] at hf ⊢
    simp only [List.find?_cons, n2, n3, decide_False, List.find?_append, hf, Option.or_some]
  have hB_def : findBlock (S.transformedBlocks m) (S.nextId + 4) =
      some ⟨S.nextId + 4, [⟨S.nextId + 5, "", .br (S.nextId + 2)⟩]⟩ := by
    rw [hblocks]
    have h := findBlock_caseBlocks_lt S.holder (S.nextId + 4) (S.nextId + 4)
      [⟨S.nextId + 4, [⟨S.nextId + 5, "", .br (S.nextId + 2)⟩]⟩,
       ⟨S.nextId + 2, S.newLoad m :: S.rewrite m S.post⟩] m.pairs (S.nextId + 8) (by omega)
    simp only [findBlock] at h ⊢
    simp [List.find?_cons, n4, h]
  have hB_post : findBlock (S.transformedBlocks m) (S.nextId + 2) =
      some ⟨S.nextId + 2, S.newLoad m :: S.rewrite m S.post⟩ := by
    rw [hblocks]
    have h := findBlock_caseBlocks_lt S.holder (S.nextId + 4) (S.nextId + 2)
      [⟨S.nextId + 4, [⟨S.nextId + 5, "", .br (S.nextId + 2)⟩]⟩,
       ⟨S.nextId + 2, S.newLoad m :: S.rewrite m S.post⟩] m.pairs (S.nextId + 8) (by omega)
    simp only [findBlock] at h ⊢
    simp [List.find?_cons, n5, h]
  have t1 : ¬ S.nextId + 6 = S.newLoadId m := by unfold ReadSite.newLoadId; omega
  have t2 : ¬ S.gepId = S.newLoadId m := by unfold ReadSite.newLoadId; omega
  have q1 : (S.iId == S.nextId + 6) = false := by
    rw [beq_eq_false_iff_ne]; omega
  have q2 : (S.iId == S.gepId) = false := by
    rw [beq_eq_false_iff_ne]; exact hig
  have q3 : (S.nextId + 6 == S.gepId) = false := by
    rw [beq_eq_false_iff_ne]; omega
  simp only [runTo, hB_host, ReadSite.gep, ReadSite.idx, t1, t2, if_false, evalOperand,
    List.mapM_cons, List.mapM_nil, List.lookup, q1, q2, q3, beq_self_eq_true, i32,
    Option.pure_def, Option.bind_eq_bind, Option.bind_some, ht, hB_case, caseBlock,
    ReadSite.holder, hB_def, hB_post, ReadSite.newLoad, readMem, if_true, hval]
  simp

theorem ReadSite.run_original (S : ReadSite) (hS : S.WellFormed) (i : Nat)
    (hi : i < S.vs.length) :
    runTo [arrayGlobal S.name S.bits S.vs] [⟨S.entry, S.pre ++ S.gep :: S.load :: S.post⟩]
        S.loadId (S.pre.length + 2) ⟨[(S.iId, .int i)], []⟩
        (S.pre ++ S.gep :: S.load :: S.post) =
      some (.int S.vs[i]) := by
  obtain ⟨hgl, hig, hil⟩ := hS.distinct
  rw [runTo_skip_plain _ _ _ _ _ _ _ hS.pre_plain]
  have q2 : (S.iId == S.gepId) = false := by
    rw [beq_eq_false_iff_ne]; exact hig
  have hread : readGlobal [arrayGlobal S.name S.bits S.vs] S.name (i : Int) =
      some (.int S.vs[i]) := by
    simp [readGlobal, arrayGlobal, List.find?_cons, List.getElem?_eq_getElem hi, intConst]
  simp only [runTo, ReadSite.gep, ReadSite.load, ReadSite.idx, evalOperand, List.mapM_cons,
    List.mapM_nil, List.lookup, q2, beq_self_eq_true, i32, Option.pure_def,
    Option.bind_eq_bind, Option.bind_some, hgl, if_false, readMem, if_true]
  simp [hread]

/-! ## The whole transformation on straight-line code -/

/-- Straight-line instance of the whole transformation, in which the read is
always reached: for a `ReadSite` (one function whose block is straight-line
code `pre`, the GEP, the load through it, and any `post` without further site
or read), the four components return a module in which a load `optLoad` of
the scratch cell stands at the head of the continuation block in place of the
read, and for every concrete index `i < N` both the original function and the
transformed function reach the read, with the value `vs[i]`. -/
theorem straight_line_read_is_reached (addr : Value → Nat) (S : ReadSite) (fuel : Nat)
    (hS : S.WellFormed) (hfuel : 4 ≤ fuel) :
    ∃ (M1 : Module) (f : Function) (entry : BasicBlock) (newLoad : InstId)
      (rest : List Instruction),
      runPass addr fuel S.module = some M1 ∧
      M1.functions = [f] ∧ f.blocks.head? = some entry ∧
      (⟨S.nextId + 2,
          ⟨newLoad, "optLoad", .load (.reg (S.nextId + 6) "holder" .pointer) S.align⟩ :: rest⟩
        ∈ f.blocks) ∧
      ∀ (i : Nat) (hi : i < S.vs.length),
        runTo S.module.globals [⟨S.entry, S.pre ++ S.gep :: S.load :: S.post⟩] S.loadId
            (S.pre.length + 2) ⟨[(S.iId, .int i)], []⟩ (S.pre ++ S.gep :: S.load :: S.post) =
          some (.int S.vs[i]) ∧
        runTo M1.globals f.blocks newLoad (S.pre.length + 8) ⟨[(S.iId, .int i)], []⟩
            entry.insts =
          some (.int S.vs[i]) := by
  obtain ⟨m, hrun, hp1, hp2⟩ := S.runPass_eq hS addr fuel hfuel
  refine ⟨S.transformed m, ⟨S.fname, S.transformedBlocks m⟩,
    ⟨S.entry, S.rewrite m S.pre ++ [(⟨S.nextId + 1, "", .br S.nextId⟩ : Instruction)]⟩,
    S.newLoadId m, S.rewrite m S.post, hrun, rfl, rfl, ?_, ?_⟩
  · simp [ReadSite.transformedBlocks, ReadSite.newLoad, ReadSite.holder]
  · intro i hi
    exact ⟨S.run_original hS i hi, S.run_transformed hS m hp1 hp2 i hi⟩

/-- The straight-line instance on the scenario `data[5] = {0,2,4,6,8}`,
`x = data[sym_i]`. -/
theorem straight_line_read_is_reached_example :
    ∃ (M1 : Module) (f : Function) (entry : BasicBlock) (newLoad : InstId)
      (rest : List Instruction),
      runPass payloadAddr 4 scenarioSite.module = some M1 ∧
      M1.functions = [f] ∧ f.blocks.head? = some entry ∧
      (⟨scenarioSite.nextId + 2,
          ⟨newLoad, "optLoad", .load (.reg (scenarioSite.nextId + 6) "holder" .pointer)
            scenarioSite.align⟩ :: rest⟩
        ∈ f.blocks) ∧
      ∀ (i : Nat) (hi : i < scenarioSite.vs.length),
        runTo scenarioSite.module.globals
            [⟨scenarioSite.entry,
              scenarioSite.pre ++ scenarioSite.gep :: scenarioSite.load :: scenarioSite.post⟩]
            scenarioSite.loadId (scenarioSite.pre.length + 2) ⟨[(scenarioSite.iId, .int i)], []⟩
            (scenarioSite.pre ++ scenarioSite.gep :: scenarioSite.load :: scenarioSite.post) =
          some (.int scenarioSite.vs[i]) ∧
        runTo M1.globals f.blocks newLoad (scenarioSite.pre.length + 8)
            ⟨[(scenarioSite.iId, .int i)], []⟩ entry.insts =
          some (.int scenarioSite.vs[i]) :=
  straight_line_read_is_reached payloadAddr scenarioSite 4
    { named := by decide
      nonempty := by decide
      width := by decide
      pre_plain := by decide
      post_no_site := by decide
      post_no_read := by decide
      ids := by decide
      fresh := by decide
      distinct := by decide }
    (by decide)

/-! ## Claims on the splitter and on pairing -/

theorem GetGEPLoadPair_eq (M : Module) (relGeps : List InstId) :
    GetGEPLoadPair M relGeps =
      relGeps.flatMap fun gep => (loadsOf M gep).map fun r => (gep, r.id) := by
  unfold GetGEPLoadPair loadsOf Module.insts Function.insts
  congr 1
  funext gep
  simp only [List.filter_flatMap, List.map_flatMap]

/-- C7: In a program where no index computation has a base whose name is a
key of the catalog, `BuildGEPBlocks` returns the module unchanged with an
empty site list, `GetGEPLoadPair` emits no pair, and `BuildSwitchStmts` on
those pairs returns the module unchanged (so it creates no switch). -/
theorem no_catalog_base_no_transformation (info : ArrayInfo) (fuel : Nat) (M : Module)
    (hfuel : splitBudget info M ≤ fuel)
    (hno : ∀ inst ∈ M.insts, ∀ ptr idx, inst.kind = .gep ptr idx →
      info.find ptr.getName = none) :
    BuildGEPBlocks info fuel M = some (M, []) ∧
      GetGEPLoadPair M [] = [] ∧
      BuildSwitchStmts info M (GetGEPLoadPair M []) = some M := by
  have hrel : ∀ i ∈ M.functions.flatMap (fun f => f.insts), isRelevantGEP info i = false := by
    intro i hi
    unfold isRelevantGEP
    cases hk : i.kind with
    | gep ptr idx => simp [hno i hi ptr idx hk]
    | _ => rfl
  refine ⟨?_, rfl, rfl⟩
  rw [BuildGEPBlocks_eq info fuel M hfuel, splitFunctions_none info M.functions M.nextId hrel]

/-- Witness for C7: the scenario module under an empty catalog. -/
theorem no_catalog_base_no_transformation_witness :
    BuildGEPBlocks [] 1 scenarioModule = some (scenarioModule, []) ∧
      GetGEPLoadPair scenarioModule [] = [] ∧
      BuildSwitchStmts [] scenarioModule (GetGEPLoadPair scenarioModule []) =
        some scenarioModule :=
  no_catalog_base_no_transformation [] 1 scenarioModule (by decide)
    (by intro inst _ ptr idx _; rfl)

/-- C8: With enough fuel `BuildGEPBlocks` returns, and its site list is the
list of the instructions of the module, in traversal order, that are GEPs
with a named base whose name is a key of the catalog: each occurrence once,
in order, and nothing else. -/
theorem buildGEPBlocks_sites_are_relevant_geps (info : ArrayInfo) (fuel : Nat) (M : Module)
    (hfuel : splitBudget info M ≤ fuel) :
    ∃ M1, BuildGEPBlocks info fuel M =
      some (M1, (M.insts.filter (isRelevantGEP info)).map (fun i => i.id)) := by
  refine ⟨⟨M.globals, (splitFunctions info M.nextId M.functions).1,
    (splitFunctions info M.nextId M.functions).2.2⟩, ?_⟩
  rw [BuildGEPBlocks_eq info fuel M hfuel, splitFunctions_ids]
  rfl

/-- Witness for C8: the scenario, whose only site is the GEP with identity 10. -/
theorem buildGEPBlocks_sites_are_relevant_geps_witness :
    ∃ M1, BuildGEPBlocks scenarioInfo 4 scenarioModule =
      some (M1, (scenarioModule.insts.filter (isRelevantGEP scenarioInfo)).map (fun i => i.id)) :=
  buildGEPBlocks_sites_are_relevant_geps scenarioInfo 4 scenarioModule (by decide)

/-- C9: When every site is the address operand of at most one load, the
pairs of `GetGEPLoadPair`, projected to their GEPs, are the sites that have a
consuming load, in the order of the site list; the load of each pair is a
load of the module whose address operand is the pair's GEP; a site without
consuming load occurs in no pair. -/
theorem getGEPLoadPair_pairs_sites_with_load (M : Module) (relGeps : List InstId)
    (hone : ∀ g ∈ relGeps, (loadsOf M g).length ≤ 1) :
    (GetGEPLoadPair M relGeps).map Prod.fst =
        relGeps.filter (fun g => M.insts.any (isLoadOf g)) ∧
      (∀ p ∈ GetGEPLoadPair M relGeps, ∃ r ∈ M.insts, r.id = p.2 ∧ isLoadOf p.1 r = true) ∧
      (∀ g ∈ relGeps, M.insts.any (isLoadOf g) = false →
        ∀ p ∈ GetGEPLoadPair M relGeps, p.1 ≠ g) := by
  have hfst : (GetGEPLoadPair M relGeps).map Prod.fst =
      relGeps.filter (fun g => M.insts.any (isLoadOf g)) := by
    rw [GetGEPLoadPair_eq]
    induction relGeps with
    | nil => rfl
    | cons g gs ih =>
      have hg := hone g (by simp)
      have ih1 := ih (fun x hx => hone x (by simp [hx]))
      simp only [List.flatMap_cons, List.map_append, ih1, List.filter_cons]
      cases hl : loadsOf M g with
      | nil =>
        have hany : M.insts.any (isLoadOf g) = false := by
          have : ∀ a ∈ M.insts, ¬ isLoadOf g a = true := by
            simpa [loadsOf] using hl
          rw [Bool.eq_false_iff]
          intro hc
          obtain ⟨x, hx, hp⟩ := List.any_eq_true.mp hc
          exact this x hx hp
        simp [hany]
      | cons r rs =>
        have hrs : rs = [] := by
          rw [hl] at hg
          cases rs with
          | nil => rfl
          | cons _ _ => simp at hg
        subst hrs
        have hr : r ∈ loadsOf M g := by rw [hl]; simp
        have hany : M.insts.any (isLoadOf g) = true :=
          List.any_eq_true.mpr ⟨r, (List.mem_filter.mp hr).1, (List.mem_filter.mp hr).2⟩
        simp [hany]
  refine ⟨hfst, ?_, ?_⟩
  · intro p hp
    rw [GetGEPLoadPair_eq] at hp
    obtain ⟨g, _, hp2⟩ := List.mem_flatMap.mp hp
    obtain ⟨r, hr, rfl⟩ := List.mem_map.mp hp2
    exact ⟨r, (List.mem_filter.mp hr).1, rfl, (List.mem_filter.mp hr).2⟩
  · intro g _ hany p hp hpg
    have hmem : p.1 ∈ (GetGEPLoadPair M relGeps).map Prod.fst := List.mem_map.mpr ⟨p, hp, rfl⟩
    rw [hfst, hpg] at hmem
    have := (List.mem_filter.mp hmem).2
    rw [hany] at this
    exact Bool.noConfusion this

/-- Witness for C9: the scenario with the sites 10 (read by load 11) and 12
(an instruction nobody reads through). -/
theorem getGEPLoadPair_pairs_sites_with_load_witness :
    (GetGEPLoadPair scenarioModule [12, 10]).map Prod.fst =
        [12, 10].filter (fun g => scenarioModule.insts.any (isLoadOf g)) ∧
      (∀ p ∈ GetGEPLoadPair scenarioModule [12, 10],
        ∃ r ∈ scenarioModule.insts, r.id = p.2 ∧ isLoadOf p.1 r = true) ∧
      (∀ g ∈ [12, 10], scenarioModule.insts.any (isLoadOf g) = false →
        ∀ p ∈ GetGEPLoadPair scenarioModule [12, 10], p.1 ≠ g) :=
  getGEPLoadPair_pairs_sites_with_load scenarioModule [12, 10] (by decide)

/-- C10 (as stated, refuted): the scenario function holds exactly one
qualifying index computation, yet `BuildGEPBlocks` ends with the toggle off
and the recorded site 10 has its default block: block 100 holds the GEP and a
branch to 102, the next block 104 is a single branch to 102, and 102 follows. -/
theorem single_site_has_default_block :
    (scenarioModule.insts.filter (isRelevantGEP scenarioInfo)).length = 1 ∧
      ∃ st fs, scanFunctions scenarioInfo 4 ⟨false, [], scenarioModule.nextId⟩ []
          scenarioModule.functions = some (st, fs) ∧
        st.splitBasicBlock = false ∧ st.relGeps = [10] ∧
        ∃ f ∈ fs, SiteHasDefault f.blocks 10 := by
  refine ⟨by decide, ⟨false, [10], 106⟩, [⟨"main", scenarioSplitBlocks⟩], by decide, rfl, rfl,
    ⟨"main", scenarioSplitBlocks⟩, List.mem_singleton.mpr rfl, ?_⟩
  exact ⟨[⟨0, [⟨101, "", .br 100⟩]⟩], [], 100, 104, 102, 103, 105,
    ⟨10, "arrayidx", .gep (.global "data" .pointer) [.const (i32 0), symI]⟩,
    [⟨11, "x", .load (.reg 10 "arrayidx" .pointer) 4⟩,
      ⟨12, "", .ret (some (.reg 11 "x" (.integer 32)))⟩], rfl, rfl⟩

/-- C10 (amended): Whatever the number of qualifying index computations,
with enough fuel `BuildGEPBlocks` ends with the toggle off, and every
recorded site has its default block: the site's block holds the GEP and a
branch to the continuation block, and the next block in layout is a single
branch to the continuation block, which follows it. -/
theorem every_site_has_default_block (info : ArrayInfo) (fuel : Nat) (M : Module)
    (hfuel : splitBudget info M ≤ fuel) :
    ∃ st fs, scanFunctions info fuel ⟨false, [], M.nextId⟩ [] M.functions = some (st, fs) ∧
      BuildGEPBlocks info fuel M = some (⟨M.globals, fs, st.nextId⟩, st.relGeps) ∧
      st.splitBasicBlock = false ∧
      ∀ g ∈ st.relGeps, ∃ f ∈ fs, SiteHasDefault f.blocks g := by
  have h := scanFunctions_eq info fuel M.functions [] M.nextId []
    (fun f hf => le_trans (scanCost_le_budget info M f hf) hfuel)
  refine ⟨_, _, h, ?_, rfl, ?_⟩
  · simp [BuildGEPBlocks, h]
  · intro g hg
    have hg2 : g ∈ (splitFunctions info M.nextId M.functions).2.1 := by simpa using hg
    obtain ⟨f, hf, hs⟩ := splitFunctions_sites info M.functions M.nextId g hg2
    exact ⟨f, by simpa using hf, hs⟩

/-- Witness for the amended C10: the scenario. -/
theorem every_site_has_default_block_witness :
    ∃ st fs, scanFunctions scenarioInfo 4 ⟨false, [], scenarioModule.nextId⟩ []
        scenarioModule.functions = some (st, fs) ∧
      BuildGEPBlocks scenarioInfo 4 scenarioModule =
        some (⟨scenarioModule.globals, fs, st.nextId⟩, st.relGeps) ∧
      st.splitBasicBlock = false ∧
      ∀ g ∈ st.relGeps, ∃ f ∈ fs, SiteHasDefault f.blocks g :=
  every_site_has_default_block scenarioInfo 4 scenarioModule (by decide)

/-! ## The scenario of the pass's documentation -/

/-- C3: On the scenario the switch built by `BuildSwitchStmts` has six cases
for the five elements of `data`, and the label 0 occurs twice. -/
theorem scenario_switch_has_six_cases :
    (runPass payloadAddr 4 scenarioModule).map (fun M => M.functions.map switchCases) =
      some [[[(i32 0, (108 : BlockId)), (i32 0, 111), (i32 1, 114), (i32 2, 117),
        (i32 3, 120), (i32 4, 123)]]] := by
  decide

/-- C4: On the scenario the index computation on `data` is still in the
function after `BuildSwitchStmts`; the instruction that was erased is the
branch that ended its block. -/
theorem scenario_gep_remains :
    (runPass payloadAddr 4 scenarioModule).map (fun M => M.insts.filter (targets "data")) =
      some [⟨10, "arrayidx", .gep (.global "data" .pointer) [.const (i32 0), symI]⟩] := by
  decide

/-! ## Termination and block count of the splitter -/

theorem splitInsts_length (info : ArrayInfo) :
    ∀ (after before : List Instruction) (n : Nat) (bb : BlockId),
      (splitInsts info n bb before after).1.length = 1 + 3 * relevantCount info after := by
  intro after
  induction after with
  | nil => intro before n bb; simp [splitInsts, relevantCount]
  | cons inst r ih =>
    intro before n bb
    by_cases hrel : isRelevantGEP info inst = true
    · have hcnt : relevantCount info (inst :: r) = relevantCount info r + 1 := by
        simp [relevantCount, List.filter_cons, hrel]
      rw [splitInsts_relevant info n bb before r inst hrel, hcnt]
      simp only [List.length_cons, ih]
      omega
    · have hrel2 : isRelevantGEP info inst = false := by simpa using hrel
      have hcnt : relevantCount info (inst :: r) = relevantCount info r := by
        simp [relevantCount, List.filter_cons, hrel2]
      simp only [splitInsts, hrel2, Bool.false_eq_true, if_false, hcnt]
      exact ih _ _ _

theorem relevantCount_append (info : ArrayInfo) (l1 l2 : List Instruction) :
    relevantCount info (l1 ++ l2) = relevantCount info l1 + relevantCount info l2 := by
  simp [relevantCount, List.filter_append]

theorem splitBlocks_length (info : ArrayInfo) :
    ∀ (blocks : List BasicBlock) (n : Nat),
      (splitBlocks info n blocks).1.length =
        blocks.length + 3 * relevantCount info (blocks.flatMap fun b => b.insts) := by
  intro blocks
  induction blocks with
  | nil => intro n; simp [splitBlocks, relevantCount]
  | cons b rest ih =>
    intro n
    simp only [splitBlocks, List.length_append, splitInsts_length, ih, List.flatMap_cons,
      relevantCount_append, List.length_cons]
    omega

theorem splitFunctions_shape (info : ArrayInfo) :
    ∀ (fs : List Function) (n : Nat),
      List.Forall₂
        (fun f f1 => f1.name = f.name ∧
          f1.blocks.length = f.blocks.length + 3 * relevantCount info f.insts)
        fs (splitFunctions info n fs).1 := by
  intro fs
  induction fs with
  | nil => intro n; simp [splitFunctions]
  | cons f rest ih =>
    intro n
    simp only [splitFunctions]
    exact List.Forall₂.cons ⟨rfl, splitBlocks_length info f.blocks n⟩ (ih _)

/-- C19: For every module and catalog the traversal of `BuildGEPBlocks`
terminates: with the budget `splitBudget` (and with any larger one) it
returns, although the block list grows while it is walked; it ends with the
toggle `splitBasicBlock` off; and every function has afterwards exactly three
blocks more per qualifying index computation. -/
theorem buildGEPBlocks_terminates (info : ArrayInfo) (M : Module) (extra : Nat) :
    ∃ st fs,
      scanFunctions info (splitBudget info M + extra) ⟨false, [], M.nextId⟩ [] M.functions =
        some (st, fs) ∧
      BuildGEPBlocks info (splitBudget info M + extra) M =
        some (⟨M.globals, fs, st.nextId⟩, st.relGeps) ∧
      st.splitBasicBlock = false ∧
      List.Forall₂
        (fun f f1 => f1.name = f.name ∧
          f1.blocks.length = f.blocks.length + 3 * relevantCount info f.insts)
        M.functions fs := by
  have h := scanFunctions_eq info (splitBudget info M + extra) M.functions [] M.nextId []
    (fun f hf => le_trans (scanCost_le_budget info M f hf) (Nat.le_add_right _ _))
  refine ⟨_, _, h, ?_, rfl, ?_⟩
  · simp [BuildGEPBlocks, h]
  · simpa using splitFunctions_shape info M.functions M.nextId

/-! ## The splitter keeps the instructions -/

theorem splitInsts_counter (info : ArrayInfo) :
    ∀ (after before : List Instruction) (n : Nat) (bb : BlockId),
      n ≤ (splitInsts info n bb before after).2.2 := by
  intro after
  induction after with
  | nil => intro before n bb; simp [splitInsts]
  | cons inst r ih =>
    intro before n bb
    by_cases hrel : isRelevantGEP info inst = true
    · rw [splitInsts_relevant info n bb before r inst hrel]
      have := ih [] (n + 6) (n + 2)
      simp only
      omega
    · have hrel2 : isRelevantGEP info inst = false := by simpa using hrel
      simp only [splitInsts, hrel2, Bool.false_eq_true, if_false]
      exact ih _ _ _

theorem filter_old_eq (n0 : Nat) (l : List Instruction) (h : ∀ i ∈ l, i.id < n0) :
    l.filter (fun i => decide (i.id < n0)) = l := by
  rw [List.filter_eq_self]
  intro a ha
  simpa using h a ha

theorem splitInsts_keeps (info : ArrayInfo) (n0 : Nat) :
    ∀ (after before : List Instruction) (n : Nat) (bb : BlockId), n0 ≤ n →
      (∀ i ∈ before, i.id < n0) → (∀ i ∈ after, i.id < n0) →
      ((splitInsts info n bb before after).1.flatMap fun b => b.insts).filter
          (fun i => decide (i.id < n0)) = before ++ after := by
  intro after
  induction after with
  | nil =>
    intro before n bb _ hb _
    simp [splitInsts, filter_old_eq n0 before hb]
  | cons inst r ih =>
    intro before n bb hn hb ha
    have hinst : inst.id < n0 := ha inst (by simp)
    have hr : ∀ i ∈ r, i.id < n0 := fun i hi => ha i (by simp [hi])
    by_cases hrel : isRelevantGEP info inst = true
    · rw [splitInsts_relevant info n bb before r inst hrel]
      have h1 : ¬ n + 1 < n0 := by omega
      have h3 : ¬ n + 3 < n0 := by omega
      have h5 : ¬ n + 5 < n0 := by omega
      have key := ih [] (n + 6) (n + 2) (by omega) (by simp) hr
      simp only [List.flatMap_cons, List.filter_append, List.filter_cons, List.filter_nil,
        filter_old_eq n0 before hb, h1, h3, h5, hinst, decide_True, decide_False, if_true,
        key]
      simp
    · have hrel2 : isRelevantGEP info inst = false := by simpa using hrel
      simp only [splitInsts, hrel2, Bool.false_eq_true, if_false]
      rw [ih (before ++ [inst]) n bb hn ?_ hr]
      · simp
      · intro i hi
        rcases List.mem_append.mp hi with h | h
        · exact hb i h
        · have : i = inst := by simpa using h
          rw [this]; exact hinst

theorem splitInsts_added (info : ArrayInfo) (n0 : Nat) :
    ∀ (after before : List Instruction) (n : Nat) (bb : BlockId), n0 ≤ n →
      (∀ i ∈ before, i.id < n0) → (∀ i ∈ after, i.id < n0) →
      ∀ b ∈ (splitInsts info n bb before after).1, ∀ i ∈ b.insts, n0 ≤ i.id →
        (∃ d, i.kind = .br d) ∧ b.insts.getLast? = some i := by
  intro after
  induction after with
  | nil =>
    intro before n bb _ hb _ b hbm i hi hfresh
    have : b = ⟨bb, before⟩ := by simpa [splitInsts] using hbm
    subst this
    exact absurd (hb i hi) (Nat.not_lt.mpr hfresh)
  | cons inst r ih =>
    intro before n bb hn hb ha b hbm i hi hfresh
    have hinst : inst.id < n0 := ha inst (by simp)
    have hr : ∀ i ∈ r, i.id < n0 := fun i hi => ha i (by simp [hi])
    by_cases hrel : isRelevantGEP info inst = true
    · rw [splitInsts_relevant info n bb before r inst hrel] at hbm
      simp only [List.mem_cons] at hbm
      rcases hbm with rfl | rfl | rfl | hbm
      · rcases List.mem_append.mp hi with h | h
        · exact absurd (hb i h) (Nat.not_lt.mpr hfresh)
        · have : i = ⟨n + 1, "", .br n⟩ := by simpa using h
          subst this
          exact ⟨⟨n, rfl⟩, by simp⟩
      · have hi2 : i = inst ∨ i = ⟨n + 3, "", .br (n + 2)⟩ := by simpa using hi
        rcases hi2 with rfl | rfl
        · exact absurd hinst (Nat.not_lt.mpr hfresh)
        · exact ⟨⟨n + 2, rfl⟩, by simp⟩
      · have : i = ⟨n + 5, "", .br (n + 2)⟩ := by simpa using hi
        subst this
        exact ⟨⟨n + 2, rfl⟩, by simp⟩
      · exact ih [] (n + 6) (n + 2) (by omega) (by simp) hr b hbm i hi hfresh
    · have hrel2 : isRelevantGEP info inst = false := by simpa using hrel
      simp only [splitInsts, hrel2, Bool.false_eq_true, if_false] at hbm
      refine ih (before ++ [inst]) n bb hn ?_ hr b hbm i hi hfresh
      intro x hx
      rcases List.mem_append.mp hx with h | h
      · exact hb x h
      · have : x = inst := by simpa using h
        rw [this]; exact hinst

theorem splitBlocks_counter (info : ArrayInfo) :
    ∀ (blocks : List BasicBlock) (n : Nat), n ≤ (splitBlocks info n blocks).2.2 := by
  intro blocks
  induction blocks with
  | nil => intro n; simp [splitBlocks]
  | cons b rest ih =>
    intro n
    simp only [splitBlocks]
    exact le_trans (splitInsts_counter info b.insts [] n b.id) (ih _)

theorem splitBlocks_keeps (info : ArrayInfo) (n0 : Nat) :
    ∀ (blocks : List BasicBlock) (n : Nat), n0 ≤ n →
      (∀ i ∈ blocks.flatMap (fun b => b.insts), i.id < n0) →
      ((splitBlocks info n blocks).1.flatMap fun b => b.insts).filter
          (fun i => decide (i.id < n0)) = blocks.flatMap (fun b => b.insts) ∧
      ∀ b ∈ (splitBlocks info n blocks).1, ∀ i ∈ b.insts, n0 ≤ i.id →
        (∃ d, i.kind = .br d) ∧ b.insts.getLast? = some i := by
  intro blocks
  induction blocks with
  | nil => intro n _ _; simp [splitBlocks]
  | cons b rest ih =>
    intro n hn hids
    have h1 : ∀ i ∈ b.insts, i.id < n0 := fun i hi => hids i (by simp [List.flatMap_cons, hi])
    have h2 : ∀ i ∈ rest.flatMap (fun b => b.insts), i.id < n0 := fun i hi =>
      hids i (by simp only [List.flatMap_cons, List.mem_append]; exact Or.inr hi)
    have hn1 : n0 ≤ (splitInsts info n b.id [] b.insts).2.2 :=
      le_trans hn (splitInsts_counter info b.insts [] n b.id)
    obtain ⟨k1, k2⟩ := ih _ hn1 h2
    have k0 := splitInsts_keeps info n0 b.insts [] n b.id hn (by simp) h1
    refine ⟨?_, ?_⟩
    · simp only [splitBlocks, List.flatMap_append, List.filter_append, k0, k1, List.nil_append,
        List.flatMap_cons]
    · intro x hx i hi hfresh
      simp only [splitBlocks, List.mem_append] at hx
      rcases hx with hx | hx
      · exact splitInsts_added info n0 b.insts [] n b.id hn (by simp) h1 x hx i hi hfresh
      · exact k2 x hx i hi hfresh

theorem splitFunctions_counter (info : ArrayInfo) :
    ∀ (fs : List Function) (n : Nat), n ≤ (splitFunctions info n fs).2.2 := by
  intro fs
  induction fs with
  | nil => intro n; simp [splitFunctions]
  | cons f rest ih =>
    intro n
    simp only [splitFunctions]
    exact le_trans (splitBlocks_counter info f.blocks n) (ih _)

theorem splitFunctions_keeps (info : ArrayInfo) (n0 : Nat) :
    ∀ (fs : List Function) (n : Nat), n0 ≤ n →
      (∀ i ∈ fs.flatMap (fun f => f.insts), i.id < n0) →
      List.Forall₂
        (fun f f1 => f1.name = f.name ∧
          f1.insts.filter (fun i => decide (i.id < n0)) = f.insts ∧
          ∀ b ∈ f1.blocks, ∀ i ∈ b.insts, n0 ≤ i.id →
            (∃ d, i.kind = .br d) ∧ b.insts.getLast? = some i)
        fs (splitFunctions info n fs).1 := by
  intro fs
  induction fs with
  | nil => intro n _ _; simp [splitFunctions]
  | cons f rest ih =>
    intro n hn hids
    have h1 : ∀ i ∈ f.blocks.flatMap (fun b => b.insts), i.id < n0 := fun i hi =>
      hids i (by simp only [List.flatMap_cons, List.mem_append, Function.insts]; exact Or.inl hi)
    have h2 : ∀ i ∈ rest.flatMap (fun f => f.insts), i.id < n0 := fun i hi =>
      hids i (by simp only [List.flatMap_cons, List.mem_append]; exact Or.inr hi)
    have hn1 : n0 ≤ (splitBlocks info n f.blocks).2.2 :=
      le_trans hn (splitBlocks_counter info f.blocks n)
    obtain ⟨k1, k2⟩ := splitBlocks_keeps info n0 f.blocks n hn h1
    simp only [splitFunctions]
    exact List.Forall₂.cons ⟨rfl, k1, k2⟩ (ih _ hn1 h2)

/-- C18: With enough fuel, and in a module whose instruction identities lie
below the identity counter, `BuildGEPBlocks` keeps the instructions of every
function: read in layout order, the instructions of the function that are not
new are exactly the original ones, unchanged and in their order (none removed
or duplicated); every new instruction is an unconditional branch and is the
last instruction of its block (so a block without original instruction, such
as a default block, holds one branch and nothing else). -/
theorem buildGEPBlocks_keeps_instructions (info : ArrayInfo) (fuel : Nat) (M : Module)
    (hfuel : splitBudget info M ≤ fuel) (hids : ∀ i ∈ M.insts, i.id < M.nextId) :
    ∃ M1 sites, BuildGEPBlocks info fuel M = some (M1, sites) ∧
      List.Forall₂
        (fun f f1 => f1.name = f.name ∧
          f1.insts.filter (fun i => decide (i.id < M.nextId)) = f.insts ∧
          ∀ b ∈ f1.blocks, ∀ i ∈ b.insts, M.nextId ≤ i.id →
            (∃ d, i.kind = .br d) ∧ b.insts.getLast? = some i)
        M.functions M1.functions := by
  refine ⟨_, _, BuildGEPBlocks_eq info fuel M hfuel, ?_⟩
  exact splitFunctions_keeps info M.nextId M.functions M.nextId (le_refl _) hids

/-- Witness for C18: the scenario. -/
theorem buildGEPBlocks_keeps_instructions_witness :
    ∃ M1 sites, BuildGEPBlocks scenarioInfo 4 scenarioModule = some (M1, sites) ∧
      List.Forall₂
        (fun f f1 => f1.name = f.name ∧
          f1.insts.filter (fun i => decide (i.id < scenarioModule.nextId)) = f.insts ∧
          ∀ b ∈ f1.blocks, ∀ i ∈ b.insts, scenarioModule.nextId ≤ i.id →
            (∃ d, i.kind = .br d) ∧ b.insts.getLast? = some i)
        scenarioModule.functions M1.functions :=
  buildGEPBlocks_keeps_instructions scenarioInfo 4 scenarioModule (by decide) (by decide)

/-! ## The scaffolding of a site -/

theorem splitInsts_head_insts (info : ArrayInfo) :
    ∀ (after before : List Instruction) (n : Nat) (bb : BlockId),
      ∃ y tail, (splitInsts info n bb before after).1 = ⟨bb, before ++ y⟩ :: tail := by
  intro after
  induction after with
  | nil => intro before n bb; exact ⟨[], [], by simp [splitInsts]⟩
  | cons inst r ih =>
    intro before n bb
    by_cases hrel : isRelevantGEP info inst = true
    · rw [splitInsts_relevant info n bb before r inst hrel]
      exact ⟨_, _, rfl⟩
    · have hrel2 : isRelevantGEP info inst = false := by simpa using hrel
      obtain ⟨y, tail, h⟩ := ih (before ++ [inst]) n bb
      refine ⟨inst :: y, tail, ?_⟩
      simp only [splitInsts, hrel2, Bool.false_eq_true, if_false, h]
      simp

theorem ContinuationOf.widen {info : ArrayInfo} {rest cont : List Instruction}
    {back : List BasicBlock} (h : ContinuationOf info rest cont back) (ys : List BasicBlock) :
    ContinuationOf info rest cont (back ++ ys) := by
  unfold ContinuationOf at h ⊢
  cases rest with
  | nil => exact h
  | cons x r =>
    by_cases hx : isRelevantGEP info x = true
    · simp only [hx, if_true] at h ⊢
      obtain ⟨j, q, tail, h1, h2⟩ := h
      refine ⟨j, q, tail, h1, ?_⟩
      cases back with
      | nil => simp at h2
      | cons b0 bs => simpa using h2
    · simp only [hx, if_false] at h ⊢
      exact h

theorem SiteScaffold.embed {info : ArrayInfo} {blocks : List BasicBlock} {g : Instruction}
    {rest : List Instruction} (h : SiteScaffold info blocks g rest) (xs ys : List BasicBlock) :
    SiteScaffold info (xs ++ blocks ++ ys) g rest := by
  obtain ⟨front, back, b, d, p, j1, j2, cont, hb, hc⟩ := h
  exact ⟨xs ++ front, back ++ ys, b, d, p, j1, j2, cont, by simp [hb], hc.widen ys⟩

theorem splitInsts_continuation (info : ArrayInfo) (n : Nat) (p : BlockId)
    (rest : List Instruction) :
    ∃ cont back, (splitInsts info n p [] rest).1 = ⟨p, cont⟩ :: back ∧
      ContinuationOf info rest cont back := by
  cases rest with
  | nil => exact ⟨[], [], by simp [splitInsts], rfl⟩
  | cons x r =>
    by_cases hx : isRelevantGEP info x = true
    · rw [splitInsts_relevant info n p [] r x hx]
      refine ⟨_, _, rfl, ?_⟩
      simp only [ContinuationOf, hx, if_true]
      exact ⟨n + 1, n, _, rfl, rfl⟩
    · have hx2 : isRelevantGEP info x = false := by simpa using hx
      obtain ⟨y, tail, h⟩ := splitInsts_head_insts info r ([] ++ [x]) n p
      refine ⟨[] ++ [x] ++ y, tail, ?_, ?_⟩
      · simp only [splitInsts, hx2, Bool.false_eq_true, if_false, h]
      · simp [ContinuationOf, hx2]

theorem splitInsts_scaffold (info : ArrayInfo) :
    ∀ (after before : List Instruction) (n : Nat) (bb : BlockId)
      (a : List Instruction) (g : Instruction) (rest : List Instruction),
      after = a ++ g :: rest → isRelevantGEP info g = true →
      SiteScaffold info (splitInsts info n bb before after).1 g rest := by
  intro after
  induction after with
  | nil =>
    intro before n bb a g rest h _
    simp at h
  | cons inst r ih =>
    intro before n bb a g rest h hg
    cases a with
    | nil =>
      simp only [List.nil_append, List.cons.injEq] at h
      obtain ⟨rfl, rfl⟩ := h
      rw [splitInsts_relevant info n bb before r inst hg]
      obtain ⟨cont, back, h1, h2⟩ := splitInsts_continuation info (n + 6) (n + 2) r
      exact ⟨[⟨bb, before ++ [⟨n + 1, "", .br n⟩]⟩], back, n, n + 4, n + 2, n + 3, n + 5, cont,
        by simp [h1], h2⟩
    | cons a0 a1 =>
      simp only [List.cons_append, List.cons.injEq] at h
      obtain ⟨rfl, hr⟩ := h
      by_cases hrel : isRelevantGEP info inst = true
      · rw [splitInsts_relevant info n bb before r inst hrel]
        have key := (ih [] (n + 6) (n + 2) a1 g rest hr hg).embed
          [⟨bb, before ++ [⟨n + 1, "", .br n⟩]⟩, ⟨n, [inst, ⟨n + 3, "", .br (n + 2)⟩]⟩,
            ⟨n + 4, [⟨n + 5, "", .br (n + 2)⟩]⟩] []
        simpa using key
      · have hrel2 : isRelevantGEP info inst = false := by simpa using hrel
        simp only [splitInsts, hrel2, Bool.false_eq_true, if_false]
        exact ih _ _ _ a1 g rest hr hg

theorem splitBlocks_scaffold (info : ArrayInfo) :
    ∀ (blocks : List BasicBlock) (n : Nat),
      ∀ b ∈ blocks, ∀ (a : List Instruction) (g : Instruction) (rest : List Instruction),
        b.insts = a ++ g :: rest → isRelevantGEP info g = true →
        SiteScaffold info (splitBlocks info n blocks).1 g rest := by
  intro blocks
  induction blocks with
  | nil => intro n b hb; simp at hb
  | cons b0 bs ih =>
    intro n b hb a g rest h hg
    simp only [splitBlocks]
    rcases List.mem_cons.mp hb with rfl | hb
    · have key := (splitInsts_scaffold info b.insts [] n b.id a g rest h hg).embed []
        (splitBlocks info (splitInsts info n b.id [] b.insts).2.2 bs).1
      simpa using key
    · have key := (ih (splitInsts info n b0.id [] b0.insts).2.2 b hb a g rest h hg).embed
        (splitInsts info n b0.id [] b0.insts).1 []
      simpa using key

theorem splitFunctions_scaffold (info : ArrayInfo) :
    ∀ (fs : List Function) (n : Nat),
      List.Forall₂
        (fun f f1 => f1.name = f.name ∧
          ∀ b ∈ f.blocks, ∀ (a : List Instruction) (g : Instruction) (rest : List Instruction),
            b.insts = a ++ g :: rest → isRelevantGEP info g = true →
            SiteScaffold info f1.blocks g rest)
        fs (splitFunctions info n fs).1 := by
  intro fs
  induction fs with
  | nil => intro n; simp [splitFunctions]
  | cons f rest ih =>
    intro n
    simp only [splitFunctions]
    exact List.Forall₂.cons ⟨rfl, splitBlocks_scaffold info f.blocks n⟩ (ih _)

/-- C17 (as stated, refuted): in `twoSiteModule` the instruction that
followed the first site (identity 10) is the second index computation
(identity 11); after `BuildGEPBlocks` the continuation block 102 of the first
site does not start with it: it holds a single branch to block 106, and the
instruction 11 is the first instruction of that block. -/
theorem continuation_of_site_before_site :
    BuildGEPBlocks scenarioInfo 7 twoSiteModule =
        some (⟨twoSiteModule.globals, [⟨"main", twoSiteSplitBlocks⟩], 112⟩, [10, 11]) ∧
      twoSiteSplitBlocks[3]? = some ⟨102, [⟨107, "", .br 106⟩]⟩ := by
  decide

/-- C17 (amended): With enough fuel `BuildGEPBlocks` returns, its site list is
the list of the relevant index computations in traversal order, and for every
one of them (the instruction `g` of a block `a ++ g :: rest` of the original
function) the new function holds the scaffolding: a block with `g` as first
instruction and nothing else than a branch to the continuation block; right
after it the default block, whose single instruction is a branch to the
continuation block; then the continuation block, which starts with the
instruction that followed the site, unless that instruction is itself a
relevant index computation: then the continuation block is a single branch to
the next block, which starts with it. -/
theorem buildGEPBlocks_scaffolding (info : ArrayInfo) (fuel : Nat) (M : Module)
    (hfuel : splitBudget info M ≤ fuel) :
    ∃ M1, BuildGEPBlocks info fuel M =
        some (M1, (M.insts.filter (isRelevantGEP info)).map (fun i => i.id)) ∧
      List.Forall₂
        (fun f f1 => f1.name = f.name ∧
          ∀ b ∈ f.blocks, ∀ (a : List Instruction) (g : Instruction) (rest : List Instruction),
            b.insts = a ++ g :: rest → isRelevantGEP info g = true →
            SiteScaffold info f1.blocks g rest)
        M.functions M1.functions := by
  refine ⟨⟨M.globals, (splitFunctions info M.nextId M.functions).1,
    (splitFunctions info M.nextId M.functions).2.2⟩, ?_, ?_⟩
  · rw [BuildGEPBlocks_eq info fuel M hfuel, splitFunctions_ids]
    rfl
  · exact splitFunctions_scaffold info M.functions M.nextId

/-- Witness for the amended C17: the module with two sites in a row. -/
theorem buildGEPBlocks_scaffolding_witness :
    ∃ M1, BuildGEPBlocks scenarioInfo 7 twoSiteModule =
        some (M1, (twoSiteModule.insts.filter (isRelevantGEP scenarioInfo)).map (fun i => i.id)) ∧
      List.Forall₂
        (fun f f1 => f1.name = f.name ∧
          ∀ b ∈ f.blocks, ∀ (a : List Instruction) (g : Instruction) (rest : List Instruction),
            b.insts = a ++ g :: rest → isRelevantGEP scenarioInfo g = true →
            SiteScaffold scenarioInfo f1.blocks g rest)
        twoSiteModule.functions M1.functions :=
  buildGEPBlocks_scaffolding scenarioInfo 7 twoSiteModule (by decide)

/-! ## The catalog under name collisions and repeated runs -/

/-- C13 (as stated, refuted): with `int data[2] = {1,2}` followed by
`int data[1] = {7}` the entry of `data` keeps the indices of the first
declaration (1 at 0, 2 at 1) next to the one of the second; the second
declaration alone would give the entry `7 ↦ [0,0]`. -/
theorem same_name_entries_are_merged :
    BuildArrayInfo payloadAddr [] [firstData, secondData] =
        some [("data", [(i32 1, [0, 0]), (i32 2, [1]), (i32 7, [0])])] ∧
      BuildArrayInfo payloadAddr [] [secondData] = some [("data", [(i32 7, [0, 0])])] :=
  ⟨by decide, by decide⟩

/-- C13 (amended): When two eligible, well-formed global arrays `A` and `B`
share a name (and no other global has it), with `A` declared first, the
catalog entry for that name is the one `A` creates with the indices of `B`
appended: the index list of a value `w` holds the positions of `w` in `A`
(after the index 0 that the creation of the entry records for element 0 of
`A`) followed by the positions of `w` in `B`.  Nothing is overwritten. -/
theorem buildArrayInfo_same_name_merges (addr : Value → Nat)
    (l1 l2 l3 : List GlobalVariable) (A B : GlobalVariable) (initA initB : Constant)
    (hwf : ∀ g ∈ l1 ++ A :: (l2 ++ B :: l3), g.WellFormed)
    (hA : A.initializer = some initA) (hB : B.initializer = some initB)
    (heA : A.isEligible = true) (heB : B.isEligible = true) (hname : B.name = A.name)
    (hothers : ∀ g ∈ l1 ++ l2 ++ l3, g.name ≠ A.name) :
    ∃ info m op0, BuildArrayInfo addr [] (l1 ++ A :: (l2 ++ B :: l3)) = some info ∧
      info.find A.name = some m ∧ initA.operands[0]? = some op0 ∧
      ∀ w, m.indices w =
        (if w = op0 then [0] else []) ++ initA.positionsOf w ++ initB.positionsOf w := by
  have hwf1 : ∀ g ∈ l1, g.WellFormed := fun g hg => hwf g (by simp [hg])
  have hwf2 : ∀ g ∈ l2, g.WellFormed := fun g hg => hwf g (by simp [hg])
  have hwf3 : ∀ g ∈ l3, g.WellFormed := fun g hg => hwf g (by simp [hg])
  have hwfA : A.WellFormed := hwf A (by simp)
  have hwfB : B.WellFormed := hwf B (by simp)
  obtain ⟨i1, hi1, hf1⟩ := BuildArrayInfo_find_other addr l1 A.name hwf1
    (fun g hg => hothers g (by simp [hg])) []
  obtain ⟨opA, mA, i2, hop, hvA, hfA, hidxA⟩ := visitGlobal_eligible addr i1 A initA hA hwfA heA
  obtain ⟨i3, hi3, hf3⟩ := BuildArrayInfo_find_other addr l2 A.name hwf2
    (fun g hg => hothers g (by simp [hg])) i2
  obtain ⟨opB, mB, i4, _, hvB, hfB, hidxB⟩ := visitGlobal_eligible addr i3 B initB hB hwfB heB
  obtain ⟨i5, hi5, hf5⟩ := BuildArrayInfo_find_other addr l3 A.name hwf3
    (fun g hg => hothers g (by simp [hg])) i4
  have h3 : i3.find B.name = some mA := by
    rw [hname, hf3, hfA]; simp
  refine ⟨i5, mB, opA, ?_, ?_, hop, ?_⟩
  · have e2 : BuildArrayInfo addr i3 (B :: l3) = some i5 := by
      rw [BuildArrayInfo, hvB]; exact hi5
    have e1 : BuildArrayInfo addr i1 (A :: (l2 ++ B :: l3)) = some i5 := by
      rw [BuildArrayInfo, hvA]
      show BuildArrayInfo addr i2 (l2 ++ B :: l3) = some i5
      rw [BuildArrayInfo_append, hi3]; exact e2
    rw [BuildArrayInfo_append, hi1]; exact e1
  · rw [hf5, hfB, hname]; simp
  · intro w
    rw [hidxB w, h3]
    simp only
    rw [hidxA w, hf1]
    simp [ArrayInfo.find]

/-- Witness for the amended C13: the two globals called `data`. -/
theorem buildArrayInfo_same_name_merges_witness :
    ∃ info m op0, BuildArrayInfo payloadAddr [] ([] ++ firstData :: ([] ++ secondData :: [])) =
        some info ∧
      info.find firstData.name = some m ∧ [i32 1, i32 2][0]? = some op0 ∧
      ∀ w, m.indices w =
        (if w = op0 then [0] else []) ++
          Constant.positionsOf ⟨.array (.integer 32) 2, false, [i32 1, i32 2]⟩ w ++
          Constant.positionsOf ⟨.array (.integer 32) 1, false, [i32 7]⟩ w :=
  buildArrayInfo_same_name_merges payloadAddr [] [] [] firstData secondData
    ⟨.array (.integer 32) 2, false, [i32 1, i32 2]⟩ ⟨.array (.integer 32) 1, false, [i32 7]⟩
    (by decide) rfl rfl (by decide) (by decide) rfl (by simp)

/-- C15 (as stated, refuted): on `int data[5] = {0,2,4,6,8}` a second run of
`BuildArrayInfo` on the catalog of the first run changes that catalog: every
index is listed once more. -/
theorem second_run_changes_catalog :
    BuildArrayInfo payloadAddr [] [dataGlobal] =
        some [("data", [(i32 0, [0, 0]), (i32 2, [1]), (i32 4, [2]), (i32 6, [3]),
          (i32 8, [4])])] ∧
      BuildArrayInfo payloadAddr
          [("data", [(i32 0, [0, 0]), (i32 2, [1]), (i32 4, [2]), (i32 6, [3]), (i32 8, [4])])]
          [dataGlobal] =
        some [("data", [(i32 0, [0, 0, 0]), (i32 2, [1, 1]), (i32 4, [2, 2]), (i32 6, [3, 3]),
          (i32 8, [4, 4])])] :=
  ⟨by decide, by decide⟩

/-- C15 (amended): A second run of `BuildArrayInfo` on the catalog of the
first run (same well-formed globals) returns a catalog with the same keys,
in which, for an eligible array `A` whose name no other global has, the
index list of every value `w` is the list of the first run followed by the
positions of `w` in `A` once more.  One run and two runs therefore differ as
soon as an eligible array exists. -/
theorem buildArrayInfo_second_run_appends (addr : Value → Nat) (gvl : List GlobalVariable)
    (A : GlobalVariable) (init : Constant)
    (hwf : ∀ g ∈ gvl, g.WellFormed) (hA : A.initializer = some init)
    (he : A.isEligible = true)
    (huniq : gvl.filter (fun g => decide (g.name = A.name)) = [A]) :
    ∃ info1 info2, BuildArrayInfo addr [] gvl = some info1 ∧
      BuildArrayInfo addr info1 gvl = some info2 ∧
      (∀ name, name ∈ info2.keys ↔ name ∈ info1.keys) ∧
      ∀ w, (info2.get A.name).indices w =
        (info1.get A.name).indices w ++ init.positionsOf w := by
  obtain ⟨info1, m1, op0, hb1, hfm1, _, _⟩ :=
    BuildArrayInfo_unique_entry addr gvl A init hwf hA he huniq
  obtain ⟨r1, hr1, hiff1⟩ := BuildArrayInfo_find addr gvl hwf []
  have e1 : r1 = info1 := by rw [hr1] at hb1; exact Option.some.inj hb1
  subst e1
  obtain ⟨info2, hb2, hiff2⟩ := BuildArrayInfo_find addr gvl hwf r1
  obtain ⟨l1, l2, hsplit, h1, h2⟩ := filter_eq_singleton_split _ A gvl huniq
  have hwf1 : ∀ g ∈ l1, g.WellFormed := fun g hg => hwf g (by rw [hsplit]; simp [hg])
  have hwf2 : ∀ g ∈ l2, g.WellFormed := fun g hg => hwf g (by rw [hsplit]; simp [hg])
  have hwfA : A.WellFormed := hwf A (by rw [hsplit]; simp)
  obtain ⟨j1, hj1, hf1⟩ := BuildArrayInfo_find_other addr l1 A.name hwf1
    (fun g hg => by simpa using h1 g hg) r1
  obtain ⟨opA, m2, j2, _, hv, hf2, hidx⟩ := visitGlobal_eligible addr j1 A init hA hwfA he
  obtain ⟨j3, hj3, hf3⟩ := BuildArrayInfo_find_other addr l2 A.name hwf2
    (fun g hg => by simpa using h2 g hg) j2
  have hrun : BuildArrayInfo addr r1 gvl = some j3 := by
    rw [hsplit, BuildArrayInfo_append, hj1]
    simp [BuildArrayInfo, hv, hj3]
  have e2 : j3 = info2 := by rw [hrun] at hb2; exact Option.some.inj hb2
  subst e2
  refine ⟨r1, j3, hb1, hrun, ?_, ?_⟩
  · intro name
    rw [ArrayInfo.mem_keys_iff, ArrayInfo.mem_keys_iff, hiff2 name, hiff1 name]
    simp [ArrayInfo.find]
  · intro w
    have hg2 : j3.get A.name = m2 := by
      simp [ArrayInfo.get, hf3, hf2]
    have hg1 : r1.get A.name = m1 := by simp [ArrayInfo.get, hfm1]
    rw [hg2, hg1, hidx w, hf1, hfm1]

/-- Witness for the amended C15: the global `data`. -/
theorem buildArrayInfo_second_run_appends_witness :
    ∃ info1 info2, BuildArrayInfo payloadAddr [] [dataGlobal] = some info1 ∧
      BuildArrayInfo payloadAddr info1 [dataGlobal] = some info2 ∧
      (∀ name, name ∈ info2.keys ↔ name ∈ info1.keys) ∧
      ∀ w, (info2.get dataGlobal.name).indices w =
        (info1.get dataGlobal.name).indices w ++
          Constant.positionsOf
            ⟨.array (.integer 32) 5, false, [i32 0, i32 2, i32 4, i32 6, i32 8]⟩ w :=
  buildArrayInfo_second_run_appends payloadAddr [dataGlobal] dataGlobal
    ⟨.array (.integer 32) 5, false, [i32 0, i32 2, i32 4, i32 6, i32 8]⟩
    (by decide) rfl (by decide) (by decide)

/-! ## The entry point -/

/-- C12: On the scenario `runOnModule` leaves the module as `BuildGEPBlocks`
left it and the pair list `[(10, 11)]` unused: the function has no switch,
and the read 11 through the index computation 10 is still in place. -/
theorem runOnModule_stops_before_switch :
    runOnModule payloadAddr 4 scenarioModule =
        some (⟨[dataGlobal], [⟨"main", scenarioSplitBlocks⟩], 106⟩, [(10, 11)]) ∧
      switchCases ⟨"main", scenarioSplitBlocks⟩ = [] ∧
      loadsOf ⟨[dataGlobal], [⟨"main", scenarioSplitBlocks⟩], 106⟩ 10 =
        [⟨11, "x", .load (.reg 10 "arrayidx" .pointer) 4⟩] :=
  ⟨by decide, by decide, by decide⟩

/-! ## Catalog values of other types -/

theorem valueLoop_integerEntries (holder : Operand) (d : BlockId) (idxTy : Ty) :
    ∀ (m : ValueMap) (n : Nat),
      valueLoop holder d idxTy m n = valueLoop holder d idxTy m.integerEntries n := by
  intro m
  induction m with
  | nil => intro n; rfl
  | cons e rest ih =>
    intro n
    obtain ⟨v, idxs⟩ := e
    by_cases hv : v.ty.isIntegerTy = true
    · have hf : ValueMap.integerEntries ((v, idxs) :: rest) =
          (v, idxs) :: ValueMap.integerEntries rest := by
        simp [ValueMap.integerEntries, hv]
      rw [hf]
      simp only [valueLoop, hv, if_true]
      cases indexLoop v holder d idxTy idxs n with
      | none => rfl
      | some r =>
        obtain ⟨c, b, n1⟩ := r
        simp only
        rw [ih n1]
    · have hf : ValueMap.integerEntries ((v, idxs) :: rest) = ValueMap.integerEntries rest := by
        simp [ValueMap.integerEntries, hv]
      rw [hf]
      simp only [valueLoop, hv]
      exact ih n

theorem ArrayInfo.find_integerEntries (info : ArrayInfo) (k : String) :
    info.integerEntries.find k = (info.find k).map ValueMap.integerEntries := by
  induction info with
  | nil => rfl
  | cons e rest ih =>
    obtain ⟨k1, m⟩ := e
    by_cases hk : k1 = k
    · simp [ArrayInfo.integerEntries, ArrayInfo.find, hk]
    · have ih1 : ArrayInfo.find (List.map (fun e => (e.1, e.2.integerEntries)) rest) k =
          (ArrayInfo.find rest k).map ValueMap.integerEntries := ih
      simp [ArrayInfo.integerEntries, ArrayInfo.find, hk, ih1]

theorem ArrayInfo.mem_of_find_some (info : ArrayInfo) (k : String) (m : ValueMap)
    (h : info.find k = some m) : (k, m) ∈ info := by
  induction info with
  | nil => simp [ArrayInfo.find] at h
  | cons e rest ih =>
    obtain ⟨k1, m1⟩ := e
    by_cases hk : k1 = k
    · simp only [ArrayInfo.find, hk, if_true, Option.some.injEq] at h
      subst h; subst hk
      exact List.mem_cons_self _ _
    · simp only [ArrayInfo.find, hk, if_false] at h
      exact List.mem_cons_of_mem _ (ih h)

theorem switchOnePair_integerEntries (info : ArrayInfo) (M : Module) (g l : InstId)
    (hfirst : ∀ e ∈ info, ∀ first, e.2.head? = some first → first.1.ty.isIntegerTy = true) :
    switchOnePair info.integerEntries M g l = switchOnePair info M g l := by
  unfold switchOnePair
  cases locateInFunctions g M.functions 0 with
  | none => rfl
  | some r =>
    obtain ⟨fi, bi, gepInst⟩ := r
    simp only
    cases gepInst.kind with
    | gep ptr indices =>
      simp only
      rw [ArrayInfo.find_integerEntries]
      cases hfind : info.find ptr.getName with
      | none => rfl
      | some sub =>
        have hmem := ArrayInfo.mem_of_find_some info _ sub hfind
        have hhead : sub.integerEntries.head? = sub.head? := by
          cases sub with
          | nil => rfl
          | cons e rest =>
            have he := hfirst _ hmem e rfl
            simp [ValueMap.integerEntries, he]
        simp only [Option.map_some', hhead, ← valueLoop_integerEntries]
    | _ => rfl

theorem BuildSwitchStmts_integerEntries (info : ArrayInfo)
    (hfirst : ∀ e ∈ info, ∀ first, e.2.head? = some first → first.1.ty.isIntegerTy = true) :
    ∀ (pairs : List (InstId × InstId)) (M : Module),
      BuildSwitchStmts info.integerEntries M pairs = BuildSwitchStmts info M pairs := by
  intro pairs
  induction pairs with
  | nil => intro M; rfl
  | cons p rest ih =>
    intro M
    obtain ⟨g, l⟩ := p
    simp only [BuildSwitchStmts, switchOnePair_integerEntries info M g l hfirst]
    cases switchOnePair info M g l with
    | none => rfl
    | some M1 => exact ih M1

theorem BuildArrayInfo_entry_types (addr : Value → Nat) (gvl : List GlobalVariable)
    (A : GlobalVariable) (init : Constant)
    (hwf : ∀ g ∈ gvl, g.WellFormed) (hA : A.initializer = some init)
    (he : A.isEligible = true)
    (huniq : gvl.filter (fun g => decide (g.name = A.name)) = [A]) :
    ∃ info m, BuildArrayInfo addr [] gvl = some info ∧ info.find A.name = some m ∧
      ∀ e ∈ m, init.ty.getElementType = some e.1.ty := by
  obtain ⟨l1, l2, hsplit, h1, h2⟩ := filter_eq_singleton_split _ A gvl huniq
  have hwf1 : ∀ g ∈ l1, g.WellFormed := fun g hg => hwf g (by rw [hsplit]; simp [hg])
  have hwf2 : ∀ g ∈ l2, g.WellFormed := fun g hg => hwf g (by rw [hsplit]; simp [hg])
  have hwfA : A.WellFormed := hwf A (by rw [hsplit]; simp)
  obtain ⟨j1, hj1, hf1⟩ := BuildArrayInfo_find_other addr l1 A.name hwf1
    (fun g hg => by simpa using h1 g hg) []
  obtain ⟨op0, m, j2, _, hv, hf2, _⟩ := visitGlobal_eligible addr j1 A init hA hwfA he
  obtain ⟨j3, hj3, hf3⟩ := BuildArrayInfo_find_other addr l2 A.name hwf2
    (fun g hg => by simpa using h2 g hg) j2
  have hm : j2.find A.name = some m := by rw [hf2]; simp
  have hnew : j1.find A.name = none := by rw [hf1]; rfl
  obtain ⟨_, hkeys⟩ := visitGlobal_entry_keys addr j1 j2 A init m hA hnew hv hm he
  have he1 : init.ty.isArrayTy = true ∧ init.isAggregateZero = false ∧
      (match init.ty.getElementType with
       | some e => e.isIntegerTy
       | none => false) = true := by
    simpa [GlobalVariable.isEligible, hA, and_assoc] using he
  have hwfi : init.WellFormed := by
    simpa [GlobalVariable.WellFormed, hA] using hwfA
  refine ⟨j3, m, ?_, ?_, ?_⟩
  · rw [hsplit, BuildArrayInfo_append, hj1]
    simp [BuildArrayInfo, hv, hj3]
  · rw [hf3, hm]
  · intro e hem
    have hk : e.1 ∈ m.keys := List.mem_map_of_mem Prod.fst hem
    exact (hwfi he1.1 he1.2.1).2.2 e.1 (hkeys e.1 hk)

/-- C14 (as stated, refuted): a catalog entry whose first value is a 32-bit
integer (so the scratch cell is an `i32` cell) and whose second value is a
floating-point constant meets the premise of the claim.  Given this catalog
and the pair (10, 11) of the split scenario module, `BuildSwitchStmts` reports
no error: it returns the transformed module, in which the floating-point
value has neither a case nor a store.  (A catalog built by `BuildArrayInfo`
never meets the premise, see `BuildArrayInfo_entry_types`; the catalog is
therefore given to the function directly.) -/
theorem non_integer_value_is_passed_over :
    BuildSwitchStmts mixedInfo scenarioSplitModule [(10, 11)] =
      some ⟨[dataGlobal],
        [⟨"main",
          [⟨0, [⟨101, "", .br 100⟩]⟩,
           ⟨100, [⟨106, "holder", .alloca (.integer 32)⟩,
             ⟨10, "arrayidx", .gep (.global "data" .pointer) [.const (i32 0), symI]⟩,
             ⟨107, "", .switch symI 104 [(i32 0, 108)]⟩]⟩,
           ⟨108, [⟨110, "", .store (.const (i32 0)) (.reg 106 "holder" .pointer)⟩,
             ⟨109, "", .br 104⟩]⟩,
           ⟨104, [⟨105, "", .br 102⟩]⟩,
           ⟨102, [⟨111, "optLoad", .load (.reg 106 "holder" .pointer) 4⟩,
             ⟨12, "", .ret (some (.reg 111 "optLoad" (.integer 32)))⟩]⟩]⟩],
        112⟩ := by
  decide

/-- C14 (amended): `BuildSwitchStmts` compares no types and has no
TypeMismatch error.  A catalog value that is not of integer type is passed
over silently: for a catalog in which every entry starts with a value of
integer type and the values of integer type all have that type (the type of
the scratch cell), the function returns exactly what it returns for the
catalog without the values that are not of integer type.  In a catalog built
by `BuildArrayInfo` from well-formed globals every value of an eligible array
with a unique name has the array's element type, so there no value differs
in type from the scratch cell. -/
theorem buildSwitchStmts_passes_over_non_integer_values (info : ArrayInfo) (M : Module)
    (pairs : List (InstId × InstId))
    (htyped : ∀ e ∈ info, ∀ first, e.2.head? = some first →
      first.1.ty.isIntegerTy = true ∧
        ∀ x ∈ e.2, x.1.ty.isIntegerTy = true → x.1.ty = first.1.ty) :
    BuildSwitchStmts info M pairs = BuildSwitchStmts info.integerEntries M pairs ∧
    (∀ (addr : Value → Nat) (gvl : List GlobalVariable) (A : GlobalVariable) (init : Constant),
      (∀ g ∈ gvl, g.WellFormed) → A.initializer = some init → A.isEligible = true →
      gvl.filter (fun g => decide (g.name = A.name)) = [A] →
      BuildArrayInfo addr [] gvl = some info →
      ∃ m, info.find A.name = some m ∧ ∀ e ∈ m, init.ty.getElementType = some e.1.ty) := by
  refine ⟨?_, ?_⟩
  · exact (BuildSwitchStmts_integerEntries info
      (fun e he first h => (htyped e he first h).1) pairs M).symm
  · intro addr gvl A init hwf hA he huniq hinfo
    obtain ⟨info0, m, hb, hf, htypes⟩ := BuildArrayInfo_entry_types addr gvl A init hwf hA he huniq
    have e0 : info0 = info := by rw [hb] at hinfo; exact Option.some.inj hinfo
    subst e0
    exact ⟨m, hf, htypes⟩

/-- Witness for the amended C14: the catalog with a floating-point value on
the split scenario module. -/
theorem buildSwitchStmts_passes_over_non_integer_values_witness :
    BuildSwitchStmts mixedInfo scenarioSplitModule [(10, 11)] =
        BuildSwitchStmts mixedInfo.integerEntries scenarioSplitModule [(10, 11)] ∧
    (∀ (addr : Value → Nat) (gvl : List GlobalVariable) (A : GlobalVariable) (init : Constant),
      (∀ g ∈ gvl, g.WellFormed) → A.initializer = some init → A.isEligible = true →
      gvl.filter (fun g => decide (g.name = A.name)) = [A] →
      BuildArrayInfo addr [] gvl = some mixedInfo →
      ∃ m, mixedInfo.find A.name = some m ∧ ∀ e ∈ m, init.ty.getElementType = some e.1.ty) :=
  buildSwitchStmts_passes_over_non_integer_values mixedInfo scenarioSplitModule [(10, 11)]
    (by
      intro e he first h
      simp only [mixedInfo, List.mem_singleton] at he
      subst he
      simp only [List.head?_cons, Option.some.injEq] at h
      subst h
      exact ⟨by decide, by decide⟩)

/-! ## A site without a following block -/

/-- The statement-by-statement reading of a round returns the module that
`switchOnePair` returns. -/
theorem switchOnePair_eq_result (info : ArrayInfo) (M : Module) (gepId loadId : InstId) :
    switchOnePair info M gepId loadId = (switchOnePairTrace info M gepId loadId).result := by
  unfold switchOnePair switchOnePairTrace
  cases locateInFunctions gepId M.functions 0 with
  | none => rfl
  | some r =>
    obtain ⟨fi, bi, gepInst⟩ := r
    simp only
    cases gepInst.kind with
    | gep ptr indices =>
      simp only
      cases info.find ptr.getName with
      | none => rfl
      | some sub =>
        simp only
        cases M.functions[fi]? with
        | none => rfl
        | some F =>
          simp only
          cases F.blocks[bi]? with
          | none => rfl
          | some B =>
            cases F.blocks[bi + 1]? with
            | none => cases sub.head? <;> rfl
            | some D =>
              cases sub.head? with
              | none => rfl
              | some first =>
                cases gepOperand ptr indices 2 with
                | none => rfl
                | some idxOp =>
                  simp only
                  cases valueLoop (Operand.reg M.nextId "holder" Ty.pointer) D.id idxOp.getType sub
                      (M.nextId + 2) with
                  | none => rfl
                  | some r =>
                    obtain ⟨cs, blocks, n1⟩ := r
                    simp only
                    generalize locateInFunctions loadId _ 0 = r
                    rcases r with _ | ⟨_, _, ⟨_, _, k⟩⟩
                    · rfl
                    · cases k <;> rfl
    | _ => rfl


/-- C11 (as stated, refuted): given the pair (10, 11) on the scenario module
as it is before the splitter (the site sits in the only block, no block
follows), a round of `BuildSwitchStmts` detects nothing: it inserts the
scratch cell, erases the last instruction of the block (the `ret`) and comes
to the creation of the switch with `defBlock` never assigned.  No error is
among the ways a round ends. -/
theorem missing_default_block_is_not_detected :
    switchOnePairTrace scenarioInfo scenarioModule 10 11 =
      .uninitializedDefBlock
        ⟨[dataGlobal],
          [⟨"main",
            [⟨0,
              [⟨100, "holder", .alloca (.integer 32)⟩,
               ⟨10, "arrayidx", .gep (.global "data" .pointer) [.const (i32 0), symI]⟩,
               ⟨11, "x", .load (.reg 10 "arrayidx" .pointer) 4⟩]⟩]⟩],
          101⟩ := by
  decide

/-- C11 (amended): For every pair given to `BuildSwitchStmts` whose index
computation sits in the last block of its function's layout and whose base
is named in the catalog (with a non-empty entry), the materializer makes no
check for the missing default block and reports no error: it inserts the
scratch cell in front of the index computation, erases the last instruction
of the block, and then comes to create the switch from the variable
`defBlock`, which was never assigned; from there the run has no defined
behaviour. -/
theorem buildSwitchStmts_makes_no_default_block_check (info : ArrayInfo) (M : Module)
    (g l : InstId) (rest : List (InstId × InstId)) (fi bi : Nat) (gepInst : Instruction)
    (ptr : Operand) (indices : List Operand) (first : Value × List Nat) (sub : ValueMap)
    (F : Function)
    (hloc : locateInFunctions g M.functions 0 = some (fi, bi, gepInst))
    (hkind : gepInst.kind = .gep ptr indices)
    (hfind : info.find ptr.getName = some (first :: sub))
    (hF : M.functions[fi]? = some F)
    (hlast : F.blocks.length = bi + 1) :
    ∃ B, F.blocks[bi]? = some B ∧
      switchOnePairTrace info M g l =
        .uninitializedDefBlock
          ⟨M.globals,
            M.functions.set fi
              ⟨F.name,
                F.blocks.set bi
                  ⟨B.id, (insertBefore g ⟨M.nextId, "holder", .alloca first.1.ty⟩ B.insts).dropLast⟩⟩,
            M.nextId + 1⟩ ∧
      BuildSwitchStmts info M ((g, l) :: rest) = none := by
  have hlt : bi < F.blocks.length := by omega
  have hB : F.blocks[bi]? = some (F.blocks.get ⟨bi, hlt⟩) := by
    simp [List.getElem?_eq_getElem hlt]
  have hD : F.blocks[bi + 1]? = none := List.getElem?_eq_none (by omega)
  have htrace : switchOnePairTrace info M g l =
      .uninitializedDefBlock
        ⟨M.globals,
          M.functions.set fi
            ⟨F.name,
              F.blocks.set bi
                ⟨(F.blocks.get ⟨bi, hlt⟩).id,
                  (insertBefore g ⟨M.nextId, "holder", .alloca first.1.ty⟩
                    (F.blocks.get ⟨bi, hlt⟩).insts).dropLast⟩⟩,
          M.nextId + 1⟩ := by
    unfold switchOnePairTrace
    rw [hloc]
    simp only [hkind, hfind, hF, hB, hD, List.head?_cons]
  refine ⟨F.blocks.get ⟨bi, hlt⟩, hB, htrace, ?_⟩
  have hround : switchOnePair info M g l = none := by
    rw [switchOnePair_eq_result, htrace]; rfl
  simp only [BuildSwitchStmts, hround]

/-- Witness for the amended C11: the scenario module before the splitter. -/
theorem buildSwitchStmts_makes_no_default_block_check_witness :
    ∃ B, [(⟨0,
        [⟨10, "arrayidx", .gep (.global "data" .pointer) [.const (i32 0), symI]⟩,
         ⟨11, "x", .load (.reg 10 "arrayidx" .pointer) 4⟩,
         ⟨12, "", .ret (some (.reg 11 "x" (.integer 32)))⟩]⟩ : BasicBlock)][0]? = some B ∧
      switchOnePairTrace scenarioInfo scenarioModule 10 11 =
        .uninitializedDefBlock
          ⟨scenarioModule.globals,
            scenarioModule.functions.set 0
              ⟨"main",
                [(⟨0,
                  [⟨10, "arrayidx", .gep (.global "data" .pointer) [.const (i32 0), symI]⟩,
                   ⟨11, "x", .load (.reg 10 "arrayidx" .pointer) 4⟩,
                   ⟨12, "", .ret (some (.reg 11 "x" (.integer 32)))⟩]⟩ : BasicBlock)].set 0
                  ⟨B.id,
                    (insertBefore 10 ⟨scenarioModule.nextId, "holder", .alloca (i32 0).ty⟩
                      B.insts).dropLast⟩⟩,
            scenarioModule.nextId + 1⟩ ∧
      BuildSwitchStmts scenarioInfo scenarioModule [(10, 11)] = none :=
  buildSwitchStmts_makes_no_default_block_check scenarioInfo scenarioModule 10 11 [] 0 0
    ⟨10, "arrayidx", .gep (.global "data" .pointer) [.const (i32 0), symI]⟩
    (.global "data" .pointer) [.const (i32 0), symI] (i32 0, [0, 0])
    [(i32 2, [1]), (i32 4, [2]), (i32 6, [3]), (i32 8, [4])]
    ⟨"main",
      [⟨0,
        [⟨10, "arrayidx", .gep (.global "data" .pointer) [.const (i32 0), symI]⟩,
         ⟨11, "x", .load (.reg 10 "arrayidx" .pointer) 4⟩,
         ⟨12, "", .ret (some (.reg 11 "x" (.integer 32)))⟩]⟩]⟩
    (by decide) rfl (by decide) (by decide) (by decide)

/-! ## The structure of the switch -/

theorem indexLoop_mem (val : Value) (holder : Operand) (d : BlockId) (idxTy : Ty) :
    ∀ (idxs : List Nat) (n : Nat) (cs : List (Value × BlockId)) (blocks : List BasicBlock)
      (n1 : Nat), indexLoop val holder d idxTy idxs n = some (cs, blocks, n1) →
      n ≤ n1 ∧ ∀ k ∈ idxs, ∃ c j, constantIntGet idxTy k = some c ∧ (c, j) ∈ cs ∧
        caseBlock holder d j val ∈ blocks ∧ n ≤ j := by
  intro idxs
  induction idxs with
  | nil =>
    intro n cs blocks n1 h
    simp only [indexLoop, Option.some.injEq, Prod.mk.injEq] at h
    exact ⟨by omega, by simp⟩
  | cons k rest ih =>
    intro n cs blocks n1 h
    simp only [indexLoop] at h
    cases hc : constantIntGet idxTy k with
    | none => rw [hc] at h; simp at h
    | some c =>
      rw [hc] at h
      simp only at h
      cases hr : indexLoop val holder d idxTy rest (n + 3) with
      | none => rw [hr] at h; simp at h
      | some r =>
        obtain ⟨cs2, blocks2, n2⟩ := r
        rw [hr] at h
        simp only [Option.some.injEq, Prod.mk.injEq] at h
        obtain ⟨rfl, rfl, rfl⟩ := h
        obtain ⟨hle, hmem⟩ := ih (n + 3) cs2 blocks2 n2 hr
        refine ⟨by omega, ?_⟩
        intro k1 hk1
        rcases List.mem_cons.mp hk1 with rfl | hk1
        · exact ⟨c, n, hc, by simp, by simp [caseBlock], le_refl n⟩
        · obtain ⟨c1, j, h1, h2, h3, h4⟩ := hmem k1 hk1
          exact ⟨c1, j, h1, by simp [h2], by simp [h3], by omega⟩

theorem valueLoop_mem (holder : Operand) (d : BlockId) (idxTy : Ty) :
    ∀ (m : ValueMap) (n : Nat) (cs : List (Value × BlockId)) (blocks : List BasicBlock)
      (n1 : Nat), valueLoop holder d idxTy m n = some (cs, blocks, n1) →
      n ≤ n1 ∧ ∀ e ∈ m, e.1.ty.isIntegerTy = true → ∀ k ∈ e.2,
        ∃ c j, constantIntGet idxTy k = some c ∧ (c, j) ∈ cs ∧
          caseBlock holder d j e.1 ∈ blocks ∧ n ≤ j := by
  intro m
  induction m with
  | nil =>
    intro n cs blocks n1 h
    simp only [valueLoop, Option.some.injEq, Prod.mk.injEq] at h
    exact ⟨by omega, by simp⟩
  | cons e rest ih =>
    intro n cs blocks n1 h
    obtain ⟨v, idxs⟩ := e
    by_cases hv : v.ty.isIntegerTy = true
    · simp only [valueLoop, hv, if_true] at h
      cases hi : indexLoop v holder d idxTy idxs n with
      | none => rw [hi] at h; simp at h
      | some r =>
        obtain ⟨cs1, blocks1, n2⟩ := r
        rw [hi] at h
        simp only at h
        cases hr : valueLoop holder d idxTy rest n2 with
        | none => rw [hr] at h; simp at h
        | some r2 =>
          obtain ⟨cs2, blocks2, n3⟩ := r2
          rw [hr] at h
          simp only [Option.some.injEq, Prod.mk.injEq] at h
          obtain ⟨rfl, rfl, rfl⟩ := h
          obtain ⟨hle1, hmem1⟩ := indexLoop_mem v holder d idxTy idxs n cs1 blocks1 n2 hi
          obtain ⟨hle2, hmem2⟩ := ih n2 cs2 blocks2 n3 hr
          refine ⟨by omega, ?_⟩
          intro e he hty k hk
          rcases List.mem_cons.mp he with rfl | he
          · obtain ⟨c, j, h1, h2, h3, h4⟩ := hmem1 k hk
            exact ⟨c, j, h1, by simp [h2], by simp [h3], h4⟩
          · obtain ⟨c, j, h1, h2, h3, h4⟩ := hmem2 e he hty k hk
            exact ⟨c, j, h1, by simp [h2], by simp [h3], by omega⟩
    · simp only [valueLoop, hv] at h
      obtain ⟨hle, hmem⟩ := ih n cs blocks n1 h
      refine ⟨hle, ?_⟩
      intro e he hty k hk
      rcases List.mem_cons.mp he with rfl | he
      · exact absurd hty hv
      · exact hmem e he hty k hk

theorem switchOnePair_some (info : ArrayInfo) (M M1 : Module) (g l : InstId) (fi bi : Nat)
    (gepInst : Instruction) (ptr : Operand) (indices : List Operand) (sub : ValueMap)
    (hloc : locateInFunctions g M.functions 0 = some (fi, bi, gepInst))
    (hkind : gepInst.kind = .gep ptr indices)
    (hfind : info.find ptr.getName = some sub)
    (h : switchOnePair info M g l = some M1) :
    ∃ F B D first idxOp cs blocks n1 align,
      M.functions[fi]? = some F ∧ F.blocks[bi]? = some B ∧ F.blocks[bi + 1]? = some D ∧
      sub.head? = some first ∧ gepOperand ptr indices 2 = some idxOp ∧
      valueLoop (.reg M.nextId "holder" .pointer) D.id idxOp.getType sub (M.nextId + 2) =
        some (cs, blocks, n1) ∧
      M1 = ⟨M.globals,
        mapInstLists
          (replaceInstWithInst l ⟨n1, "optLoad", .load (.reg M.nextId "holder" .pointer) align⟩
            (.reg n1 "optLoad" first.1.ty))
          (M.functions.set fi
            ⟨F.name,
              F.blocks.take bi ++
                [⟨B.id,
                  (insertBefore g ⟨M.nextId, "holder", .alloca first.1.ty⟩ B.insts).dropLast ++
                    [⟨M.nextId + 1, "", .switch idxOp D.id cs⟩]⟩] ++
                blocks ++ F.blocks.drop (bi + 1)⟩),
        n1 + 1⟩ := by
  unfold switchOnePair at h
  rw [hloc] at h
  simp only [hkind, hfind] at h
  cases hF : M.functions[fi]? with
  | none => rw [hF] at h; simp at h
  | some F =>
    rw [hF] at h
    simp only at h
    cases hB : F.blocks[bi]? with
    | none => rw [hB] at h; simp at h
    | some B =>
      cases hD : F.blocks[bi + 1]? with
      | none => rw [hB, hD] at h; simp at h
      | some D =>
        rw [hB, hD] at h
        simp only at h
        cases hh : sub.head? with
        | none => rw [hh] at h; simp at h
        | some first =>
          cases hop : gepOperand ptr indices 2 with
          | none => rw [hh, hop] at h; simp at h
          | some idxOp =>
            rw [hh, hop] at h
            simp only at h
            cases hv : valueLoop (Operand.reg M.nextId "holder" Ty.pointer) D.id idxOp.getType sub
                (M.nextId + 2) with
            | none => rw [hv] at h; simp at h
            | some r =>
              obtain ⟨cs, blocks, n1⟩ := r
              rw [hv] at h
              simp only at h
              split at h
              · rename_i align _
                refine ⟨F, B, D, first, idxOp, cs, blocks, n1, align, ?_, ?_, ?_, ?_, ?_, ?_,
                  (Option.some.inj h).symm⟩ <;> first | rfl | assumption
              · simp at h


theorem locateInBlocks_mem (t : InstId) :
    ∀ (bs : List BasicBlock) (k bi : Nat) (inst : Instruction),
      locateInBlocks t bs k = some (bi, inst) →
      ∃ B, k ≤ bi ∧ bs[bi - k]? = some B ∧ inst ∈ B.insts ∧ inst.id = t := by
  intro bs
  induction bs with
  | nil => intro k bi inst h; simp [locateInBlocks] at h
  | cons b rest ih =>
    intro k bi inst h
    simp only [locateInBlocks] at h
    cases hf : b.insts.find? (fun i => decide (i.id = t)) with
    | some x =>
      rw [hf] at h
      simp only [Option.some.injEq, Prod.mk.injEq] at h
      obtain ⟨rfl, rfl⟩ := h
      refine ⟨b, le_refl k, by simp, List.mem_of_find?_eq_some hf, ?_⟩
      simpa using List.find?_some hf
    | none =>
      rw [hf] at h
      obtain ⟨B, hle, hB, hmem, hid⟩ := ih (k + 1) bi inst h
      refine ⟨B, by omega, ?_, hmem, hid⟩
      have : bi - k = (bi - (k + 1)) + 1 := by omega
      rw [this, List.getElem?_cons_succ]
      exact hB

theorem locateInFunctions_mem (t : InstId) :
    ∀ (fs : List Function) (k fi bi : Nat) (inst : Instruction),
      locateInFunctions t fs k = some (fi, bi, inst) →
      ∃ F B, k ≤ fi ∧ fs[fi - k]? = some F ∧ F.blocks[bi]? = some B ∧ inst ∈ B.insts ∧
        inst.id = t := by
  intro fs
  induction fs with
  | nil => intro k fi bi inst h; simp [locateInFunctions] at h
  | cons f rest ih =>
    intro k fi bi inst h
    simp only [locateInFunctions] at h
    cases hf : locateInBlocks t f.blocks 0 with
    | some r =>
      obtain ⟨b0, i0⟩ := r
      rw [hf] at h
      simp only [Option.some.injEq, Prod.mk.injEq] at h
      obtain ⟨rfl, rfl, rfl⟩ := h
      obtain ⟨B, _, hB, hmem, hid⟩ := locateInBlocks_mem t f.blocks 0 b0 i0 hf
      exact ⟨f, B, le_refl k, by simp, by simpa using hB, hmem, hid⟩
    | none =>
      rw [hf] at h
      obtain ⟨F, B, hle, hF, hB, hmem, hid⟩ := ih (k + 1) fi bi inst h
      refine ⟨F, B, by omega, ?_, hB, hmem, hid⟩
      have : fi - k = (fi - (k + 1)) + 1 := by omega
      rw [this, List.getElem?_cons_succ]
      exact hF

theorem insertBefore_mem_dropLast (g : InstId) (x : Instruction) :
    ∀ (l : List Instruction), (∃ i ∈ l, i.id = g) → x ∈ (insertBefore g x l).dropLast := by
  intro l
  induction l with
  | nil => rintro ⟨i, hi, _⟩; simp at hi
  | cons i rest ih =>
    rintro ⟨i1, hi1, hid⟩
    by_cases hg : i.id = g
    · simp [insertBefore, hg]
    · have hrest : ∃ i ∈ rest, i.id = g := by
        rcases List.mem_cons.mp hi1 with rfl | h
        · exact absurd hid hg
        · exact ⟨i1, h, hid⟩
      have hx := ih hrest
      have hne : insertBefore g x rest ≠ [] := by
        intro hnil
        rw [hnil] at hx
        simp at hx
      simp only [insertBefore, hg, if_false]
      rw [List.dropLast_cons_of_ne_nil hne]
      exact List.mem_cons_of_mem _ hx

theorem caseBlock_replace (h : Nat) (hname : String) (hty : Ty) (d : BlockId) (j : Nat)
    (v : Value) (old : Nat) (newInst : Instruction) (newRef : Operand) (hne : h ≠ old)
    (hlt : old < j) :
    (⟨(caseBlock (.reg h hname hty) d j v).id,
        replaceInstWithInst old newInst newRef (caseBlock (.reg h hname hty) d j v).insts⟩ :
      BasicBlock) = caseBlock (.reg h hname hty) d j v := by
  have h1 : ¬ j + 2 = old := by omega
  have h2 : ¬ j + 1 = old := by omega
  simp [caseBlock, replaceInstWithInst, h1, h2, InstKind.subst, Operand.subst, hne]

theorem getElem?_take_append_cons {α : Type} (l rest : List α) (x : α) (i : Nat)
    (h : i ≤ l.length) : (l.take i ++ x :: rest)[i]? = some x := by
  have hlen : (l.take i).length = i := List.length_take_of_le h
  rw [List.getElem?_append_right (by omega), hlen, Nat.sub_self]
  exact List.getElem?_cons_zero

/-! ## A round of the materializer returns -/

theorem locateInBlocks_find (t : InstId) :
    ∀ (bs : List BasicBlock) (k : Nat),
      (locateInBlocks t bs k).map (fun r => r.2) =
        (bs.flatMap fun b => b.insts).find? (fun i => decide (i.id = t)) := by
  intro bs
  induction bs with
  | nil => intro k; rfl
  | cons b rest ih =>
    intro k
    simp only [locateInBlocks, List.flatMap_cons, List.find?_append]
    cases hf : b.insts.find? (fun i => decide (i.id = t)) with
    | some x => simp
    | none => simp [ih (k + 1)]

theorem locateInFunctions_find (t : InstId) :
    ∀ (fs : List Function) (k : Nat),
      (locateInFunctions t fs k).map (fun r => r.2.2) =
        (fs.flatMap Function.insts).find? (fun i => decide (i.id = t)) := by
  intro fs
  induction fs with
  | nil => intro k; rfl
  | cons f rest ih =>
    intro k
    have hb := locateInBlocks_find t f.blocks 0
    simp only [locateInFunctions, List.flatMap_cons, List.find?_append, Function.insts]
    cases hf : locateInBlocks t f.blocks 0 with
    | some r =>
      obtain ⟨b0, i0⟩ := r
      rw [hf] at hb
      simp only [Option.map_some'] at hb
      simp [← hb]
    | none =>
      rw [hf] at hb
      simp only [Option.map_none'] at hb
      rw [← hb]
      simpa [Function.insts] using ih (k + 1)

theorem find_dropLast {α : Type} (p : α → Bool) (l : List α)
    (h : ∀ x, l.getLast? = some x → p x = false) : l.dropLast.find? p = l.find? p := by
  by_cases hl : l = []
  · subst hl; rfl
  · have hsplit := List.dropLast_concat_getLast hl
    have hlast : p (l.getLast hl) = false := h _ (List.getLast?_eq_getLast l hl)
    conv_rhs => rw [← hsplit]
    simp [List.find?_append, hlast, Option.or_none]

theorem find_insertBefore_dropLast (g t : InstId) (x : Instruction) (hx : x.id ≠ t) :
    ∀ (l : List Instruction), (∃ i ∈ l, i.id = g) →
      (∀ y, l.getLast? = some y → y.id ≠ t) →
      ((insertBefore g x l).dropLast).find? (fun i => decide (i.id = t)) =
        l.find? (fun i => decide (i.id = t)) := by
  intro l
  induction l with
  | nil => rintro ⟨i, hi, _⟩; simp at hi
  | cons i rest ih =>
    rintro ⟨i1, hi1, hid⟩ hlast
    by_cases hg : i.id = g
    · have hd : (insertBefore g x (i :: rest)).dropLast = x :: (i :: rest).dropLast := by
        simp [insertBefore, hg]
      rw [hd, List.find?_cons]
      simp only [hx, decide_False]
      exact find_dropLast _ _ (fun y hy => by simpa using hlast y hy)
    · have hrest : ∃ i ∈ rest, i.id = g := by
        rcases List.mem_cons.mp hi1 with rfl | h
        · exact absurd hid hg
        · exact ⟨i1, h, hid⟩
      have hne : insertBefore g x rest ≠ [] := by
        intro hnil
        have := insertBefore_mem_dropLast g x rest hrest
        rw [hnil] at this
        simp at this
      have hrne : rest ≠ [] := by
        obtain ⟨i2, hi2, _⟩ := hrest
        exact List.ne_nil_of_mem hi2
      have hlast1 : ∀ y, rest.getLast? = some y → y.id ≠ t := by
        intro y hy
        refine hlast y ?_
        cases rest with
        | nil => exact absurd rfl hrne
        | cons r rs => rw [List.getLast?_cons_cons]; exact hy
      simp only [insertBefore, hg, if_false]
      rw [List.dropLast_cons_of_ne_nil hne, List.find?_cons, List.find?_cons, ih hrest hlast1]

theorem caseBlocks_insts_fresh (holder : Operand) (d : BlockId) :
    ∀ (pairs : List (Value × Nat)) (n : Nat),
      ∀ i ∈ (caseBlocks holder d n pairs).flatMap (fun b => b.insts), n < i.id := by
  intro pairs
  induction pairs with
  | nil => intro n i hi; simp [caseBlocks] at hi
  | cons p rest ih =>
    intro n i hi
    obtain ⟨v, k⟩ := p
    simp only [caseBlocks, caseBlock, List.flatMap_cons, List.mem_append, List.mem_cons,
      List.mem_singleton, List.not_mem_nil, or_false] at hi
    rcases hi with (rfl | rfl) | hi
    · show n < n + 2
      omega
    · show n < n + 1
      omega
    · have := ih (n + 3) i hi
      omega

theorem eq_take_cons_drop {α : Type} (l : List α) (i : Nat) (x : α) (h : l[i]? = some x) :
    l = l.take i ++ x :: l.drop (i + 1) := by
  obtain ⟨hlt, hx⟩ := List.getElem?_eq_some.mp h
  conv_lhs => rw [← List.take_append_drop i l]
  rw [List.drop_eq_getElem_cons hlt]
  simp [← hx]

theorem find_after_round (P S : List Function) (name : String) (Q R blocks : List BasicBlock)
    (B : BasicBlock) (E : List Instruction) (si : Instruction) (t : InstId)
    (hE : E.find? (fun i => decide (i.id = t)) = B.insts.find? (fun i => decide (i.id = t)))
    (hsi : si.id ≠ t)
    (hblocks : ∀ i ∈ blocks.flatMap (fun b => b.insts), i.id ≠ t) :
    ((P ++ ⟨name, Q ++ [⟨B.id, E ++ [si]⟩] ++ blocks ++ R⟩ :: S).flatMap Function.insts).find?
        (fun i => decide (i.id = t)) =
      ((P ++ ⟨name, Q ++ B :: R⟩ :: S).flatMap Function.insts).find?
        (fun i => decide (i.id = t)) := by
  have hnone : (blocks.flatMap fun b => b.insts).find? (fun i => decide (i.id = t)) = none := by
    rw [List.find?_eq_none]
    intro x hx
    simpa using hblocks x hx
  simp only [List.flatMap_append, List.flatMap_cons, List.flatMap_nil, List.find?_append,
    Function.insts, List.append_nil, hE, hnone, List.find?_singleton, hsi, decide_False,
    Option.or_none, Option.none_or, Bool.false_eq_true, if_false, Option.or_assoc]

theorem switchOnePair_returns (info : ArrayInfo) (M : Module) (g l : Nat) (fi bi : Nat)
    (gepInst : Instruction) (ptr : Operand) (indices : List Operand) (sub : ValueMap)
    (first : Value × List Nat) (F : Function) (B D : BasicBlock) (idxOp : Operand) (bits : Nat)
    (fj bj : Nat) (li : Instruction) (p : Operand) (a : Nat)
    (hloc : locateInFunctions g M.functions 0 = some (fi, bi, gepInst))
    (hkind : gepInst.kind = .gep ptr indices)
    (hfind : info.find ptr.getName = some sub) (hfirst : sub.head? = some first)
    (hF : M.functions[fi]? = some F) (hB : F.blocks[bi]? = some B)
    (hD : F.blocks[bi + 1]? = some D)
    (hop : gepOperand ptr indices 2 = some idxOp) (hty : idxOp.getType = .integer bits)
    (hl : l < M.nextId)
    (hload : locateInFunctions l M.functions 0 = some (fj, bj, li))
    (hlk : li.kind = .load p a)
    (hlast : ∀ x, B.insts.getLast? = some x → x.id ≠ l) :
    ∃ M1, switchOnePair info M g l = some M1 := by
  obtain ⟨F0, B0, _, hF0, hB0, hgmem, hgid⟩ :=
    locateInFunctions_mem g M.functions 0 fi bi gepInst hloc
  have eF : F0 = F := by
    rw [Nat.sub_zero, hF] at hF0; exact (Option.some.inj hF0).symm
  subst eF
  have eB : B0 = B := by rw [hB] at hB0; exact (Option.some.inj hB0).symm
  subst eB
  have hfi : fi < M.functions.length := by
    rcases List.getElem?_eq_some.mp hF with ⟨h, _⟩; exact h
  have hv := valueLoop_eq (.reg M.nextId "holder" .pointer) D.id bits sub.integerEntries
    (M.nextId + 2) (fun e he => (List.mem_filter.mp he).2)
  rw [← valueLoop_integerEntries] at hv
  have hfs := eq_take_cons_drop M.functions fi F0 hF
  have hbs := eq_take_cons_drop F0.blocks bi B0 hB
  have hFeq : F0 = ⟨F0.name, F0.blocks.take bi ++ B0 :: F0.blocks.drop (bi + 1)⟩ := by
    cases F0 with
    | mk nm bl => simp only [Function.mk.injEq, true_and]; exact hbs
  have horig : (M.functions.flatMap Function.insts).find? (fun i => decide (i.id = l)) =
      some li := by
    rw [← locateInFunctions_find l M.functions 0, hload]
    rfl
  rw [hfs, hFeq] at horig
  have hne1 : ¬ M.nextId = l := by omega
  have hne2 : ¬ M.nextId + 1 = l := by omega
  have hE := find_insertBefore_dropLast g l ⟨M.nextId, "holder", .alloca first.1.ty⟩ hne1
    B0.insts ⟨gepInst, hgmem, hgid⟩ hlast
  have hnew := find_after_round (M.functions.take fi) (M.functions.drop (fi + 1)) F0.name
    (F0.blocks.take bi) (F0.blocks.drop (bi + 1))
    (caseBlocks (.reg M.nextId "holder" .pointer) D.id (M.nextId + 2) sub.integerEntries.pairs)
    B0 _ ⟨M.nextId + 1, "", .switch idxOp D.id
      (caseList bits (M.nextId + 2) sub.integerEntries.pairs)⟩ l hE hne2
    (fun i hi => by
      have hfresh := caseBlocks_insts_fresh _ _ _ _ i hi
      intro h
      rw [h] at hfresh
      omega)
  rw [horig] at hnew
  have hlocate : ∃ x y, locateInFunctions l
      (M.functions.set fi
        ⟨F0.name,
          F0.blocks.take bi ++
            [⟨B0.id,
              (insertBefore g ⟨M.nextId, "holder", .alloca first.1.ty⟩ B0.insts).dropLast ++
                [⟨M.nextId + 1, "", .switch idxOp D.id
                  (caseList bits (M.nextId + 2) sub.integerEntries.pairs)⟩]⟩] ++
            caseBlocks (.reg M.nextId "holder" .pointer) D.id (M.nextId + 2)
              sub.integerEntries.pairs ++
            F0.blocks.drop (bi + 1)⟩) 0 = some (x, y, li) := by
    have hmap := locateInFunctions_find l
      (M.functions.set fi
        ⟨F0.name,
          F0.blocks.take bi ++
            [⟨B0.id,
              (insertBefore g ⟨M.nextId, "holder", .alloca first.1.ty⟩ B0.insts).dropLast ++
                [⟨M.nextId + 1, "", .switch idxOp D.id
                  (caseList bits (M.nextId + 2) sub.integerEntries.pairs)⟩]⟩] ++
            caseBlocks (.reg M.nextId "holder" .pointer) D.id (M.nextId + 2)
              sub.integerEntries.pairs ++
            F0.blocks.drop (bi + 1)⟩) 0
    rw [List.set_eq_take_append_cons_drop, if_pos hfi, hnew] at hmap
    rw [List.set_eq_take_append_cons_drop, if_pos hfi]
    cases hr : locateInFunctions l _ 0 with
    | none => rw [hr] at hmap; simp at hmap
    | some r =>
      obtain ⟨x, y, z⟩ := r
      rw [hr] at hmap
      simp only [Option.map_some', Option.some.injEq] at hmap
      subst hmap
      exact ⟨x, y, rfl⟩
  obtain ⟨x, y, hlocate⟩ := hlocate
  obtain ⟨lid, lname, lkind⟩ := li
  simp only at hlk
  subst hlk
  unfold switchOnePair
  rw [hloc]
  simp only [hkind, hfind, hF, hB, hD, hfirst, hop, hty, hv, hlocate]
  exact ⟨_, rfl⟩


/-- C16: For every pair that a round of `BuildSwitchStmts` materializes on
an eligible, well-formed array `A` with a unique name (catalog built by
`BuildArrayInfo`), the block of the site ends, after the round, in a switch
on operand 2 of the index computation (its index operand) whose default
target is the block that followed the site's block in layout; the scratch
cell `holder` is allocated in that block; and for every index `k` with
element `v` of `A` the switch has a case labelled with the constant `k` of
the index type whose target is a new block holding exactly the store of `v`
into the scratch cell followed by the branch to that default block.  The
round does materialize the pair whenever a block follows the site's block,
the index operand has an integer type, and the second component of the pair
is a load of the module that is not the last instruction of the site's
block. -/
theorem buildSwitchStmts_switch_structure (addr : Value → Nat) (gvl : List GlobalVariable)
    (A : GlobalVariable) (init : Constant) (info : ArrayInfo) (M : Module) (g l : Nat)
    (fi bi : Nat) (gepInst : Instruction) (ptr : Operand) (indices : List Operand)
    (hwf : ∀ g ∈ gvl, g.WellFormed) (hA : A.initializer = some init)
    (he : A.isEligible = true)
    (huniq : gvl.filter (fun g => decide (g.name = A.name)) = [A])
    (hinfo : BuildArrayInfo addr [] gvl = some info)
    (hloc : locateInFunctions g M.functions 0 = some (fi, bi, gepInst))
    (hkind : gepInst.kind = .gep ptr indices)
    (hname : ptr.getName = A.name)
    (hidx : ∀ n t, gepOperand ptr indices 2 ≠ some (.reg l n t))
    (hl : l < M.nextId) :
    (∀ M1, switchOnePair info M g l = some M1 →
      SwitchStructure init M M1 fi bi ptr indices) ∧
    (∀ F B D idxOp bits fj bj li p a,
      M.functions[fi]? = some F → F.blocks[bi]? = some B → F.blocks[bi + 1]? = some D →
      gepOperand ptr indices 2 = some idxOp → idxOp.getType = .integer bits →
      locateInFunctions l M.functions 0 = some (fj, bj, li) → li.kind = .load p a →
      (∀ x, B.insts.getLast? = some x → x.id ≠ l) →
      ∃ M1, switchOnePair info M g l = some M1) := by
  obtain ⟨info0, m, op0, hb, hf, _, hidxs⟩ :=
    BuildArrayInfo_unique_entry addr gvl A init hwf hA he huniq
  have e0 : info0 = info := by rw [hb] at hinfo; exact Option.some.inj hinfo
  subst e0
  have hfind : info0.find ptr.getName = some m := by rw [hname]; exact hf
  refine ⟨?_, ?_⟩
  · intro M1 hsome
    unfold SwitchStructure
    obtain ⟨F, B, D, first, idxOp, cs, blocks, n1, align, hF, hB, hD, _, hop, hv, hM1⟩ :=
        switchOnePair_some info0 M M1 g l fi bi gepInst ptr indices m hloc hkind hfind hsome
    obtain ⟨F0, B0, _, hF0, hB0, hgmem, hgid⟩ := locateInFunctions_mem g M.functions 0 fi bi gepInst hloc
    have eF : F0 = F := by
      rw [Nat.sub_zero, hF] at hF0; exact (Option.some.inj hF0).symm
    subst eF
    have eB : B0 = B := by rw [hB] at hB0; exact (Option.some.inj hB0).symm
    subst eB
    have hfi : fi < M.functions.length := by
      rcases List.getElem?_eq_some.mp hF with ⟨h, _⟩; exact h
    have hbi : bi < F0.blocks.length := by
      rcases List.getElem?_eq_some.mp hB with ⟨h, _⟩; exact h
    have hsubst : Operand.subst l (.reg n1 "optLoad" first.1.ty) idxOp = idxOp := by
      cases idxOp with
      | reg id n t =>
        by_cases hid : id = l
        · subst hid; exact absurd hop (hidx n t)
        · simp [Operand.subst, hid]
      | const c => rfl
      | global n t => rfl
    have hne1 : ¬ M.nextId = l := by omega
    have hne2 : ¬ M.nextId + 1 = l := by omega
    subst hM1
    refine ⟨F0, D, idxOp, cs,
      ⟨F0.name,
        (F0.blocks.take bi ++
          [(⟨B0.id,
            (insertBefore g ⟨M.nextId, "holder", .alloca first.1.ty⟩ B0.insts).dropLast ++
              [⟨M.nextId + 1, "", .switch idxOp D.id cs⟩]⟩ : BasicBlock)] ++
          blocks ++ F0.blocks.drop (bi + 1)).map
          (fun b : BasicBlock => (⟨b.id,
            replaceInstWithInst l
              ⟨n1, "optLoad", .load (.reg M.nextId "holder" .pointer) align⟩
              (.reg n1 "optLoad" first.1.ty) b.insts⟩ : BasicBlock))⟩,
      ⟨B0.id,
        replaceInstWithInst l
          ⟨n1, "optLoad", .load (.reg M.nextId "holder" .pointer) align⟩
          (.reg n1 "optLoad" first.1.ty)
          ((insertBefore g ⟨M.nextId, "holder", .alloca first.1.ty⟩ B0.insts).dropLast ++
            [⟨M.nextId + 1, "", .switch idxOp D.id cs⟩])⟩,
      first.1.ty, hF, hD, hop, ?_, ?_, ?_, ?_, ?_⟩
    · simp only [mapInstLists, List.getElem?_map, List.getElem?_set_self hfi, Option.map_some']
    · simp only [List.append_assoc, List.singleton_append, List.cons_append, List.getElem?_map,
        getElem?_take_append_cons _ _ _ _ (Nat.le_of_lt hbi), Option.map_some']
    · simp only [replaceInstWithInst, List.map_append, List.mem_append, List.mem_map]
      refine Or.inl ⟨⟨M.nextId, "holder", .alloca first.1.ty⟩,
        insertBefore_mem_dropLast g _ B0.insts ⟨gepInst, hgmem, hgid⟩, ?_⟩
      simp [hne1, InstKind.subst]
    · simp only [replaceInstWithInst, List.map_append, List.map_cons, List.map_nil,
        List.getLast?_concat, hne2, if_false, InstKind.subst, hsubst]
    · intro k v hkv
      have hkm : k ∈ m.indices v := by
        rw [hidxs v]
        refine List.mem_append_right _ ?_
        simp only [Constant.positionsOf, List.mem_filter, List.mem_range, decide_eq_true_eq]
        refine ⟨?_, hkv⟩
        rcases List.getElem?_eq_some.mp hkv with ⟨h, _⟩
        exact h
      have hvty : v.ty.isIntegerTy = true := by
        have hvmem : v ∈ init.operands := List.getElem?_mem hkv
        have he1 : init.ty.isArrayTy = true ∧ init.isAggregateZero = false ∧
            (match init.ty.getElementType with
             | some e => e.isIntegerTy
             | none => false) = true := by
          simpa [GlobalVariable.isEligible, hA, and_assoc] using he
        have hwfA : A.WellFormed := by
          refine hwf A ?_
          have : A ∈ gvl.filter (fun g => decide (g.name = A.name)) := by rw [huniq]; simp
          exact (List.mem_filter.mp this).1
        have hwfi : init.WellFormed := by
          simpa [GlobalVariable.WellFormed, hA] using hwfA
        have hel := (hwfi he1.1 he1.2.1).2.2 v hvmem
        have h3 := he1.2.2
        rw [hel] at h3
        exact h3
      obtain ⟨x, hx⟩ : ∃ x, m.find v = some x := by
        cases hfv : m.find v with
        | none => simp [ValueMap.indices, hfv] at hkm
        | some x => exact ⟨x, rfl⟩
      have hkx : k ∈ x := by simpa [ValueMap.indices, hx] using hkm
      have hmem := ValueMap.mem_of_find m v x hx
      obtain ⟨_, hcases⟩ := valueLoop_mem _ _ _ m _ cs blocks n1 hv
      obtain ⟨c, j, hc, hcj, hblock, hj⟩ := hcases (v, x) hmem hvty k hkx
      refine ⟨c, j, hc, hcj, by omega, ?_⟩
      simp only [List.mem_map]
      refine ⟨caseBlock (.reg M.nextId "holder" .pointer) D.id j v, ?_, ?_⟩
      · simp [hblock]
      · exact caseBlock_replace M.nextId "holder" .pointer D.id j v l _ _ hne1 (by omega)
  · intro F B D idxOp bits fj bj li p a hF hB hD hop hty hload hlk hlast
    have hhead : ∃ first, m.head? = some first := by
      cases m with
      | nil =>
        have h0 := hidxs op0
        simp [ValueMap.indices, ValueMap.find] at h0
      | cons e rest => exact ⟨e, rfl⟩
    obtain ⟨first, hfirst⟩ := hhead
    exact switchOnePair_returns info0 M g l fi bi gepInst ptr indices m first F B D idxOp bits
      fj bj li p a hloc hkind hfind hfirst hF hB hD hop hty hl hload hlk hlast

/-- Witness for C16: the round for the pair (10, 11) of the scenario, which
returns the module with the blocks `scenarioSwitchBlocks`. -/
theorem buildSwitchStmts_switch_structure_witness :
    SwitchStructure ⟨.array (.integer 32) 5, false, [i32 0, i32 2, i32 4, i32 6, i32 8]⟩
      scenarioSplitModule ⟨[dataGlobal], [⟨"main", scenarioSwitchBlocks⟩], 127⟩ 0 1
      (.global "data" .pointer) [.const (i32 0), symI] :=
  (buildSwitchStmts_switch_structure payloadAddr [dataGlobal] dataGlobal
    ⟨.array (.integer 32) 5, false, [i32 0, i32 2, i32 4, i32 6, i32 8]⟩ scenarioInfo
    scenarioSplitModule 10 11 0 1
    ⟨10, "arrayidx", .gep (.global "data" .pointer) [.const (i32 0), symI]⟩
    (.global "data" .pointer) [.const (i32 0), symI]
    (by decide) rfl (by decide) (by decide) (by decide) (by decide) rfl rfl
    (by intro n t h; simp [gepOperand, symI] at h) (by decide)).1
    ⟨[dataGlobal], [⟨"main", scenarioSwitchBlocks⟩], 127⟩ (by decide)

/-! ## Executing the original and the transformed function side by side -/

theorem lookup_cons_ne {β : Type} (a k : Nat) (v : β) (l : List (Nat × β)) (h : a ≠ k) :
    List.lookup a ((k, v) :: l) = List.lookup a l := by
  have hb : (a == k) = false := by simpa using h
  simp [List.lookup, hb]

theorem lookup_cons_self {β : Type} (k : Nat) (v : β) (l : List (Nat × β)) :
    List.lookup k ((k, v) :: l) = some v := by
  simp [List.lookup]

theorem runTo_alloca (G : List GlobalVariable) (B : List BasicBlock) (t fuel : Nat) (fr : Frame)
    (x : Instruction) (L : List Instruction) (ty : Ty) (h : x.kind = .alloca ty) :
    runTo G B t (fuel + 1) fr (x :: L) =
      if x.id = t then some (.stackCell x.id)
      else runTo G B t fuel ⟨(x.id, .stackCell x.id) :: fr.env, fr.cells⟩ L := by
  rw [runTo]; simp only [h] <;> rfl

theorem runTo_gep (G : List GlobalVariable) (B : List BasicBlock) (t fuel : Nat) (fr : Frame)
    (x : Instruction) (L : List Instruction) (ptr : Operand) (indices : List Operand)
    (h : x.kind = .gep ptr indices) :
    runTo G B t (fuel + 1) fr (x :: L) =
      match evalOperand fr ptr, indices.mapM (evalOperand fr) with
      | some (.elemPtr g 0), some [.int 0, .int k] =>
        if x.id = t then some (.elemPtr g k)
        else runTo G B t fuel ⟨(x.id, .elemPtr g k) :: fr.env, fr.cells⟩ L
      | _, _ => none := by
  rw [runTo]; simp only [h] <;> rfl

theorem runTo_load (G : List GlobalVariable) (B : List BasicBlock) (t fuel : Nat) (fr : Frame)
    (x : Instruction) (L : List Instruction) (ptr : Operand) (a : Nat)
    (h : x.kind = .load ptr a) :
    runTo G B t (fuel + 1) fr (x :: L) =
      match (evalOperand fr ptr).bind (readMem G fr) with
      | some v =>
        if x.id = t then some v
        else runTo G B t fuel ⟨(x.id, v) :: fr.env, fr.cells⟩ L
      | none => none := by
  rw [runTo]; simp only [h] <;> rfl

theorem runTo_store (G : List GlobalVariable) (B : List BasicBlock) (t fuel : Nat) (fr : Frame)
    (x : Instruction) (L : List Instruction) (val ptr : Operand)
    (h : x.kind = .store val ptr) :
    runTo G B t (fuel + 1) fr (x :: L) =
      match evalOperand fr val, evalOperand fr ptr with
      | some v, some (.stackCell c) => runTo G B t fuel ⟨fr.env, (c, v) :: fr.cells⟩ L
      | _, _ => none := by
  rw [runTo]; simp only [h] <;> rfl

theorem runTo_br (G : List GlobalVariable) (B : List BasicBlock) (t fuel : Nat) (fr : Frame)
    (x : Instruction) (L : List Instruction) (dest : BlockId) (h : x.kind = .br dest) :
    runTo G B t (fuel + 1) fr (x :: L) =
      match findBlock B dest with
      | some b => runTo G B t fuel fr b.insts
      | none => none := by
  rw [runTo]; simp only [h] <;> rfl

theorem runTo_switch (G : List GlobalVariable) (B : List BasicBlock) (t fuel : Nat) (fr : Frame)
    (x : Instruction) (L : List Instruction) (cond : Operand) (d : BlockId)
    (cs : List (Value × BlockId)) (h : x.kind = .switch cond d cs) :
    runTo G B t (fuel + 1) fr (x :: L) =
      match evalOperand fr cond with
      | some (.int v) =>
        match findBlock B (switchTarget cs d v) with
        | some b => runTo G B t fuel fr b.insts
        | none => none
      | _ => none := by
  rw [runTo]; simp only [h] <;> rfl

theorem runTo_ret (G : List GlobalVariable) (B : List BasicBlock) (t fuel : Nat) (fr : Frame)
    (x : Instruction) (L : List Instruction) (val : Option Operand) (h : x.kind = .ret val) :
    runTo G B t (fuel + 1) fr (x :: L) = none := by
  rw [runTo]; simp only [h] <;> rfl

theorem runTo_other (G : List GlobalVariable) (B : List BasicBlock) (t fuel : Nat) (fr : Frame)
    (x : Instruction) (L : List Instruction) (term : Bool) (ops : List Operand)
    (h : x.kind = .other term ops) :
    runTo G B t (fuel + 1) fr (x :: L) =
      if term then none else runTo G B t fuel fr L := by
  rw [runTo]; simp only [h] <;> rfl

theorem FrameRel.operand {G : List GlobalVariable} {name : String}
    {n0 gid lid hid newId : Nat} {fo ft : Frame}
    (R : FrameRel G name n0 gid lid hid newId fo ft) (nm : String) (ty : Ty)
    (hlid : lid < n0) (o : Operand) (v : RVal)
    (h : KleeArray.evalOperand fo o = some v) :
    KleeArray.evalOperand ft (Operand.subst lid (.reg newId nm ty) o) = some v := by
  cases o with
  | const c => exact h
  | global n t => exact h
  | reg id n t =>
    simp only [KleeArray.evalOperand] at h
    by_cases hid : id = lid
    · subst hid
      simp only [Operand.subst, if_true, KleeArray.evalOperand]
      rw [R.read]; exact h
    · simp only [Operand.subst, hid, if_false, KleeArray.evalOperand]
      have hlt : id < n0 := by
        by_contra hc
        rw [R.bound id (Nat.le_of_not_lt hc)] at h
        exact Option.noConfusion h
      rw [R.old id hlt hid]; exact h

theorem FrameRel.operand_cell {G : List GlobalVariable} {name : String}
    {n0 gid lid hid newId : Nat} {fo ft : Frame}
    (R : FrameRel G name n0 gid lid hid newId fo ft) (o : Operand) (c : Nat)
    (h : KleeArray.evalOperand fo o = some (.stackCell c)) : c < n0 := by
  cases o with
  | const x => simp [KleeArray.evalOperand] at h
  | global n t => simp [KleeArray.evalOperand] at h
  | reg id n t => exact R.envCells id c h

theorem FrameRel.mapM {G : List GlobalVariable} {name : String}
    {n0 gid lid hid newId : Nat} {fo ft : Frame}
    (R : FrameRel G name n0 gid lid hid newId fo ft) (nm : String) (ty : Ty)
    (hlid : lid < n0) :
    ∀ (os : List Operand) (vs : List RVal),
      os.mapM (KleeArray.evalOperand fo) = some vs →
      (os.map (Operand.subst lid (.reg newId nm ty))).mapM (KleeArray.evalOperand ft) =
        some vs := by
  intro os
  induction os with
  | nil => intro vs h; simpa using h
  | cons o rest ih =>
    intro vs h
    simp only [List.mapM_cons, Option.pure_def, Option.bind_eq_bind] at h
    cases ho : KleeArray.evalOperand fo o with
    | none => rw [ho] at h; exact Option.noConfusion h
    | some v =>
      rw [ho] at h
      simp only [Option.some_bind] at h
      cases hr : rest.mapM (KleeArray.evalOperand fo) with
      | none => rw [hr] at h; exact Option.noConfusion h
      | some vr =>
        rw [hr] at h
        simp only [Option.some_bind, Option.some.injEq] at h
        subst h
        simp only [List.map_cons, List.mapM_cons, Option.pure_def, Option.bind_eq_bind,
          R.operand nm ty hlid o v ho, ih vr hr, Option.some_bind]

theorem FrameRel.memory {G : List GlobalVariable} {name : String}
    {n0 gid lid hid newId : Nat} {fo ft : Frame}
    (R : FrameRel G name n0 gid lid hid newId fo ft) (o : Operand) (p v : RVal)
    (ho : KleeArray.evalOperand fo o = some p) (h : KleeArray.readMem G fo p = some v) :
    KleeArray.readMem G ft p = some v := by
  cases p with
  | int x => simp [KleeArray.readMem] at h
  | elemPtr g k => exact h
  | stackCell c =>
    simp only [KleeArray.readMem] at h ⊢
    rw [R.cells c (R.operand_cell o c ho)]; exact h

theorem FrameRel.memory_cell {G : List GlobalVariable} {name : String}
    {n0 gid lid hid newId : Nat} {fo ft : Frame}
    (R : FrameRel G name n0 gid lid hid newId fo ft) (p v : RVal)
    (h : KleeArray.readMem G fo p = some v) : ∀ c, v = .stackCell c → c < n0 := by
  intro c hc
  subst hc
  cases p with
  | int x => simp [KleeArray.readMem] at h
  | elemPtr g k =>
    simp only [KleeArray.readMem, readGlobal] at h
    split at h
    · split at h
      · simp only [Option.map_eq_some'] at h
        obtain ⟨a, _, ha⟩ := h
        exact RVal.noConfusion ha
      · exact Option.noConfusion h
    · exact Option.noConfusion h
  | stackCell k => exact R.memCells k c h

theorem FrameRel.bind_old {G : List GlobalVariable} {name : String}
    {n0 gid lid hid newId : Nat} {fo ft : Frame}
    (R : FrameRel G name n0 gid lid hid newId fo ft) (id : Nat) (v : RVal)
    (hid_ge : n0 ≤ hid) (hnew_ge : n0 ≤ newId)
    (hlt : id < n0) (hl : id ≠ lid) (hg : id ≠ gid) (hv : ∀ c, v = .stackCell c → c < n0) :
    FrameRel G name n0 gid lid hid newId ⟨(id, v) :: fo.env, fo.cells⟩
      ⟨(id, v) :: ft.env, ft.cells⟩ := by
  have h1 : hid ≠ id := by omega
  have h2 : newId ≠ id := by omega
  refine ⟨?_, ?_, R.cells, ?_, ?_, R.memCells, ?_⟩
  · intro j hj hjl
    by_cases e : j = id
    · subst e; simp [lookup_cons_self]
    · simp only [lookup_cons_ne j id v _ e]; exact R.old j hj hjl
  · show List.lookup newId ((id, v) :: ft.env) = List.lookup lid ((id, v) :: fo.env)
    rw [lookup_cons_ne newId id v _ h2, lookup_cons_ne lid id v _ (Ne.symm hl)]
    exact R.read
  · intro j hj
    show List.lookup j ((id, v) :: fo.env) = none
    rw [lookup_cons_ne j id v _ (by omega)]
    exact R.bound j hj
  · intro j c hjc
    by_cases e : j = id
    · subst e
      have hjc1 : List.lookup j ((j, v) :: fo.env) = some (.stackCell c) := hjc
      rw [lookup_cons_self] at hjc1
      exact hv c (Option.some.inj hjc1)
    · have hjc1 : List.lookup j ((id, v) :: fo.env) = some (.stackCell c) := hjc
      rw [lookup_cons_ne j id v _ e] at hjc1
      exact R.envCells j c hjc1
  · intro p hp
    have hp1 : List.lookup gid ((id, v) :: fo.env) = some p := hp
    rw [lookup_cons_ne gid id v _ (Ne.symm hg)] at hp1
    obtain ⟨k, hk, hh, hc⟩ := R.site p hp1
    refine ⟨k, hk, ?_, hc⟩
    show List.lookup hid ((id, v) :: ft.env) = some (.stackCell hid)
    rw [lookup_cons_ne hid id v _ h1]; exact hh

theorem FrameRel.bind_read {G : List GlobalVariable} {name : String}
    {n0 gid lid hid newId : Nat} {fo ft : Frame}
    (R : FrameRel G name n0 gid lid hid newId fo ft) (v : RVal)
    (hid_ge : n0 ≤ hid) (hnew_ge : n0 ≤ newId) (hne : hid ≠ newId)
    (hl : lid < n0) (hg : gid ≠ lid) (hv : ∀ c, v = .stackCell c → c < n0) :
    FrameRel G name n0 gid lid hid newId ⟨(lid, v) :: fo.env, fo.cells⟩
      ⟨(newId, v) :: ft.env, ft.cells⟩ := by
  refine ⟨?_, ?_, R.cells, ?_, ?_, R.memCells, ?_⟩
  · intro j hj hjl
    show List.lookup j ((newId, v) :: ft.env) = List.lookup j ((lid, v) :: fo.env)
    rw [lookup_cons_ne j newId v _ (by omega), lookup_cons_ne j lid v _ hjl]
    exact R.old j hj hjl
  · show List.lookup newId ((newId, v) :: ft.env) = List.lookup lid ((lid, v) :: fo.env)
    rw [lookup_cons_self, lookup_cons_self]
  · intro j hj
    show List.lookup j ((lid, v) :: fo.env) = none
    rw [lookup_cons_ne j lid v _ (by omega)]
    exact R.bound j hj
  · intro j c hjc
    by_cases e : j = lid
    · subst e
      have hjc1 : List.lookup j ((j, v) :: fo.env) = some (.stackCell c) := hjc
      rw [lookup_cons_self] at hjc1
      exact hv c (Option.some.inj hjc1)
    · have hjc1 : List.lookup j ((lid, v) :: fo.env) = some (.stackCell c) := hjc
      rw [lookup_cons_ne j lid v _ e] at hjc1
      exact R.envCells j c hjc1
  · intro p hp
    have hp1 : List.lookup gid ((lid, v) :: fo.env) = some p := hp
    rw [lookup_cons_ne gid lid v _ hg] at hp1
    obtain ⟨k, hk, hh, hc⟩ := R.site p hp1
    refine ⟨k, hk, ?_, hc⟩
    show List.lookup hid ((newId, v) :: ft.env) = some (.stackCell hid)
    rw [lookup_cons_ne hid newId v _ hne]; exact hh

theorem FrameRel.store {G : List GlobalVariable} {name : String}
    {n0 gid lid hid newId : Nat} {fo ft : Frame}
    (R : FrameRel G name n0 gid lid hid newId fo ft) (c : Nat) (v : RVal)
    (hid_ge : n0 ≤ hid) (hc : c < n0) (hv : ∀ c1, v = .stackCell c1 → c1 < n0) :
    FrameRel G name n0 gid lid hid newId ⟨fo.env, (c, v) :: fo.cells⟩
      ⟨ft.env, (c, v) :: ft.cells⟩ := by
  refine ⟨R.old, R.read, ?_, R.bound, R.envCells, ?_, ?_⟩
  · intro j hj
    show List.lookup j ((c, v) :: ft.cells) = List.lookup j ((c, v) :: fo.cells)
    by_cases e : j = c
    · subst e; rw [lookup_cons_self, lookup_cons_self]
    · rw [lookup_cons_ne j c v _ e, lookup_cons_ne j c v _ e]; exact R.cells j hj
  · intro j c1 hj
    have hj1 : List.lookup j ((c, v) :: fo.cells) = some (.stackCell c1) := hj
    by_cases e : j = c
    · subst e
      rw [lookup_cons_self] at hj1
      exact hv c1 (Option.some.inj hj1)
    · rw [lookup_cons_ne j c v _ e] at hj1
      exact R.memCells j c1 hj1
  · intro p hp
    obtain ⟨k, hk, hh, hcell⟩ := R.site p hp
    refine ⟨k, hk, hh, ?_⟩
    intro w hw
    show List.lookup hid ((c, v) :: ft.cells) = some w
    rw [lookup_cons_ne hid c v _ (by omega)]
    exact hcell w hw

theorem FrameRel.bind_site {G : List GlobalVariable} {name : String}
    {n0 gid lid hid newId : Nat} {fo ft : Frame}
    (R : FrameRel G name n0 gid lid hid newId fo ft) (k : Int) (cellsT : List (InstId × RVal))
    (hid_ge : n0 ≤ hid) (hnew_ge : n0 ≤ newId) (hne : hid ≠ newId)
    (hg : gid < n0) (hgl : gid ≠ lid)
    (hold : ∀ c, c < n0 → List.lookup c cellsT = List.lookup c ft.cells)
    (hcell : ∀ v, readGlobal G name k = some v → List.lookup hid cellsT = some v) :
    FrameRel G name n0 gid lid hid newId ⟨(gid, .elemPtr name k) :: fo.env, fo.cells⟩
      ⟨(gid, .elemPtr name k) :: (hid, .stackCell hid) :: ft.env, cellsT⟩ := by
  refine ⟨?_, ?_, ?_, ?_, ?_, R.memCells, ?_⟩
  · intro j hj hjl
    show List.lookup j ((gid, RVal.elemPtr name k) :: (hid, RVal.stackCell hid) :: ft.env) =
      List.lookup j ((gid, RVal.elemPtr name k) :: fo.env)
    by_cases e : j = gid
    · subst e; rw [lookup_cons_self, lookup_cons_self]
    · rw [lookup_cons_ne j gid _ _ e, lookup_cons_ne j gid _ _ e,
        lookup_cons_ne j hid _ _ (by omega)]
      exact R.old j hj hjl
  · show List.lookup newId ((gid, RVal.elemPtr name k) :: (hid, RVal.stackCell hid) :: ft.env) =
      List.lookup lid ((gid, RVal.elemPtr name k) :: fo.env)
    rw [lookup_cons_ne newId gid _ _ (by omega), lookup_cons_ne newId hid _ _ (Ne.symm hne),
      lookup_cons_ne lid gid _ _ (Ne.symm hgl)]
    exact R.read
  · intro c hc
    show List.lookup c cellsT = List.lookup c fo.cells
    rw [hold c hc]; exact R.cells c hc
  · intro j hj
    show List.lookup j ((gid, RVal.elemPtr name k) :: fo.env) = none
    rw [lookup_cons_ne j gid _ _ (by omega)]
    exact R.bound j hj
  · intro j c hjc
    have hjc1 : List.lookup j ((gid, RVal.elemPtr name k) :: fo.env) = some (.stackCell c) := hjc
    by_cases e : j = gid
    · subst e
      rw [lookup_cons_self] at hjc1
      exact RVal.noConfusion (Option.some.inj hjc1)
    · rw [lookup_cons_ne j gid _ _ e] at hjc1
      exact R.envCells j c hjc1
  · intro p hp
    have hp1 : List.lookup gid ((gid, RVal.elemPtr name k) :: fo.env) = some p := hp
    rw [lookup_cons_self] at hp1
    refine ⟨k, (Option.some.inj hp1).symm, ?_, hcell⟩
    show List.lookup hid ((gid, RVal.elemPtr name k) :: (hid, RVal.stackCell hid) :: ft.env) =
      some (.stackCell hid)
    rw [lookup_cons_ne hid gid _ _ (by omega), lookup_cons_self]

theorem cutAtSite_cons_ne (gid host brId : Nat) (f : Instruction → Instruction)
    (x : Instruction) (r : List Instruction) (h : x.id ≠ gid) :
    cutAtSite gid host brId f (x :: r) = f x :: cutAtSite gid host brId f r := by
  simp [cutAtSite, h]

theorem cutAtSite_cons_eq (gid host brId : Nat) (f : Instruction → Instruction)
    (x : Instruction) (r : List Instruction) (h : x.id = gid) :
    cutAtSite gid host brId f (x :: r) = [⟨brId, "", .br host⟩] := by
  simp [cutAtSite, h]

theorem redirect_of_ne (old : Nat) (newInst : Instruction) (newRef : Operand) (x : Instruction)
    (h : x.id ≠ old) :
    redirect old newInst newRef x = ⟨x.id, x.name, InstKind.subst old newRef x.kind⟩ := by
  simp [redirect, h]

theorem redirect_of_eq (old : Nat) (newInst : Instruction) (newRef : Operand) (x : Instruction)
    (h : x.id = old) : redirect old newInst newRef x = newInst := by
  simp [redirect, h]

theorem SiteData.target_old (D : SiteData) (hnew : D.n0 ≤ D.newId) (t y : Nat) (ht : t < D.n0)
    (hy : y < D.n0) (hyl : y ≠ D.lid) : y = D.target t ↔ y = t := by
  unfold SiteData.target
  by_cases h : t = D.lid
  · simp only [h, if_true]
    constructor
    · intro e; omega
    · intro e; exact absurd e hyl
  · simp only [h, if_false]

/-- The step of an index computation of the form `gep @name, zero, idx`. -/
theorem runTo_site_gep (G : List GlobalVariable) (B : List BasicBlock) (t fuel : Nat)
    (fr : Frame) (x : Instruction) (L : List Instruction) (name : String) (gty : Ty)
    (zero : Value) (idx : Operand) (h : x.kind = .gep (.global name gty) [.const zero, idx]) :
    runTo G B t (fuel + 1) fr (x :: L) =
      match evalOperand fr idx with
      | some (.int k) =>
        if zero.payload = 0 then
          if x.id = t then some (.elemPtr name k)
          else runTo G B t fuel ⟨(x.id, .elemPtr name k) :: fr.env, fr.cells⟩ L
        else none
      | _ => none := by
  rw [runTo_gep G B t fuel fr x L _ _ h]
  have e1 : evalOperand fr (.global name gty) = some (.elemPtr name 0) := rfl
  have e2 : evalOperand fr (.const zero) = some (.int zero.payload) := rfl
  simp only [e1, e2, List.mapM_cons, List.mapM_nil, Option.pure_def, Option.bind_eq_bind,
    Option.some_bind]
  cases evalOperand fr idx with
  | none => rfl
  | some vi =>
    simp only [Option.some_bind]
    cases vi with
    | int k =>
      by_cases hz : zero.payload = 0
      · simp only [hz, if_true]
      · simp only [hz, if_false]
        split
        · rename_i h1 h2
          simp only [Option.some.injEq, List.cons.injEq, RVal.int.injEq, and_true] at h2
          exact absurd h2.1 hz
        · rfl
    | stackCell c =>
      split
      · rename_i h1 h2
        simp at h2
      · rfl
    | elemPtr g k =>
      split
      · rename_i h1 h2
        simp at h2
      · rfl

theorem evalOperand_env (env : List (InstId × RVal)) (c1 c2 : List (InstId × RVal))
    (o : Operand) : evalOperand ⟨env, c1⟩ o = evalOperand ⟨env, c2⟩ o := by
  cases o <;> rfl

theorem SiteData.run_site (D : SiteData) (blocksO blocksT : List BasicBlock)
    (hV : D.Valid blocksO blocksT) (T f1 : Nat) (ft : Frame) (k : Int) (hT : T ≠ D.hid)
    (hz : D.zero.payload = 0)
    (hidx : evalOperand ⟨(D.hid, .stackCell D.hid) :: ft.env, ft.cells⟩
      (Operand.subst D.lid D.newRef D.idx) = some (.int k)) :
    runTo D.G blocksT T (f1 + 3) ft [⟨D.brId, "", .br D.host⟩] =
      if D.gid = T then some (.elemPtr D.name k)
      else runTo D.G blocksT T f1
        ⟨(D.gid, .elemPtr D.name k) :: (D.hid, .stackCell D.hid) :: ft.env, ft.cells⟩
        [⟨D.swId, "", .switch (Operand.subst D.lid D.newRef D.idx) D.dflt D.cases⟩] := by
  have hred : D.redirect D.gep = ⟨D.gid, D.gname, InstKind.subst D.lid D.newRef D.gep.kind⟩ :=
    redirect_of_ne _ _ _ D.gep hV.gid_ne_lid
  have hgepT : (D.redirect D.gep).kind =
      .gep (.global D.name D.gty) [.const D.zero, Operand.subst D.lid D.newRef D.idx] := by
    rw [hred]; rfl
  have hgepId : (D.redirect D.gep).id = D.gid := by
    rw [hred]
  rw [runTo_br D.G blocksT T (f1 + 2) ft _ [] D.host rfl, hV.hostAt]
  simp only [SiteData.hostBlock]
  rw [runTo_alloca D.G blocksT T (f1 + 1) ft _ _ D.holderTy rfl]
  simp only [Ne.symm hT, if_false]
  rw [runTo_site_gep D.G blocksT T f1 _ (D.redirect D.gep) _ _ _ _ _ hgepT]
  simp only [hidx, hz, if_true, hgepId]

theorem SiteData.run_switch_case (D : SiteData) (blocksO blocksT : List BasicBlock)
    (hV : D.Valid blocksO blocksT) (T f1 : Nat) (ft : Frame) (k : Int) (w : RVal)
    (hw : readGlobal D.G D.name k = some w)
    (hh : ft.env.lookup D.hid = some (.stackCell D.hid))
    (hidx : evalOperand ft (Operand.subst D.lid D.newRef D.idx) = some (.int k)) :
    runTo D.G blocksT T (f1 + 4) ft
        [⟨D.swId, "", .switch (Operand.subst D.lid D.newRef D.idx) D.dflt D.cases⟩] =
      runTo D.G blocksT T f1 ⟨ft.env, (D.hid, w) :: ft.cells⟩ (D.cut D.rest) := by
  obtain ⟨b, c, j1, j2, hb, hblock, hval⟩ := hV.caseAt k w hw
  rw [runTo_switch D.G blocksT T (f1 + 3) ft _ [] _ _ _ rfl]
  simp only [hidx, hb, hblock]
  rw [runTo_store D.G blocksT T (f1 + 2) ft _ _ (.const c) D.holder rfl]
  have e1 : evalOperand ft (.const c) = some (.int c.payload) := rfl
  have e2 : evalOperand ft D.holder = some (.stackCell D.hid) := hh
  simp only [e1, e2]
  rw [runTo_br D.G blocksT T (f1 + 1) _ _ [] D.dflt rfl, hV.dfltAt]
  simp only
  rw [runTo_br D.G blocksT T f1 _ _ [] D.cont rfl, hV.contAt, hval]

theorem SiteData.run_switch_default (D : SiteData) (blocksO blocksT : List BasicBlock)
    (hV : D.Valid blocksO blocksT) (T f1 : Nat) (ft : Frame) (k : Int)
    (hw : readGlobal D.G D.name k = none)
    (hidx : evalOperand ft (Operand.subst D.lid D.newRef D.idx) = some (.int k)) :
    runTo D.G blocksT T (f1 + 2) ft
        [⟨D.swId, "", .switch (Operand.subst D.lid D.newRef D.idx) D.dflt D.cases⟩] =
      runTo D.G blocksT T f1 ft (D.cut D.rest) := by
  rw [runTo_switch D.G blocksT T (f1 + 1) ft _ [] _ _ _ rfl]
  simp only [hidx, hV.noCase k hw, hV.dfltAt]
  rw [runTo_br D.G blocksT T f1 _ _ [] D.cont rfl, hV.contAt]

theorem SiteData.simulation (D : SiteData) (blocksO blocksT : List BasicBlock)
    (hV : D.Valid blocksO blocksT) :
    ∀ (fuel : Nat) (fo ft : Frame) (L : List Instruction) (t : Nat) (v : RVal),
      t < D.n0 → FrameRel D.G D.name D.n0 D.gid D.lid D.hid D.newId fo ft →
      (∃ b ∈ blocksO, L <:+ b.insts) →
      runTo D.G blocksO t fuel fo L = some v →
      ∃ fuel1, runTo D.G blocksT (D.target t) fuel1 ft (D.cut L) = some v := by
  intro fuel
  induction fuel with
  | zero => intro fo ft L t v _ _ _ h; simp [runTo] at h
  | succ fuel ih =>
    intro fo ft L t v ht R hL h
    cases L with
    | nil => simp [runTo] at h
    | cons x L2 =>
      obtain ⟨b, hb, hsuf⟩ := hL
      have hxmem : x ∈ b.insts := hsuf.subset (List.mem_cons_self x L2)
      have hL2 : ∃ b ∈ blocksO, L2 <:+ b.insts :=
        ⟨b, hb, (List.suffix_cons x L2).trans hsuf⟩
      have hxlt : x.id < D.n0 := hV.fresh b hb x hxmem
      have hge := hV.hid_ge
      have hnge := hV.newId_ge
      have hglt := hV.gid_lt
      have hllt := hV.lid_lt
      have hTh : D.target t ≠ D.hid := by
        unfold SiteData.target
        split
        · exact Ne.symm hV.hid_ne
        · omega
      have hTn : t ≠ D.lid → D.target t ≠ D.newId := by
        intro hne
        unfold SiteData.target
        simp only [hne, if_false]
        omega
      by_cases hg : x.id = D.gid
      · -- the index computation
        obtain ⟨hxg, hrest⟩ := hV.site b hb x L2 hsuf hg
        subst hxg
        subst hrest
        rw [runTo_site_gep D.G blocksO t fuel fo D.gep D.rest D.name D.gty D.zero D.idx rfl] at h
        cases hidx : evalOperand fo D.idx with
        | none => rw [hidx] at h; exact Option.noConfusion h
        | some vi =>
          rw [hidx] at h
          cases vi with
          | stackCell c => exact Option.noConfusion h
          | elemPtr g0 k0 => exact Option.noConfusion h
          | int k =>
            simp only at h
            by_cases hz : D.zero.payload = 0
            · simp only [hz, if_true] at h
              have hcut : D.cut (D.gep :: D.rest) = [⟨D.brId, "", .br D.host⟩] :=
                cutAtSite_cons_eq _ _ _ _ _ _ rfl
              have hgt : (D.gid = D.target t) ↔ (D.gid = t) :=
                D.target_old hnge t D.gid ht hglt hV.gid_ne_lid
              -- the index operand is not the index computation itself
              have hnotg : ∀ n ty, D.idx ≠ .reg D.gid n ty := by
                intro n ty e
                rw [e] at hidx
                obtain ⟨k1, hk1, _⟩ := R.site _ hidx
                exact RVal.noConfusion hk1
              have hev : ∀ (env : List (InstId × RVal)) (cs : List (InstId × RVal)) (w : RVal),
                  evalOperand ⟨(D.gid, w) :: (D.hid, .stackCell D.hid) :: env, cs⟩
                      (Operand.subst D.lid D.newRef D.idx) =
                    evalOperand ⟨(D.hid, .stackCell D.hid) :: env, cs⟩
                      (Operand.subst D.lid D.newRef D.idx) := by
                intro env cs w
                cases hi : D.idx with
                | const c => rfl
                | global n ty => rfl
                | reg id n ty =>
                  by_cases e : id = D.lid
                  · simp only [Operand.subst, e, if_true, SiteData.newRef, evalOperand]
                    exact lookup_cons_ne D.newId D.gid _ _ (by omega)
                  · simp only [Operand.subst, e, if_false, evalOperand]
                    refine lookup_cons_ne id D.gid _ _ ?_
                    intro e2
                    subst e2
                    exact hnotg n ty hi
              have R1 : FrameRel D.G D.name D.n0 D.gid D.lid D.hid D.newId fo
                  ⟨(D.hid, .stackCell D.hid) :: ft.env, ft.cells⟩ := by
                refine ⟨?_, ?_, R.cells, R.bound, R.envCells, R.memCells, ?_⟩
                · intro j hj hjl
                  show List.lookup j ((D.hid, RVal.stackCell D.hid) :: ft.env) = _
                  rw [lookup_cons_ne j D.hid _ _ (by omega)]
                  exact R.old j hj hjl
                · show List.lookup D.newId ((D.hid, RVal.stackCell D.hid) :: ft.env) = _
                  rw [lookup_cons_ne D.newId D.hid _ _ (Ne.symm hV.hid_ne)]
                  exact R.read
                · intro p hp
                  obtain ⟨k1, hk1, _, hc1⟩ := R.site p hp
                  refine ⟨k1, hk1, ?_, hc1⟩
                  show List.lookup D.hid ((D.hid, RVal.stackCell D.hid) :: ft.env) = _
                  rw [lookup_cons_self]
              have hidxT : evalOperand ⟨(D.hid, .stackCell D.hid) :: ft.env, ft.cells⟩
                  (Operand.subst D.lid D.newRef D.idx) = some (.int k) :=
                R1.operand "optLoad" D.newTy hllt D.idx (.int k) hidx
              have hsite := fun f1 => D.run_site blocksO blocksT hV (D.target t) f1 ft k hTh hz hidxT
              by_cases e : D.gid = t
              · refine ⟨3, ?_⟩
                rw [hcut, hsite 0]
                have e1 : D.gep.id = t := e
                simp only [e1, if_true] at h
                rw [if_pos (hgt.mpr e)]
                exact h
              · have e1 : ¬ D.gep.id = t := e
                have e2 : ¬ D.gid = D.target t := fun h => e (hgt.mp h)
                simp only [e1, if_false] at h
                have hh2 : List.lookup D.hid
                    ((D.gid, RVal.elemPtr D.name k) :: (D.hid, RVal.stackCell D.hid) :: ft.env) =
                    some (.stackCell D.hid) := by
                  rw [lookup_cons_ne D.hid D.gid _ _ (by omega), lookup_cons_self]
                cases hw : readGlobal D.G D.name k with
                | some w =>
                  have R2 := R.bind_site k ((D.hid, w) :: ft.cells) hge hnge hV.hid_ne hglt
                    hV.gid_ne_lid
                    (fun c hc => lookup_cons_ne c D.hid w ft.cells (by omega))
                    (fun w1 hw1 => by
                      rw [hw] at hw1
                      rw [← Option.some.inj hw1]
                      exact lookup_cons_self D.hid w ft.cells)
                  obtain ⟨f2, hf2⟩ := ih _ _ D.rest t v ht R2 hL2 h
                  refine ⟨f2 + 4 + 3, ?_⟩
                  rw [hcut, hsite (f2 + 4)]
                  simp only [e2, if_false]
                  rw [D.run_switch_case blocksO blocksT hV (D.target t) f2 _ k w hw hh2
                    ((hev ft.env ft.cells _).trans hidxT)]
                  exact hf2
                | none =>
                  have R2 := R.bind_site k ft.cells hge hnge hV.hid_ne hglt hV.gid_ne_lid
                    (fun c hc => rfl)
                    (fun w1 hw1 => by rw [hw] at hw1; exact Option.noConfusion hw1)
                  obtain ⟨f2, hf2⟩ := ih _ _ D.rest t v ht R2 hL2 h
                  refine ⟨f2 + 2 + 3, ?_⟩
                  rw [hcut, hsite (f2 + 2)]
                  simp only [e2, if_false]
                  rw [D.run_switch_default blocksO blocksT hV (D.target t) f2 _ k hw
                    ((hev ft.env ft.cells _).trans hidxT)]
                  exact hf2
            · simp only [hz, if_false] at h
              exact Option.noConfusion h
      · have hcut : D.cut (x :: L2) = D.redirect x :: D.cut L2 :=
          cutAtSite_cons_ne _ _ _ _ _ _ hg
        by_cases hl : x.id = D.lid
        · -- the read
          obtain ⟨nm, ty, a, hk⟩ := hV.read b hb x hxmem hl
          rw [runTo_load D.G blocksO t fuel fo x L2 _ a hk] at h
          have hred : D.redirect x = D.newLoad := redirect_of_eq _ _ _ x hl
          cases hp : fo.env.lookup D.gid with
          | none =>
            have : evalOperand fo (.reg D.gid nm ty) = none := hp
            rw [this] at h
            exact Option.noConfusion h
          | some p =>
            have hev : evalOperand fo (.reg D.gid nm ty) = some p := hp
            obtain ⟨k, hpk, hh, hcell⟩ := R.site p hp
            subst hpk
            rw [hev] at h
            simp only [Option.some_bind, readMem] at h
            cases hw : readGlobal D.G D.name k with
            | none => rw [hw] at h; exact Option.noConfusion h
            | some w =>
              rw [hw] at h
              simp only at h
              have hwc : ∀ c, w = .stackCell c → c < D.n0 := by
                intro c hc
                have : readMem D.G fo (.elemPtr D.name k) = some w := hw
                exact R.memory_cell _ _ this c hc
              have hstep : ∀ f1, runTo D.G blocksT (D.target t) (f1 + 1) ft
                  (D.newLoad :: D.cut L2) =
                  if D.newId = D.target t then some w
                  else runTo D.G blocksT (D.target t) f1 ⟨(D.newId, w) :: ft.env, ft.cells⟩
                    (D.cut L2) := by
                intro f1
                rw [runTo_load D.G blocksT (D.target t) f1 ft D.newLoad (D.cut L2) D.holder
                  D.align rfl]
                have e1 : evalOperand ft D.holder = some (.stackCell D.hid) := hh
                have e2 : readMem D.G ft (.stackCell D.hid) = some w := hcell w hw
                simp only [e1, Option.some_bind, e2]
                rfl
              by_cases e : x.id = t
              · simp only [e, if_true] at h
                refine ⟨1, ?_⟩
                rw [hcut, hred, hstep 0]
                have : D.newId = D.target t := by
                  unfold SiteData.target
                  rw [← e, hl]; simp
                rw [if_pos this]
                exact h
              · simp only [e, if_false] at h
                have htl : t ≠ D.lid := fun h1 => e (hl.trans h1.symm)
                have R2 := R.bind_read w hge hnge hV.hid_ne hllt hV.gid_ne_lid hwc
                rw [hl] at h
                obtain ⟨f2, hf2⟩ := ih _ _ L2 t v ht R2 hL2 h
                refine ⟨f2 + 1, ?_⟩
                rw [hcut, hred, hstep f2]
                rw [if_neg (Ne.symm (hTn htl))]
                exact hf2
        · -- any other instruction
          have hred : D.redirect x = ⟨x.id, x.name, InstKind.subst D.lid D.newRef x.kind⟩ :=
            redirect_of_ne _ _ _ x hl
          have htx : (x.id = D.target t) ↔ (x.id = t) := D.target_old hnge t x.id ht hxlt hl
          have hev := fun o w => R.operand "optLoad" D.newTy hllt o w
          cases hk : x.kind with
          | alloca ty =>
            rw [runTo_alloca D.G blocksO t fuel fo x L2 ty hk] at h
            have hstep : ∀ f1, runTo D.G blocksT (D.target t) (f1 + 1) ft
                (D.redirect x :: D.cut L2) =
                if x.id = D.target t then some (.stackCell x.id)
                else runTo D.G blocksT (D.target t) f1
                  ⟨(x.id, .stackCell x.id) :: ft.env, ft.cells⟩ (D.cut L2) := by
              intro f1
              rw [hred, runTo_alloca D.G blocksT (D.target t) f1 ft _ _ ty
                (by rw [hk]; rfl)]
            by_cases e : x.id = t
            · simp only [e, if_true] at h
              refine ⟨1, ?_⟩
              rw [hcut, hstep 0]
              rw [if_pos (htx.mpr e)]
              rw [← e] at h
              exact h
            · simp only [e, if_false] at h
              have R2 := R.bind_old x.id (.stackCell x.id) hge hnge hxlt hl hg
                (fun c hc => by rw [← RVal.stackCell.inj hc]; exact hxlt)
              obtain ⟨f2, hf2⟩ := ih _ _ L2 t v ht R2 hL2 h
              refine ⟨f2 + 1, ?_⟩
              rw [hcut, hstep f2]
              rw [if_neg (fun h1 => e (htx.mp h1))]
              exact hf2
          | gep ptr indices =>
            rw [runTo_gep D.G blocksO t fuel fo x L2 ptr indices hk] at h
            cases hp : evalOperand fo ptr with
            | none => rw [hp] at h; simp at h
            | some p =>
              cases hi : indices.mapM (evalOperand fo) with
              | none => rw [hp, hi] at h; simp at h
              | some vs =>
                rw [hp, hi] at h
                split at h
                · rename_i g0 k h1 h2
                  have hp1 : p = .elemPtr g0 0 := Option.some.inj h1
                  have hv1 : vs = [.int 0, .int k] := Option.some.inj h2
                  subst hp1
                  subst hv1
                  have hpT := hev ptr _ hp
                  have hiT := R.mapM "optLoad" D.newTy hllt indices _ hi
                  have hstep : ∀ f1, runTo D.G blocksT (D.target t) (f1 + 1) ft
                      (D.redirect x :: D.cut L2) =
                      if x.id = D.target t then some (.elemPtr g0 k)
                      else runTo D.G blocksT (D.target t) f1
                        ⟨(x.id, .elemPtr g0 k) :: ft.env, ft.cells⟩ (D.cut L2) := by
                    intro f1
                    rw [hred, runTo_gep D.G blocksT (D.target t) f1 ft _ _
                      (Operand.subst D.lid D.newRef ptr)
                      (indices.map (Operand.subst D.lid D.newRef)) (by rw [hk]; rfl)]
                    simp only [SiteData.newRef, hpT, hiT]
                  by_cases e : x.id = t
                  · simp only [e, if_true] at h
                    refine ⟨1, ?_⟩
                    rw [hcut, hstep 0]
                    rw [if_pos (htx.mpr e)]
                    exact h
                  · simp only [e, if_false] at h
                    have R2 := R.bind_old x.id (.elemPtr g0 k) hge hnge hxlt hl hg
                      (fun c hc => RVal.noConfusion hc)
                    obtain ⟨f2, hf2⟩ := ih _ _ L2 t v ht R2 hL2 h
                    refine ⟨f2 + 1, ?_⟩
                    rw [hcut, hstep f2]
                    rw [if_neg (fun h1 => e (htx.mp h1))]
                    exact hf2
                · exact Option.noConfusion h
          | load ptr a =>
            rw [runTo_load D.G blocksO t fuel fo x L2 ptr a hk] at h
            cases hp : evalOperand fo ptr with
            | none => rw [hp] at h; simp at h
            | some p =>
              rw [hp] at h
              simp only [Option.some_bind] at h
              cases hw : readMem D.G fo p with
              | none => rw [hw] at h; exact Option.noConfusion h
              | some w =>
                rw [hw] at h
                simp only at h
                have hpT := hev ptr p hp
                have hwT := R.memory ptr p w hp hw
                have hwc := R.memory_cell p w hw
                have hstep : ∀ f1, runTo D.G blocksT (D.target t) (f1 + 1) ft
                    (D.redirect x :: D.cut L2) =
                    if x.id = D.target t then some w
                    else runTo D.G blocksT (D.target t) f1 ⟨(x.id, w) :: ft.env, ft.cells⟩
                      (D.cut L2) := by
                  intro f1
                  rw [hred, runTo_load D.G blocksT (D.target t) f1 ft _ _
                    (Operand.subst D.lid D.newRef ptr) a (by rw [hk]; rfl)]
                  simp only [SiteData.newRef, hpT, Option.some_bind, hwT]
                by_cases e : x.id = t
                · simp only [e, if_true] at h
                  refine ⟨1, ?_⟩
                  rw [hcut, hstep 0]
                  rw [if_pos (htx.mpr e)]
                  exact h
                · simp only [e, if_false] at h
                  have R2 := R.bind_old x.id w hge hnge hxlt hl hg hwc
                  obtain ⟨f2, hf2⟩ := ih _ _ L2 t v ht R2 hL2 h
                  refine ⟨f2 + 1, ?_⟩
                  rw [hcut, hstep f2]
                  rw [if_neg (fun h1 => e (htx.mp h1))]
                  exact hf2
          | store val ptr =>
            rw [runTo_store D.G blocksO t fuel fo x L2 val ptr hk] at h
            cases hv : evalOperand fo val with
            | none => rw [hv] at h; simp at h
            | some w =>
              cases hp : evalOperand fo ptr with
              | none => rw [hv, hp] at h; simp at h
              | some p =>
                rw [hv, hp] at h
                cases p with
                | int z => simp at h
                | elemPtr g0 k0 => simp at h
                | stackCell c =>
                  simp only at h
                  have hc : c < D.n0 := R.operand_cell ptr c hp
                  have hwc : ∀ c1, w = .stackCell c1 → c1 < D.n0 := by
                    intro c1 e
                    rw [e] at hv
                    exact R.operand_cell val c1 hv
                  have R2 := R.store c w hge hc hwc
                  obtain ⟨f2, hf2⟩ := ih _ _ L2 t v ht R2 hL2 h
                  refine ⟨f2 + 1, ?_⟩
                  rw [hcut, hred, runTo_store D.G blocksT (D.target t) f2 ft _ _
                    (Operand.subst D.lid D.newRef val) (Operand.subst D.lid D.newRef ptr)
                    (by rw [hk]; rfl)]
                  have hvT := hev val w hv
                  have hpT := hev ptr _ hp
                  simp only [SiteData.newRef, hvT, hpT]
                  exact hf2
          | br dest =>
            rw [runTo_br D.G blocksO t fuel fo x L2 dest hk] at h
            cases hb1 : findBlock blocksO dest with
            | none => rw [hb1] at h; exact Option.noConfusion h
            | some b1 =>
              rw [hb1] at h
              simp only at h
              have hmem : b1 ∈ blocksO := List.mem_of_find?_eq_some hb1
              obtain ⟨f2, hf2⟩ := ih fo ft b1.insts t v ht R
                ⟨b1, hmem, List.suffix_refl _⟩ h
              refine ⟨f2 + 1, ?_⟩
              rw [hcut, hred, runTo_br D.G blocksT (D.target t) f2 ft _ _ dest
                (by rw [hk]; rfl), hV.old dest b1 hb1]
              exact hf2
          | switch cond d cs =>
            rw [runTo_switch D.G blocksO t fuel fo x L2 cond d cs hk] at h
            cases hc : evalOperand fo cond with
            | none => rw [hc] at h; simp at h
            | some w =>
              rw [hc] at h
              cases w with
              | stackCell c => simp at h
              | elemPtr g0 k0 => simp at h
              | int z =>
                simp only at h
                cases hb1 : findBlock blocksO (switchTarget cs d z) with
                | none => rw [hb1] at h; exact Option.noConfusion h
                | some b1 =>
                  rw [hb1] at h
                  simp only at h
                  have hmem : b1 ∈ blocksO := List.mem_of_find?_eq_some hb1
                  obtain ⟨f2, hf2⟩ := ih fo ft b1.insts t v ht R
                    ⟨b1, hmem, List.suffix_refl _⟩ h
                  refine ⟨f2 + 1, ?_⟩
                  rw [hcut, hred, runTo_switch D.G blocksT (D.target t) f2 ft _ _
                    (Operand.subst D.lid D.newRef cond) d cs (by rw [hk]; rfl)]
                  have hcT := hev cond _ hc
                  simp only [SiteData.newRef, hcT, hV.old _ b1 hb1]
                  exact hf2
          | ret val =>
            rw [runTo_ret D.G blocksO t fuel fo x L2 val hk] at h
            exact Option.noConfusion h
          | other term ops =>
            rw [runTo_other D.G blocksO t fuel fo x L2 term ops hk] at h
            cases term with
            | true => simp at h
            | false =>
              simp only [Bool.false_eq_true, if_false] at h
              obtain ⟨f2, hf2⟩ := ih fo ft L2 t v ht R hL2 h
              refine ⟨f2 + 1, ?_⟩
              rw [hcut, hred, runTo_other D.G blocksT (D.target t) f2 ft _ _ false
                (ops.map (Operand.subst D.lid D.newRef)) (by rw [hk]; rfl)]
              simp only [Bool.false_eq_true, if_false]
              exact hf2
/-! ## The pass on a program with a single read -/

theorem splitBlocks_append_none (info : ArrayInfo) :
    ∀ (bs1 bs2 : List BasicBlock) (n : Nat),
      (∀ i ∈ bs1.flatMap (fun b => b.insts), isRelevantGEP info i = false) →
      splitBlocks info n (bs1 ++ bs2) =
        (bs1 ++ (splitBlocks info n bs2).1, (splitBlocks info n bs2).2.1,
          (splitBlocks info n bs2).2.2) := by
  intro bs1
  induction bs1 with
  | nil => intro bs2 n _; rfl
  | cons b rest ih =>
    intro bs2 n h
    have hb : ∀ i ∈ b.insts, isRelevantGEP info i = false := fun i hi =>
      h i (by simp only [List.flatMap_cons, List.mem_append]; exact Or.inl hi)
    have hrest : ∀ i ∈ rest.flatMap (fun b => b.insts), isRelevantGEP info i = false :=
      fun i hi => h i (by simp only [List.flatMap_cons, List.mem_append]; exact Or.inr hi)
    rw [List.cons_append]
    simp only [splitBlocks, splitInsts_none info b.insts [] n b.id hb, ih bs2 n hrest,
      List.nil_append, List.cons_append]

theorem splitFunctions_append_none (info : ArrayInfo) :
    ∀ (fs1 fs2 : List Function) (n : Nat),
      (∀ i ∈ fs1.flatMap (fun f => f.insts), isRelevantGEP info i = false) →
      splitFunctions info n (fs1 ++ fs2) =
        (fs1 ++ (splitFunctions info n fs2).1, (splitFunctions info n fs2).2.1,
          (splitFunctions info n fs2).2.2) := by
  intro fs1
  induction fs1 with
  | nil => intro fs2 n _; rfl
  | cons f rest ih =>
    intro fs2 n h
    have hf : ∀ i ∈ f.blocks.flatMap (fun b => b.insts), isRelevantGEP info i = false :=
      fun i hi => h i (by
        simp only [List.flatMap_cons, List.mem_append, Function.insts]; exact Or.inl hi)
    have hrest : ∀ i ∈ rest.flatMap (fun f => f.insts), isRelevantGEP info i = false :=
      fun i hi => h i (by simp only [List.flatMap_cons, List.mem_append]; exact Or.inr hi)
    rw [List.cons_append]
    simp only [splitFunctions, splitBlocks_none info f.blocks n hf, ih fs2 n hrest,
      List.nil_append, List.cons_append]

theorem ReadProgram.mem_others (S : ReadProgram) :
    (∀ x ∈ S.fsBefore.flatMap Function.insts, x ∈ S.others) ∧
    (∀ x ∈ S.bsBefore.flatMap (fun b => b.insts), x ∈ S.others) ∧
    (∀ x ∈ S.pre, x ∈ S.others) ∧ (∀ x ∈ S.rest, x ∈ S.others) ∧
    (∀ x ∈ S.bsAfter.flatMap (fun b => b.insts), x ∈ S.others) ∧
    (∀ x ∈ S.fsAfter.flatMap Function.insts, x ∈ S.others) := by
  refine ⟨?_, ?_, ?_, ?_, ?_, ?_⟩ <;> intro x hx <;>
    simp only [ReadProgram.others, List.mem_append] <;> tauto

theorem ReadProgram.insts_eq (S : ReadProgram) :
    S.module.insts =
      (S.fsBefore.flatMap Function.insts ++
        (S.bsBefore.flatMap (fun b => b.insts) ++ S.pre)) ++
      S.gep :: (S.rest ++
        (S.bsAfter.flatMap (fun b => b.insts) ++ S.fsAfter.flatMap Function.insts)) := by
  simp [Module.insts, ReadProgram.module, Function.insts, ReadProgram.blocks,
    ReadProgram.siteBlock, List.flatMap_append, List.append_assoc]
  rfl

theorem ReadProgram.mem_insts (S : ReadProgram) (x : Instruction) :
    x ∈ S.module.insts ↔ x = S.gep ∨ x ∈ S.others := by
  rw [S.insts_eq]
  simp only [ReadProgram.others, List.mem_append, List.mem_cons]
  tauto

theorem ReadProgram.relevant (S : ReadProgram) (hS : S.WellFormed) (info : ArrayInfo)
    (m : ValueMap) (hfind : info.find S.name = some m)
    (hother : ∀ k, k ≠ S.name → info.find k = none) :
    (∀ x ∈ S.others, isRelevantGEP info x = false) ∧ isRelevantGEP info S.gep = true := by
  refine ⟨fun x hx => not_target_not_relevant info S.name x hother (hS.single_site x hx), ?_⟩
  have hn : (S.name != "") = true := by simpa using hS.named
  simp [isRelevantGEP, ReadProgram.gep, Operand.hasName, Operand.getName, hfind, hn]

theorem ReadProgram.split_eq (S : ReadProgram) (hS : S.WellFormed) (info : ArrayInfo)
    (m : ValueMap) (hfind : info.find S.name = some m)
    (hother : ∀ k, k ≠ S.name → info.find k = none) (fuel : Nat)
    (hfuel : splitBudget info S.module ≤ fuel) :
    BuildGEPBlocks info fuel S.module = some (S.moduleAfterSplit, [S.gepId]) := by
  obtain ⟨hoth, hgep⟩ := S.relevant hS info m hfind hother
  obtain ⟨m1, m2, m3, m4, m5, m6⟩ := S.mem_others
  have hsplit : splitInsts info S.nextId S.site [] (S.pre ++ S.gep :: S.rest) =
      ([⟨S.site, S.pre ++ [⟨S.nextId + 1, "", .br S.nextId⟩]⟩,
        ⟨S.nextId, [S.gep, ⟨S.nextId + 3, "", .br (S.nextId + 2)⟩]⟩,
        ⟨S.nextId + 4, [⟨S.nextId + 5, "", .br (S.nextId + 2)⟩]⟩,
        ⟨S.nextId + 2, S.rest⟩], [S.gepId], S.nextId + 6) := by
    rw [splitInsts_skip_plain info S.pre [] _ _ _ (fun x hx => hoth x (m3 x hx)),
      splitInsts_relevant info _ _ _ _ _ hgep,
      splitInsts_none info S.rest [] _ _ (fun x hx => hoth x (m4 x hx))]
    simp [ReadProgram.gep]
  have hblocks : splitBlocks info S.nextId S.blocks =
      (S.blocksAfterSplit, [S.gepId], S.nextId + 6) := by
    unfold ReadProgram.blocks
    rw [splitBlocks_append_none info S.bsBefore _ _ (fun x hx => hoth x (m2 x hx))]
    simp only [splitBlocks, ReadProgram.siteBlock, hsplit,
      splitBlocks_none info S.bsAfter (S.nextId + 6) (fun x hx => hoth x (m5 x hx)),
      List.append_nil, ReadProgram.blocksAfterSplit, List.cons_append, List.nil_append]
  have hfuncs : splitFunctions info S.nextId S.module.functions =
      (S.moduleAfterSplit.functions, [S.gepId], S.nextId + 6) := by
    show splitFunctions info S.nextId (S.fsBefore ++ ⟨S.fname, S.blocks⟩ :: S.fsAfter) = _
    rw [splitFunctions_append_none info S.fsBefore _ _ (fun x hx => hoth x (m1 x hx))]
    simp only [splitFunctions, hblocks,
      splitFunctions_none info S.fsAfter (S.nextId + 6) (fun x hx => hoth x (m6 x hx)),
      List.append_nil, ReadProgram.moduleAfterSplit]
  rw [BuildGEPBlocks_eq info fuel S.module hfuel]
  have hn : S.module.nextId = S.nextId := rfl
  rw [hn, hfuncs]
  rfl

theorem eq_of_nodup_id (l : List Instruction) (h : (l.map fun x => x.id).Nodup)
    (x y : Instruction) (hx : x ∈ l) (hy : y ∈ l) (e : x.id = y.id) : x = y :=
  List.inj_on_of_nodup_map h hx hy e

theorem ReadProgram.gep_mem (S : ReadProgram) : S.gep ∈ S.module.insts :=
  (S.mem_insts S.gep).mpr (Or.inl rfl)

theorem ReadProgram.others_ne_gep (S : ReadProgram) (hS : S.WellFormed) :
    ∀ x ∈ S.others, x.id ≠ S.gepId := by
  have h := hS.inst_ids
  rw [S.insts_eq, List.map_append, List.map_cons, List.nodup_middle, List.nodup_cons] at h
  intro x hx e
  apply h.1
  rw [← List.map_append]
  refine List.mem_map.mpr ⟨x, ?_, e⟩
  simp only [ReadProgram.others, List.mem_append] at hx ⊢
  tauto

theorem ReadProgram.read_facts (S : ReadProgram) (hS : S.WellFormed) :
    S.read ∈ S.others ∧ (∃ nm ty a, S.read.kind = .load (.reg S.gepId nm ty) a) ∧
      ∀ x ∈ S.module.insts, x.id = S.read.id → x = S.read := by
  have hmem : S.read ∈ S.module.insts.filter (isLoadOf S.gepId) := by
    have h := hS.single_read
    unfold loadsOf at h
    rw [h]; exact List.mem_singleton_self _
  obtain ⟨hin, hload⟩ := List.mem_filter.mp hmem
  have hkind : ∃ nm ty a, S.read.kind = .load (.reg S.gepId nm ty) a := by
    unfold isLoadOf at hload
    cases hk : S.read.kind with
    | load ptr a =>
      rw [hk] at hload
      cases ptr with
      | reg id nm ty =>
        simp only [Operand.isInst, decide_eq_true_eq] at hload
        subst hload
        exact ⟨nm, ty, a, rfl⟩
      | const c => simp [Operand.isInst] at hload
      | global n t => simp [Operand.isInst] at hload
    | gep p i => rw [hk] at hload; simp at hload
    | store v p => rw [hk] at hload; simp at hload
    | alloca t => rw [hk] at hload; simp at hload
    | br d => rw [hk] at hload; simp at hload
    | switch c d cs => rw [hk] at hload; simp at hload
    | ret v => rw [hk] at hload; simp at hload
    | other t ops => rw [hk] at hload; simp at hload
  refine ⟨?_, hkind, ?_⟩
  · rcases (S.mem_insts S.read).mp hin with e | h
    · obtain ⟨nm, ty, a, hk⟩ := hkind
      rw [e] at hk
      simp [ReadProgram.gep] at hk
    · exact h
  · intro x hx e
    exact eq_of_nodup_id _ hS.inst_ids x S.read hx hin e

theorem ReadProgram.insts_after_split (S : ReadProgram) :
    S.moduleAfterSplit.insts =
      (S.fsBefore.flatMap Function.insts ++
        (S.bsBefore.flatMap (fun b => b.insts) ++
          (S.pre ++ [⟨S.nextId + 1, "", .br S.nextId⟩]))) ++
      S.gep :: ⟨S.nextId + 3, "", .br (S.nextId + 2)⟩ :: ⟨S.nextId + 5, "", .br (S.nextId + 2)⟩ ::
        (S.rest ++
          (S.bsAfter.flatMap (fun b => b.insts) ++ S.fsAfter.flatMap Function.insts)) := by
  simp [Module.insts, ReadProgram.moduleAfterSplit, Function.insts, ReadProgram.blocksAfterSplit,
    List.flatMap_append, List.append_assoc]
  rfl

theorem ReadProgram.pairs_eq (S : ReadProgram) (hS : S.WellFormed) :
    GetGEPLoadPair S.moduleAfterSplit [S.gepId] = [(S.gepId, S.read.id)] := by
  have hbr : ∀ (i : InstId) (d : BlockId), isLoadOf S.gepId ⟨i, "", .br d⟩ = false :=
    fun _ _ => rfl
  have h1 := hS.single_read
  unfold loadsOf at h1
  have h2 : S.moduleAfterSplit.insts.filter (isLoadOf S.gepId) =
      S.module.insts.filter (isLoadOf S.gepId) := by
    rw [S.insts_after_split, S.insts_eq]
    simp [List.filter_append, List.filter_cons, hbr]
  rw [GetGEPLoadPair_eq]
  simp only [loadsOf, h2, h1, List.flatMap_cons, List.flatMap_nil, List.map_cons, List.map_nil,
    List.append_nil]

theorem locateInBlocks_skip (t : InstId) :
    ∀ (bs1 bs2 : List BasicBlock) (k : Nat),
      (∀ x ∈ bs1.flatMap (fun b => b.insts), x.id ≠ t) →
      locateInBlocks t (bs1 ++ bs2) k = locateInBlocks t bs2 (k + bs1.length) := by
  intro bs1
  induction bs1 with
  | nil => intro bs2 k _; rfl
  | cons b rest ih =>
    intro bs2 k h
    have hb : b.insts.find? (fun i => decide (i.id = t)) = none :=
      find_id_none _ _ (fun x hx => h x (by
        simp only [List.flatMap_cons, List.mem_append]; exact Or.inl hx))
    rw [List.cons_append]
    simp only [locateInBlocks, hb]
    rw [ih bs2 (k + 1) (fun x hx => h x (by
      simp only [List.flatMap_cons, List.mem_append]; exact Or.inr hx))]
    simp only [List.length_cons]
    congr 1
    omega

theorem locateInFunctions_skip (t : InstId) :
    ∀ (fs1 fs2 : List Function) (k : Nat),
      (∀ x ∈ fs1.flatMap Function.insts, x.id ≠ t) →
      locateInFunctions t (fs1 ++ fs2) k = locateInFunctions t fs2 (k + fs1.length) := by
  intro fs1
  induction fs1 with
  | nil => intro fs2 k _; rfl
  | cons f rest ih =>
    intro fs2 k h
    have hf : locateInBlocks t f.blocks 0 = none := by
      have hmap := locateInBlocks_find t f.blocks 0
      have hnone : (f.blocks.flatMap fun b => b.insts).find? (fun i => decide (i.id = t)) =
          none :=
        find_id_none _ _ (fun x hx => h x (by
          simp only [List.flatMap_cons, List.mem_append, Function.insts]; exact Or.inl hx))
      rw [hnone] at hmap
      cases hl : locateInBlocks t f.blocks 0 with
      | none => rfl
      | some r => rw [hl] at hmap; simp at hmap
    rw [List.cons_append]
    simp only [locateInFunctions, hf]
    rw [ih fs2 (k + 1) (fun x hx => h x (by
      simp only [List.flatMap_cons, List.mem_append]; exact Or.inr hx))]
    simp only [List.length_cons]
    congr 1
    omega

theorem ReadProgram.locate_gep (S : ReadProgram) (hS : S.WellFormed) :
    locateInFunctions S.gepId S.moduleAfterSplit.functions 0 =
      some (S.fsBefore.length, S.bsBefore.length + 1, S.gep) := by
  obtain ⟨m1, m2, m3, m4, m5, m6⟩ := S.mem_others
  have hne := S.others_ne_gep hS
  have hg : S.gepId < S.nextId := hS.inst_fresh S.gep S.gep_mem
  show locateInFunctions S.gepId (S.fsBefore ++ ⟨S.fname, S.blocksAfterSplit⟩ :: S.fsAfter) 0 = _
  rw [locateInFunctions_skip S.gepId S.fsBefore _ 0 (fun x hx => hne x (m1 x hx))]
  have hb : locateInBlocks S.gepId S.blocksAfterSplit 0 =
      some (S.bsBefore.length + 1, S.gep) := by
    unfold ReadProgram.blocksAfterSplit
    rw [locateInBlocks_skip S.gepId S.bsBefore _ 0 (fun x hx => hne x (m2 x hx))]
    have hpre : (S.pre ++ [(⟨S.nextId + 1, "", .br S.nextId⟩ : Instruction)]).find?
        (fun i => decide (i.id = S.gepId)) = none := by
      apply find_id_none
      intro x hx
      rcases List.mem_append.mp hx with h | h
      · exact hne x (m3 x h)
      · simp only [List.mem_singleton] at h
        subst h
        show S.nextId + 1 ≠ S.gepId
        omega
    have hgid : S.gep.id = S.gepId := rfl
    simp only [locateInBlocks, hpre, List.find?_cons, hgid, decide_True, Nat.zero_add]
  simp only [locateInFunctions, hb, Nat.zero_add]

theorem ne_of_lt_add (a n k : Nat) (h : a < n) : ¬ n + k = a := by omega

theorem find_of_nodup_id (l : List Instruction) (h : (l.map fun x => x.id).Nodup)
    (x : Instruction) (hx : x ∈ l) : l.find? (fun i => decide (i.id = x.id)) = some x := by
  cases hf : l.find? (fun i => decide (i.id = x.id)) with
  | none =>
    rw [List.find?_eq_none] at hf
    exact absurd (by simp) (hf x hx)
  | some y =>
    have hy : y ∈ l := List.mem_of_find?_eq_some hf
    have hid : y.id = x.id := by simpa using List.find?_some hf
    rw [eq_of_nodup_id l h y x hy hx hid]

theorem getElem?_append_cons_length {α : Type} (l1 l2 : List α) (a : α) :
    (l1 ++ a :: l2)[l1.length]? = some a := by
  rw [List.getElem?_append_right (Nat.le_refl _), Nat.sub_self]
  exact List.getElem?_cons_zero

theorem getElem?_append_cons_succ {α : Type} (l1 l2 : List α) (a b : α) :
    (l1 ++ a :: b :: l2)[l1.length + 1]? = some b := by
  rw [List.getElem?_append_right (by omega), Nat.add_sub_cancel_left]
  simp

theorem getElem?_append_cons_succ_succ {α : Type} (l1 l2 : List α) (a b c : α) :
    (l1 ++ a :: b :: c :: l2)[l1.length + 1 + 1]? = some c := by
  rw [List.getElem?_append_right (by omega)]
  have : l1.length + 1 + 1 - l1.length = 2 := by omega
  rw [this]
  simp

theorem set_append_cons_length {α : Type} (l1 l2 : List α) (a b : α) :
    (l1 ++ a :: l2).set l1.length b = l1 ++ b :: l2 := by
  induction l1 with
  | nil => rfl
  | cons x rest ih => simp [List.set, ih]

theorem take_append_cons_succ {α : Type} (l1 l2 : List α) (a : α) :
    (l1 ++ a :: l2).take (l1.length + 1) = l1 ++ [a] := by
  induction l1 with
  | nil => simp
  | cons x rest ih => simp [ih]

theorem drop_append_cons_succ_succ {α : Type} (l1 l2 : List α) (a b : α) :
    (l1 ++ a :: b :: l2).drop (l1.length + 1 + 1) = l2 := by
  induction l1 with
  | nil => simp
  | cons x rest ih => simpa using ih

theorem ReadProgram.find_read (S : ReadProgram) (hS : S.WellFormed) :
    S.moduleAfterSplit.insts.find? (fun i => decide (i.id = S.read.id)) = some S.read := by
  obtain ⟨hro, _, _⟩ := S.read_facts hS
  have hrin : S.read ∈ S.module.insts := (S.mem_insts S.read).mpr (Or.inr hro)
  have hlt : S.read.id < S.nextId := hS.inst_fresh S.read hrin
  have horig := find_of_nodup_id _ hS.inst_ids S.read hrin
  have e1 : ¬ S.nextId + 1 = S.read.id := ne_of_lt_add _ _ 1 hlt
  have e3 : ¬ S.nextId + 3 = S.read.id := ne_of_lt_add _ _ 3 hlt
  have e5 : ¬ S.nextId + 5 = S.read.id := ne_of_lt_add _ _ 5 hlt
  rw [S.insts_eq] at horig
  rw [S.insts_after_split]
  simp only [List.find?_append, List.find?_cons, List.find?_nil, e1, e3, e5, decide_False,
    Option.or_none, Option.or_assoc] at horig ⊢
  exact horig

theorem ReadProgram.round_eq (S : ReadProgram) (hS : S.WellFormed) (info : ArrayInfo)
    (m : ValueMap) (hfind : info.find S.name = some m) (hm : m ≠ [])
    (hty : ∀ e ∈ m, e.1.ty = .integer S.bits) :
    ∃ a, switchOnePair info S.moduleAfterSplit S.gepId S.read.id = some (S.transformed m a) := by
  obtain ⟨hro, ⟨nm, ty, a0, hrk⟩, _⟩ := S.read_facts hS
  have hrin : S.read ∈ S.module.insts := (S.mem_insts S.read).mpr (Or.inr hro)
  have hlt : S.read.id < S.nextId := hS.inst_fresh S.read hrin
  have hloc := S.locate_gep hS
  have hF : S.moduleAfterSplit.functions[S.fsBefore.length]? =
      some ⟨S.fname, S.blocksAfterSplit⟩ := getElem?_append_cons_length _ _ _
  have hB : S.blocksAfterSplit[S.bsBefore.length + 1]? =
      some ⟨S.nextId, [S.gep, ⟨S.nextId + 3, "", .br (S.nextId + 2)⟩]⟩ :=
    getElem?_append_cons_succ _ _ _ _
  have hD : S.blocksAfterSplit[S.bsBefore.length + 1 + 1]? =
      some ⟨S.nextId + 4, [⟨S.nextId + 5, "", .br (S.nextId + 2)⟩]⟩ :=
    getElem?_append_cons_succ_succ _ _ _ _ _
  obtain ⟨first, hfirst⟩ : ∃ first, m.head? = some first := by
    cases m with
    | nil => exact absurd rfl hm
    | cons e rest => exact ⟨e, rfl⟩
  have hfty : first.1.ty = .integer S.bits := by
    cases m with
    | nil => exact absurd rfl hm
    | cons e rest =>
      simp only [List.head?_cons, Option.some.injEq] at hfirst
      subst hfirst
      exact hty _ (List.mem_cons_self _ _)
  have hload : ∃ fj bj, locateInFunctions S.read.id S.moduleAfterSplit.functions 0 =
      some (fj, bj, S.read) := by
    have hmap := locateInFunctions_find S.read.id S.moduleAfterSplit.functions 0
    have hfr := S.find_read hS
    unfold Module.insts at hfr
    rw [hfr] at hmap
    cases hl : locateInFunctions S.read.id S.moduleAfterSplit.functions 0 with
    | none => rw [hl] at hmap; simp at hmap
    | some r =>
      obtain ⟨x, y, z⟩ := r
      rw [hl] at hmap
      simp only [Option.map_some', Option.some.injEq] at hmap
      subst hmap
      exact ⟨x, y, rfl⟩
  obtain ⟨fj, bj, hload⟩ := hload
  have hfindp : info.find (Operand.global S.name Ty.pointer).getName = some m := hfind
  obtain ⟨M2, hM2⟩ := switchOnePair_returns info S.moduleAfterSplit S.gepId S.read.id
    S.fsBefore.length (S.bsBefore.length + 1) S.gep (.global S.name .pointer)
    [.const S.zero, S.idx] m first ⟨S.fname, S.blocksAfterSplit⟩
    ⟨S.nextId, [S.gep, ⟨S.nextId + 3, "", .br (S.nextId + 2)⟩]⟩
    ⟨S.nextId + 4, [⟨S.nextId + 5, "", .br (S.nextId + 2)⟩]⟩ S.idx S.ibits fj bj S.read
    (.reg S.gepId nm ty) a0 hloc rfl hfindp hfirst hF hB hD rfl hS.index_type
    (Nat.lt_of_lt_of_le hlt (Nat.le_add_right _ _)) hload hrk
    (by
      intro x hx
      simp only [List.getLast?_cons_cons, List.getLast?_singleton, Option.some.injEq] at hx
      subst hx
      exact ne_of_lt_add _ _ 3 hlt)
  obtain ⟨F, B, D, first1, idxOp, cs, blocks, n1, align, e1, e2, e3, e4, e5, e6, e7⟩ :=
    switchOnePair_some info S.moduleAfterSplit M2 S.gepId S.read.id S.fsBefore.length
      (S.bsBefore.length + 1) S.gep (.global S.name .pointer) [.const S.zero, S.idx] m hloc rfl
      hfindp hM2
  rw [hF] at e1
  have eF := Option.some.inj e1
  subst eF
  rw [show (⟨S.fname, S.blocksAfterSplit⟩ : Function).blocks = S.blocksAfterSplit from rfl] at e2 e3
  rw [hB] at e2
  rw [hD] at e3
  have eB := Option.some.inj e2
  have eD := Option.some.inj e3
  subst eB
  subst eD
  rw [hfirst] at e4
  have e4' := Option.some.inj e4
  subst e4'
  have e5' : S.idx = idxOp := Option.some.inj e5
  subst e5'
  have hn : S.moduleAfterSplit.nextId = S.nextId + 6 := rfl
  rw [hn, hS.index_type,
    valueLoop_eq _ _ S.ibits m _ (fun e he => by rw [hty e he]; rfl)] at e6
  simp only [Option.some.injEq, Prod.mk.injEq] at e6
  obtain ⟨ecs, eblocks, en1⟩ := e6
  subst ecs
  subst eblocks
  subst en1
  refine ⟨align, ?_⟩
  rw [hM2, e7]
  have hgid : S.gep.id = S.gepId := rfl
  have hins : ∀ h : Instruction, insertBefore S.gepId h
      [S.gep, ⟨S.nextId + 3, "", .br (S.nextId + 2)⟩] =
      [h, S.gep, ⟨S.nextId + 3, "", .br (S.nextId + 2)⟩] := by
    intro h
    simp [insertBefore, hgid]
  have htake : S.blocksAfterSplit.take (S.bsBefore.length + 1) =
      S.bsBefore ++ [⟨S.site, S.pre ++ [⟨S.nextId + 1, "", .br S.nextId⟩]⟩] :=
    take_append_cons_succ _ _ _
  have hdrop : S.blocksAfterSplit.drop (S.bsBefore.length + 1 + 1) =
      ⟨S.nextId + 4, [⟨S.nextId + 5, "", .br (S.nextId + 2)⟩]⟩ ::
        ⟨S.nextId + 2, S.rest⟩ :: S.bsAfter :=
    drop_append_cons_succ_succ _ _ _ _
  have hset : ∀ X : Function, S.moduleAfterSplit.functions.set S.fsBefore.length X =
      S.fsBefore ++ X :: S.fsAfter := fun X => set_append_cons_length _ _ _ _
  simp only [hn, hins, htake, hdrop, hset, hfty, List.dropLast_cons₂, List.dropLast_single,
    ReadProgram.transformed, ReadProgram.blocksAfterSwitch, ReadProgram.data,
    SiteData.newLoad, SiteData.newRef, SiteData.holder, List.append_assoc, List.cons_append,
    List.nil_append, List.singleton_append]
  rfl

theorem findBlock_map (g : List Instruction → List Instruction) (id : Nat) :
    ∀ l : List BasicBlock,
      findBlock (l.map fun b => (⟨b.id, g b.insts⟩ : BasicBlock)) id =
        (findBlock l id).map fun b => (⟨b.id, g b.insts⟩ : BasicBlock) := by
  intro l
  induction l with
  | nil => rfl
  | cons b rest ih =>
    simp only [findBlock] at ih ⊢
    by_cases h : b.id = id
    · simp [List.find?_cons, h]
    · simp [List.find?_cons, h, ih]

theorem findBlock_append (l1 l2 : List BasicBlock) (id : Nat) :
    findBlock (l1 ++ l2) id = (findBlock l1 id).or (findBlock l2 id) := by
  simp only [findBlock, List.find?_append]

theorem findBlock_none (l : List BasicBlock) (id : Nat) (h : ∀ b ∈ l, b.id ≠ id) :
    findBlock l id = none := by
  simp only [findBlock, List.find?_eq_none]
  intro b hb
  simpa using h b hb

theorem findBlock_cons_eq (b : BasicBlock) (l : List BasicBlock) (id : Nat) (h : b.id = id) :
    findBlock (b :: l) id = some b := by
  simp [findBlock, List.find?_cons, h]

theorem findBlock_cons_ne (b : BasicBlock) (l : List BasicBlock) (id : Nat) (h : b.id ≠ id) :
    findBlock (b :: l) id = findBlock l id := by
  simp [findBlock, List.find?_cons, h]

theorem findBlock_some (l : List BasicBlock) (id : Nat) (b : BasicBlock)
    (h : findBlock l id = some b) : b ∈ l ∧ b.id = id := by
  unfold findBlock at h
  exact ⟨List.mem_of_find?_eq_some h, by simpa using List.find?_some h⟩

theorem findBlock_append_none (l1 l2 : List BasicBlock) (id : Nat) (h : ∀ b ∈ l1, b.id ≠ id) :
    findBlock (l1 ++ l2) id = findBlock l2 id := by
  rw [findBlock_append, findBlock_none l1 id h, Option.none_or]

theorem cutAtSite_no_site (gid host brId : Nat) (f : Instruction → Instruction) :
    ∀ L : List Instruction, (∀ x ∈ L, x.id ≠ gid) → cutAtSite gid host brId f L = L.map f := by
  intro L
  induction L with
  | nil => intro _; rfl
  | cons x r ih =>
    intro h
    rw [cutAtSite_cons_ne _ _ _ _ _ _ (h x (List.mem_cons_self _ _)),
      ih (fun y hy => h y (List.mem_cons_of_mem _ hy))]
    rfl

theorem cutAtSite_append_site (gid host brId : Nat) (f : Instruction → Instruction)
    (x : Instruction) (rest : List Instruction) (hx : x.id = gid) :
    ∀ pre : List Instruction, (∀ y ∈ pre, y.id ≠ gid) →
      cutAtSite gid host brId f (pre ++ x :: rest) = pre.map f ++ [⟨brId, "", .br host⟩] := by
  intro pre
  induction pre with
  | nil => intro _; exact cutAtSite_cons_eq _ _ _ _ _ _ hx
  | cons y r ih =>
    intro h
    rw [List.cons_append, cutAtSite_cons_ne _ _ _ _ _ _ (h y (List.mem_cons_self _ _)),
      ih (fun z hz => h z (List.mem_cons_of_mem _ hz))]
    rfl

theorem suffix_at_site (g : Nat) (x : Instruction) (L rest : List Instruction)
    (hx : x.id = g) (hrest : ∀ y ∈ rest, y.id ≠ g) :
    ∀ (pre t : List Instruction), (∀ y ∈ pre, y.id ≠ g) → t ++ x :: L = pre ++ x :: rest →
      L = rest := by
  intro pre
  induction pre with
  | nil =>
    intro t _ e
    cases t with
    | nil =>
      simp only [List.nil_append, List.cons.injEq, true_and] at e
      exact e
    | cons y t2 =>
      simp only [List.nil_append, List.cons_append, List.cons.injEq] at e
      have : x ∈ rest := by rw [← e.2]; simp
      exact absurd hx (hrest x this)
  | cons p pre2 ih =>
    intro t hpre e
    cases t with
    | nil =>
      simp only [List.nil_append, List.cons_append, List.cons.injEq] at e
      have := hpre p (List.mem_cons_self _ _)
      rw [← e.1] at this
      exact absurd hx this
    | cons y t2 =>
      simp only [List.cons_append, List.cons.injEq] at e
      exact ih t2 (fun z hz => hpre z (List.mem_cons_of_mem _ hz)) e.2

theorem ReadProgram.mem_blocks (S : ReadProgram) (b : BasicBlock) (hb : b ∈ S.blocks) :
    (b ∈ S.bsBefore ∨ b ∈ S.bsAfter) ∧ (∀ x ∈ b.insts, x ∈ S.others) ∨ b = S.siteBlock := by
  obtain ⟨h1, h2, h3, h4, h5, h6⟩ := S.mem_others
  simp only [ReadProgram.blocks, List.mem_append, List.mem_cons] at hb
  rcases hb with hb | hb | hb
  · exact Or.inl ⟨Or.inl hb, fun x hx => h2 x (List.mem_flatMap.mpr ⟨b, hb, hx⟩)⟩
  · exact Or.inr hb
  · exact Or.inl ⟨Or.inr hb, fun x hx => h5 x (List.mem_flatMap.mpr ⟨b, hb, hx⟩)⟩

theorem ReadProgram.block_insts (S : ReadProgram) (b : BasicBlock) (hb : b ∈ S.blocks) :
    ∀ x ∈ b.insts, x ∈ S.module.insts := by
  intro x hx
  rcases S.mem_blocks b hb with ⟨_, h⟩ | h
  · exact (S.mem_insts x).mpr (Or.inr (h x hx))
  · obtain ⟨_, _, h3, h4, _, _⟩ := S.mem_others
    subst h
    simp only [ReadProgram.siteBlock, List.mem_append, List.mem_cons] at hx
    rcases hx with hx | hx | hx
    · exact (S.mem_insts x).mpr (Or.inr (h3 x hx))
    · exact (S.mem_insts x).mpr (Or.inl hx)
    · exact (S.mem_insts x).mpr (Or.inr (h4 x hx))

theorem ne_of_lt_of_le (a n i : Nat) (h : a < n) (h2 : n ≤ i) : ¬ a = i := by omega

theorem readGlobal_array (name : String) (bits : Nat) (vs : List Int) (k : Int) :
    readGlobal [arrayGlobal name bits vs] name k =
      if 0 ≤ k then (vs[k.toNat]?).map RVal.int else none := by
  simp only [readGlobal, arrayGlobal, List.find?_cons, decide_True, List.getElem?_map,
    Option.map_map]
  rfl

theorem switchTarget_default (bits : Nat) (d : BlockId) (k : Int) :
    ∀ (pairs : List (Value × Nat)) (n : Nat),
      (∀ p ∈ pairs, (intLabel bits p.2).payload ≠ k) →
      switchTarget (caseList bits n pairs) d k = d := by
  intro pairs
  induction pairs with
  | nil => intro n _; rfl
  | cons p rest ih =>
    intro n h
    obtain ⟨v, j⟩ := p
    have h0 : ¬ (intLabel bits j).payload = k := h (v, j) (List.mem_cons_self _ _)
    have := ih (n + 3) (fun q hq => h q (List.mem_cons_of_mem _ hq))
    simp only [switchTarget, caseList, List.find?_cons, h0, decide_False] at this ⊢
    exact this

theorem ReadProgram.blocksAfterPass_eq (S : ReadProgram) (hS : S.WellFormed) (m : ValueMap)
    (a : Nat) :
    S.blocksAfterPass m a =
      S.bsBefore.map (fun b => (⟨b.id, b.insts.map (S.data m a).redirect⟩ : BasicBlock)) ++
        ⟨S.site, (S.data m a).cut S.siteBlock.insts⟩ :: (S.data m a).hostBlock ::
        (caseBlocks (.reg (S.nextId + 6) "holder" .pointer) (S.nextId + 4) (S.nextId + 8)
            m.pairs ++
          ⟨S.nextId + 4, [⟨S.nextId + 5, "", .br (S.nextId + 2)⟩]⟩ ::
          ⟨S.nextId + 2, (S.data m a).cut S.rest⟩ ::
          S.bsAfter.map (fun b => (⟨b.id, b.insts.map (S.data m a).redirect⟩ : BasicBlock))) := by
  obtain ⟨hro, _, _⟩ := S.read_facts hS
  obtain ⟨_, _, hpre, hrest, _, _⟩ := S.mem_others
  have hog := S.others_ne_gep hS
  have hrin : S.read ∈ S.module.insts := (S.mem_insts S.read).mpr (Or.inr hro)
  have hlt : S.read.id < S.nextId := hS.inst_fresh S.read hrin
  have e6 : ¬ S.nextId + 6 = S.read.id := ne_of_lt_add _ _ 6 hlt
  have e7 : ¬ S.nextId + 7 = S.read.id := ne_of_lt_add _ _ 7 hlt
  have e5 : ¬ S.nextId + 5 = S.read.id := ne_of_lt_add _ _ 5 hlt
  have e1 : ¬ S.nextId + 1 = S.read.id := ne_of_lt_add _ _ 1 hlt
  have hcb : (caseBlocks (.reg (S.nextId + 6) "holder" .pointer) (S.nextId + 4) (S.nextId + 8)
      m.pairs).map (fun b => (⟨b.id, replaceInstWithInst S.read.id (S.data m a).newLoad
        (S.data m a).newRef b.insts⟩ : BasicBlock)) =
      caseBlocks (.reg (S.nextId + 6) "holder" .pointer) (S.nextId + 4) (S.nextId + 8) m.pairs :=
    caseBlocks_map_replace _ _ _ _ _ _ _ e6 _ _ (Nat.lt_of_lt_of_le hlt (Nat.le_add_right _ _))
  have hcutsite : (S.data m a).cut S.siteBlock.insts =
      S.pre.map (S.data m a).redirect ++ [⟨S.nextId + 1, "", .br S.nextId⟩] :=
    cutAtSite_append_site _ _ _ _ S.gep S.rest rfl S.pre (fun y hy => hog y (hpre y hy))
  have hcutrest : (S.data m a).cut S.rest = S.rest.map (S.data m a).redirect :=
    cutAtSite_no_site _ _ _ _ _ (fun x hx => hog x (hrest x hx))
  rw [hcutsite, hcutrest]
  unfold ReadProgram.blocksAfterPass ReadProgram.blocksAfterSwitch
  rw [List.map_append, List.map_cons, List.map_cons, List.map_append, hcb, List.map_cons,
    List.map_cons]
  simp only [replaceInstWithInst, SiteData.hostBlock, SiteData.redirect, KleeArray.redirect,
    List.map_cons, List.map_nil, List.map_append, e1, e5, e6, e7, if_false, InstKind.subst]
  rfl

theorem ReadProgram.cut_other (S : ReadProgram) (hS : S.WellFormed) (m : ValueMap) (a : Nat) :
    ∀ b ∈ S.blocks, b ≠ S.siteBlock →
      (S.data m a).cut b.insts = b.insts.map (S.data m a).redirect := by
  have hog := S.others_ne_gep hS
  intro b hb hne
  rcases S.mem_blocks b hb with ⟨_, h⟩ | h
  · exact cutAtSite_no_site _ _ _ _ _ (fun x hx => hog x (h x hx))
  · exact absurd h hne

theorem ReadProgram.entry_after (S : ReadProgram) (hS : S.WellFormed) (m : ValueMap) (a : Nat)
    (entry : BasicBlock) (h : S.blocks.head? = some entry) :
    (S.blocksAfterPass m a).head? = some ⟨entry.id, (S.data m a).cut entry.insts⟩ := by
  rw [S.blocksAfterPass_eq hS m a]
  unfold ReadProgram.blocks at h
  cases hb : S.bsBefore with
  | nil =>
    rw [hb] at h
    simp only [List.nil_append, List.head?_cons, Option.some.injEq] at h
    subst h
    rfl
  | cons b0 r =>
    rw [hb] at h
    simp only [List.cons_append, List.head?_cons, Option.some.injEq] at h
    subst h
    have hmem : b0 ∈ S.blocks := by simp [ReadProgram.blocks, hb]
    have hne : b0 ≠ S.siteBlock := by
      intro e
      have := S.mem_others.2.1 S.gep
        (List.mem_flatMap.mpr ⟨b0, by simp [hb], by rw [e]; simp [ReadProgram.siteBlock]⟩)
      exact S.others_ne_gep hS S.gep this rfl
    simp only [List.map_cons, List.cons_append, List.head?_cons, S.cut_other hS m a b0 hmem hne]

theorem ReadProgram.valid (S : ReadProgram) (hS : S.WellFormed) (m : ValueMap) (a : Nat)
    (hp1 : ∀ p ∈ m.pairs, S.vs[p.2]? = some p.1.payload)
    (hp2 : ∀ k < S.vs.length, ∃ v, (v, k) ∈ m.pairs) :
    (S.data m a).Valid S.blocks (S.blocksAfterPass m a) := by
  obtain ⟨hro, hrk, hruniq⟩ := S.read_facts hS
  obtain ⟨_, _, hpre, hrest, _, _⟩ := S.mem_others
  have hog := S.others_ne_gep hS
  have hrin : S.read ∈ S.module.insts := (S.mem_insts S.read).mpr (Or.inr hro)
  have hlt : S.read.id < S.nextId := hS.inst_fresh S.read hrin
  have hbefore : ∀ b ∈ S.bsBefore, b.id < S.nextId := fun b hb =>
    hS.block_fresh b (by simp [ReadProgram.blocks, hb])
  have hafter : ∀ b ∈ S.bsAfter, b.id < S.nextId := fun b hb =>
    hS.block_fresh b (by simp [ReadProgram.blocks, hb])
  have hsite : S.site < S.nextId :=
    hS.block_fresh S.siteBlock (by simp [ReadProgram.blocks])
  have hbn : ∀ i, S.nextId ≤ i → ∀ b ∈ S.bsBefore, b.id ≠ i := fun i hi b hb =>
    ne_of_lt_of_le _ _ _ (hbefore b hb) hi
  have hpairs : ∀ p ∈ m.pairs, p.2 < 2 ^ (S.ibits - 1) := by
    intro p hp
    have h1 := hp1 p hp
    have : p.2 < S.vs.length := by
      by_contra hc
      rw [List.getElem?_eq_none (Nat.le_of_not_lt hc)] at h1
      exact Option.noConfusion h1
    exact Nat.lt_of_lt_of_le this hS.width
  have e6 : ¬ S.nextId + 6 = S.read.id := ne_of_lt_add _ _ 6 hlt
  have e7 : ¬ S.nextId + 7 = S.read.id := ne_of_lt_add _ _ 7 hlt
  have e5 : ¬ S.nextId + 5 = S.read.id := ne_of_lt_add _ _ 5 hlt
  have e1 : ¬ S.nextId + 1 = S.read.id := ne_of_lt_add _ _ 1 hlt
  have hnosite := S.cut_other hS m a
  have hshape := S.blocksAfterPass_eq hS m a
  have hmapB : ∀ (l : List BasicBlock) (id : Nat),
      findBlock (l.map (fun b => (⟨b.id, b.insts.map (S.data m a).redirect⟩ : BasicBlock))) id =
        (findBlock l id).map
          (fun b => (⟨b.id, b.insts.map (S.data m a).redirect⟩ : BasicBlock)) :=
    fun l id => findBlock_map (fun l => l.map (S.data m a).redirect) id l
  have hskipB : ∀ i, S.nextId ≤ i → findBlock (S.bsBefore.map
      (fun b => (⟨b.id, b.insts.map (S.data m a).redirect⟩ : BasicBlock))) i = none := by
    intro i hi
    rw [hmapB, findBlock_none _ _ (hbn i hi)]
    rfl
  constructor
  · exact Ne.symm (hog S.read hro)
  · exact hS.inst_fresh S.gep S.gep_mem
  · exact hlt
  · exact Nat.le_add_right _ _
  · show S.nextId ≤ S.nextId + 8 + 3 * m.pairs.length
    omega
  · show S.nextId + 6 ≠ S.nextId + 8 + 3 * m.pairs.length
    omega
  · intro b hb x hx
    exact hS.inst_fresh x (S.block_insts b hb x hx)
  · intro b hb x L hsuf hx
    have hxb : x ∈ b.insts := hsuf.subset (List.mem_cons_self _ _)
    have hxg : x = S.gep :=
      eq_of_nodup_id _ hS.inst_ids x S.gep (S.block_insts b hb x hxb) S.gep_mem hx
    rcases S.mem_blocks b hb with ⟨_, h⟩ | h
    · exact absurd hx (hog x (h x hxb))
    · subst h
      obtain ⟨t, ht⟩ := hsuf
      refine ⟨hxg, ?_⟩
      exact suffix_at_site S.gepId x L S.rest hx (fun y hy => hog y (hrest y hy)) S.pre t
        (fun y hy => hog y (hpre y hy)) (by rw [ht, hxg]; rfl)
  · intro b hb x hx hxl
    have := hruniq x (S.block_insts b hb x hx) hxl
    rw [this]
    exact hrk
  · intro id b hfb
    obtain ⟨hbm, hbid⟩ := findBlock_some _ _ _ hfb
    have hidlt : id < S.nextId := by rw [← hbid]; exact hS.block_fresh b hbm
    rw [hshape, findBlock_append, hmapB]
    unfold ReadProgram.blocks at hfb
    rw [findBlock_append] at hfb
    cases h1 : findBlock S.bsBefore id with
    | some b0 =>
      rw [h1] at hfb
      have hfb2 : b0 = b := Option.some.inj hfb
      subst hfb2
      have hne : b0 ≠ S.siteBlock := by
        intro e
        rcases S.mem_blocks b0 hbm with ⟨_, h⟩ | h
        · have := h S.gep (by rw [e]; simp [ReadProgram.siteBlock])
          exact hog S.gep this rfl
        · have hb0 := (findBlock_some _ _ _ h1).1
          have := S.mem_others.2.1 S.gep
            (List.mem_flatMap.mpr ⟨b0, hb0, by rw [e]; simp [ReadProgram.siteBlock]⟩)
          exact hog S.gep this rfl
      rw [hnosite b0 hbm hne]
      rfl
    | none =>
      rw [h1] at hfb
      simp only [Option.none_or, Option.map_none'] at hfb ⊢
      by_cases hs : S.site = id
      · rw [findBlock_cons_eq _ _ _ (by exact hs)] at hfb
        have := Option.some.inj hfb
        subst this
        rw [findBlock_cons_eq _ _ _ (by exact hs)]
        rfl
      · rw [findBlock_cons_ne _ _ _ (by exact hs)] at hfb
        obtain ⟨hbA, _⟩ := findBlock_some _ _ _ hfb
        have hne : b ≠ S.siteBlock := by
          intro e
          have := S.mem_others.2.2.2.2.1 S.gep
            (List.mem_flatMap.mpr ⟨b, hbA, by rw [e]; simp [ReadProgram.siteBlock]⟩)
          exact hog S.gep this rfl
        have n0 : ¬ S.nextId = id := ne_of_lt_add _ _ 0 hidlt
        have n2 : ¬ S.nextId + 2 = id := ne_of_lt_add _ _ 2 hidlt
        have n4 : ¬ S.nextId + 4 = id := ne_of_lt_add _ _ 4 hidlt
        rw [findBlock_cons_ne _ _ _ (by exact hs), findBlock_cons_ne _ _ _ (by exact n0),
          findBlock_caseBlocks_lt _ _ _ _ _ _ (Nat.lt_of_lt_of_le hidlt (Nat.le_add_right _ _)),
          findBlock_cons_ne _ _ _ (by exact n4), findBlock_cons_ne _ _ _ (by exact n2),
          hmapB, hfb, hnosite b hbm hne]
        rfl
  · have hs : ¬ S.site = S.nextId := by omega
    show findBlock (S.blocksAfterPass m a) S.nextId = _
    rw [hshape, findBlock_append, hskipB _ (Nat.le_refl _), Option.none_or,
      findBlock_cons_ne _ _ _ (by exact hs)]
    exact findBlock_cons_eq _ _ _ rfl
  · have hs : ¬ S.site = S.nextId + 4 := by omega
    have n0 : ¬ S.nextId = S.nextId + 4 := by omega
    show findBlock (S.blocksAfterPass m a) (S.nextId + 4) = _
    rw [hshape, findBlock_append, hskipB _ (Nat.le_add_right _ _), Option.none_or,
      findBlock_cons_ne _ _ _ (by exact hs), findBlock_cons_ne _ _ _ (by exact n0),
      findBlock_caseBlocks_lt _ _ _ _ _ _ (by omega)]
    exact findBlock_cons_eq _ _ _ rfl
  · have hs : ¬ S.site = S.nextId + 2 := by omega
    have n0 : ¬ S.nextId = S.nextId + 2 := by omega
    have n4 : ¬ S.nextId + 4 = S.nextId + 2 := by omega
    show findBlock (S.blocksAfterPass m a) (S.nextId + 2) = _
    rw [hshape, findBlock_append, hskipB _ (Nat.le_add_right _ _), Option.none_or,
      findBlock_cons_ne _ _ _ (by exact hs), findBlock_cons_ne _ _ _ (by exact n0),
      findBlock_caseBlocks_lt _ _ _ _ _ _ (by omega), findBlock_cons_ne _ _ _ (by exact n4)]
    exact findBlock_cons_eq _ _ _ rfl
  · intro k v hrg
    have hrg2 : readGlobal [arrayGlobal S.name S.bits S.vs] S.name k = some v := hrg
    rw [readGlobal_array] at hrg2
    by_cases hk : 0 ≤ k
    · simp only [hk, if_true] at hrg2
      cases hv : S.vs[k.toNat]? with
      | none => rw [hv] at hrg2; exact Option.noConfusion hrg2
      | some v0 =>
        rw [hv] at hrg2
        have hv1 : RVal.int v0 = v := Option.some.inj hrg2
        have hlen : k.toNat < S.vs.length := by
          by_contra hc
          rw [List.getElem?_eq_none (Nat.le_of_not_lt hc)] at hv
          exact Option.noConfusion hv
        obtain ⟨c, b, hmem, htgt, hge, hfind⟩ :=
          case_dispatch (.reg (S.nextId + 6) "holder" .pointer) (S.nextId + 4) S.ibits k.toNat
            m.pairs (S.nextId + 8) hpairs (hp2 k.toNat hlen)
        have hkk : ((k.toNat : Nat) : Int) = k := Int.toNat_of_nonneg hk
        rw [hkk] at htgt
        have hpay := hp1 (c, k.toNat) hmem
        rw [hv] at hpay
        refine ⟨b, c, b + 2, b + 1, htgt, ?_, ?_⟩
        · have hge0 : S.nextId ≤ b := Nat.le_trans (Nat.le_add_right _ 8) hge
          have hs : ¬ S.site = b := ne_of_lt_of_le _ _ _ hsite hge0
          have n0 : ¬ S.nextId = b :=
            ne_of_lt_of_le _ _ _ (Nat.lt_add_of_pos_right (by decide : 0 < 8)) hge
          rw [hshape, findBlock_append, hskipB _ hge0, Option.none_or,
            findBlock_cons_ne _ _ _ (by exact hs), findBlock_cons_ne _ _ _ (by exact n0),
            findBlock_append, hfind]
          rfl
        · rw [← hv1]
          have := Option.some.inj hpay
          simp only at this
          rw [this]
    · simp only [hk, if_false] at hrg2
      exact Option.noConfusion hrg2
  · intro k hrg
    have hrg2 : readGlobal [arrayGlobal S.name S.bits S.vs] S.name k = none := hrg
    rw [readGlobal_array] at hrg2
    apply switchTarget_default
    intro p hp e
    have hlt2 := hpairs p hp
    rw [intLabel_payload _ _ hlt2] at e
    have hk : 0 ≤ k := by rw [← e]; exact Int.natCast_nonneg _
    simp only [hk, if_true] at hrg2
    have hkk : k.toNat = p.2 := by rw [← e]; rfl
    rw [hkk, hp1 p hp] at hrg2
    exact Option.noConfusion hrg2

theorem ReadProgram.runPass_returns (S : ReadProgram) (hS : S.WellFormed) (addr : Value → Nat) :
    ∃ m a fuel0, (∀ fuel, fuel0 ≤ fuel → runPass addr fuel S.module = some (S.transformed m a)) ∧
      (∀ p ∈ m.pairs, S.vs[p.2]? = some p.1.payload) ∧
      (∀ k < S.vs.length, ∃ v, (v, k) ∈ m.pairs) := by
  obtain ⟨info, m, hb, hfind, hother, hm, hty, hp1, hp2⟩ :=
    catalog_of_array addr S.name S.bits S.vs hS.nonempty
  obtain ⟨a, hround⟩ := S.round_eq hS info m hfind hm hty
  refine ⟨m, a, splitBudget info S.module, ?_, hp1, hp2⟩
  intro fuel hfuel
  have hg : S.module.globals = [arrayGlobal S.name S.bits S.vs] := rfl
  unfold runPass
  rw [hg, hb]
  simp only [S.split_eq hS info m hfind hother fuel hfuel, S.pairs_eq hS, BuildSwitchStmts,
    hround]

theorem ReadProgram.function_after (S : ReadProgram) (m : ValueMap) (a : Nat) :
    (S.transformed m a).functions[S.fsBefore.length]? =
      some ⟨S.fname, S.blocksAfterPass m a⟩ := by
  unfold ReadProgram.transformed mapInstLists
  simp only [List.map_append, List.map_cons]
  have := getElem?_append_cons_length
    (S.fsBefore.map fun f : Function => (⟨f.name, f.blocks.map fun b =>
      (⟨b.id, replaceInstWithInst S.read.id (S.data m a).newLoad (S.data m a).newRef b.insts⟩ :
        BasicBlock)⟩ : Function))
    (S.fsAfter.map fun f : Function => (⟨f.name, f.blocks.map fun b =>
      (⟨b.id, replaceInstWithInst S.read.id (S.data m a).newLoad (S.data m a).newRef b.insts⟩ :
        BasicBlock)⟩ : Function))
    (⟨S.fname, S.blocksAfterPass m a⟩ : Function)
  rw [List.length_map] at this
  exact this

theorem ReadProgram.Entry.frameRel (S : ReadProgram) (hS : S.WellFormed) (fr : Frame)
    (hE : S.Entry fr) (m : ValueMap) (a : Nat) :
    FrameRel [arrayGlobal S.name S.bits S.vs] S.name S.nextId S.gepId S.read.id
      (S.data m a).hid (S.data m a).newId fr fr := by
  obtain ⟨hro, _, _⟩ := S.read_facts hS
  have hrin : S.read ∈ S.module.insts := (S.mem_insts S.read).mpr (Or.inr hro)
  have hnone : ∀ id, S.nextId ≤ id → fr.env.lookup id = none := by
    intro id hid
    cases h : fr.env.lookup id with
    | none => rfl
    | some v => exact absurd (hE.args id v h).1 (Nat.not_lt.mpr hid)
  have hread : fr.env.lookup S.read.id = none := by
    cases h : fr.env.lookup S.read.id with
    | none => rfl
    | some v => exact absurd rfl ((hE.args _ v h).2.2 S.read hrin)
  refine ⟨fun _ _ _ => rfl, ?_, fun _ _ => rfl, hnone, ?_, ?_, ?_⟩
  · show fr.env.lookup (S.nextId + 8 + 3 * m.pairs.length) = fr.env.lookup S.read.id
    rw [hread]
    exact hnone _ (by omega)
  · intro id c h
    exact absurd rfl ((hE.args id _ h).2.1 c)
  · intro k c h
    rw [hE.cells] at h
    exact Option.noConfusion h
  · intro p h
    exact absurd rfl ((hE.args _ p h).2.2 S.gep S.gep_mem)

theorem evalOperand_bind (fr : Frame) (id : Nat) (w : RVal) (o : Operand)
    (h : ∀ n ty, o ≠ .reg id n ty) :
    evalOperand ⟨(id, w) :: fr.env, fr.cells⟩ o = evalOperand fr o := by
  cases o with
  | const c => rfl
  | global n ty => rfl
  | reg j n ty =>
    refine lookup_cons_ne j id w fr.env ?_
    intro e
    subst e
    exact h n ty rfl

/-- Every execution of the read of a well-formed `ReadProgram` yields element
`i` of the array when the index operand has the value `i` and no instruction
defines it. -/
theorem ReadProgram.read_value (S : ReadProgram) (hS : S.WellFormed) (i : Nat) (w : Int)
    (hw : S.vs[i]? = some w)
    (hstable : ∀ x ∈ S.module.insts, ∀ n ty, S.idx ≠ .reg x.id n ty) :
    ∀ (fuel : Nat) (fr : Frame) (L : List Instruction) (v : RVal),
      (∃ b ∈ S.blocks, L <:+ b.insts) → evalOperand fr S.idx = some (.int i) →
      (∀ p, fr.env.lookup S.gepId = some p → p = .elemPtr S.name i) →
      runTo [arrayGlobal S.name S.bits S.vs] S.blocks S.read.id fuel fr L = some v →
      v = .int w := by
  obtain ⟨hro, ⟨nm, ty, al, hrk⟩, hruniq⟩ := S.read_facts hS
  have hog := S.others_ne_gep hS
  have hgl : S.gepId ≠ S.read.id := Ne.symm (hog S.read hro)
  intro fuel
  induction fuel with
  | zero => intro fr L v _ _ _ h; simp [runTo] at h
  | succ fuel ih =>
    intro fr L v hL hidx hsite h
    cases L with
    | nil => simp [runTo] at h
    | cons x L2 =>
      obtain ⟨b, hb, hsuf⟩ := hL
      have hxb : x ∈ b.insts := hsuf.subset (List.mem_cons_self x L2)
      have hxm : x ∈ S.module.insts := S.block_insts b hb x hxb
      have hL2 : ∃ b ∈ S.blocks, L2 <:+ b.insts :=
        ⟨b, hb, (List.suffix_cons x L2).trans hsuf⟩
      have hxr : x.id = S.read.id → x.kind = .load (.reg S.gepId nm ty) al := by
        intro e
        rw [hruniq x hxm e]
        exact hrk
      have hxg : x.id = S.gepId → x = S.gep := fun e =>
        eq_of_nodup_id _ hS.inst_ids x S.gep hxm S.gep_mem e
      -- binding the value of an instruction other than the index computation
      have hbind : ∀ u, x.id ≠ S.gepId →
          evalOperand ⟨(x.id, u) :: fr.env, fr.cells⟩ S.idx = some (.int i) ∧
          ∀ p, List.lookup S.gepId ((x.id, u) :: fr.env) = some p → p = .elemPtr S.name i := by
        intro u hne
        refine ⟨?_, ?_⟩
        · rw [evalOperand_bind fr x.id u S.idx (hstable x hxm)]
          exact hidx
        · intro p hp
          rw [lookup_cons_ne S.gepId x.id u fr.env (Ne.symm hne)] at hp
          exact hsite p hp
      cases hk : x.kind with
      | alloca t0 =>
        rw [runTo_alloca _ _ _ _ _ _ _ _ hk] at h
        by_cases e : x.id = S.read.id
        · rw [hxr e] at hk
          exact InstKind.noConfusion hk
        · simp only [e, if_false] at h
          have hne : x.id ≠ S.gepId := by
            intro e2
            rw [hxg e2] at hk
            exact InstKind.noConfusion hk
          obtain ⟨h1, h2⟩ := hbind (.stackCell x.id) hne
          exact ih _ L2 v hL2 h1 h2 h
      | gep ptr indices =>
        by_cases e : x.id = S.read.id
        · rw [hxr e] at hk
          exact InstKind.noConfusion hk
        · by_cases e2 : x.id = S.gepId
          · have hx := hxg e2
            subst hx
            rw [runTo_site_gep _ _ _ _ _ S.gep L2 S.name .pointer S.zero S.idx rfl, hidx] at h
            simp only at h
            by_cases hz : S.zero.payload = 0
            · simp only [hz, if_true, e, if_false] at h
              refine ih _ L2 v hL2 ?_ ?_ h
              · rw [evalOperand_bind fr S.gep.id _ S.idx (hstable S.gep hxm)]
                exact hidx
              · intro p hp
                have : List.lookup S.gepId ((S.gepId, RVal.elemPtr S.name i) :: fr.env) =
                    some p := hp
                rw [lookup_cons_self] at this
                exact (Option.some.inj this).symm
            · simp only [hz, if_false] at h
              exact Option.noConfusion h
          · rw [runTo_gep _ _ _ _ _ _ _ _ _ hk] at h
            split at h
            · simp only [e, if_false] at h
              obtain ⟨h1, h2⟩ := hbind _ e2
              exact ih _ L2 v hL2 h1 h2 h
            · exact Option.noConfusion h
      | load ptr a0 =>
        rw [runTo_load _ _ _ _ _ _ _ _ _ hk] at h
        by_cases e : x.id = S.read.id
        · have hk2 := hxr e
          rw [hk] at hk2
          simp only [InstKind.load.injEq] at hk2
          obtain ⟨hptr, _⟩ := hk2
          subst hptr
          cases hp : fr.env.lookup S.gepId with
          | none =>
            have : evalOperand fr (.reg S.gepId nm ty) = none := hp
            rw [this] at h
            exact Option.noConfusion h
          | some p =>
            have hev : evalOperand fr (.reg S.gepId nm ty) = some p := hp
            rw [hev, hsite p hp] at h
            simp only [Option.some_bind, readMem] at h
            rw [readGlobal_array] at h
            have h0 : (0 : Int) ≤ (i : Int) := Int.natCast_nonneg _
            simp only [h0, if_true, Int.toNat_ofNat, hw, Option.map_some', e] at h
            exact (Option.some.inj h).symm
        · have hne : x.id ≠ S.gepId := by
            intro e2
            rw [hxg e2] at hk
            exact InstKind.noConfusion hk
          split at h
          · simp only [e, if_false] at h
            obtain ⟨h1, h2⟩ := hbind _ hne
            exact ih _ L2 v hL2 h1 h2 h
          · exact Option.noConfusion h
      | store val ptr =>
        rw [runTo_store _ _ _ _ _ _ _ _ _ hk] at h
        split at h
        · rename_i v1 c1 _ _
          refine ih ⟨fr.env, (c1, v1) :: fr.cells⟩ L2 v hL2 ?_ hsite h
          rw [← hidx]
          exact evalOperand_env _ _ _ _
        · exact Option.noConfusion h
      | br dest =>
        rw [runTo_br _ _ _ _ _ _ _ _ hk] at h
        cases hf : findBlock S.blocks dest with
        | none => rw [hf] at h; exact Option.noConfusion h
        | some b2 =>
          rw [hf] at h
          exact ih _ b2.insts v ⟨b2, (findBlock_some _ _ _ hf).1, List.suffix_refl _⟩ hidx hsite h
      | switch cond d cs =>
        rw [runTo_switch _ _ _ _ _ _ _ _ _ _ hk] at h
        split at h
        · rename_i k0 hc
          cases hf : findBlock S.blocks (switchTarget cs d k0) with
          | none => rw [hf] at h; exact Option.noConfusion h
          | some b2 =>
            rw [hf] at h
            exact ih _ b2.insts v ⟨b2, (findBlock_some _ _ _ hf).1, List.suffix_refl _⟩ hidx
              hsite h
        · exact Option.noConfusion h
      | ret val =>
        rw [runTo_ret _ _ _ _ _ _ _ _ hk] at h
        exact Option.noConfusion h
      | other term ops =>
        rw [runTo_other _ _ _ _ _ _ _ _ _ hk] at h
        cases term with
        | true => exact Option.noConfusion h
        | false => exact ih _ L2 v hL2 hidx hsite h

/-! ## Claim on the whole transformation -/

/-- C1: For every program with one constant integer array `A` (named, values
`vs`, not empty) and a single read of `A` through one index computation
`gep A, 0, idx` (any functions around the function of the site, any blocks
around the block of the site, any instructions around the index computation
and the read), the four components `BuildArrayInfo`, `BuildGEPBlocks`,
`GetGEPLoadPair` and `BuildSwitchStmts`, run in that order with enough fuel,
return a module `M1` whose function `f` stands at the place of the function
of the site, and `f` has a fresh instruction `newLoad` such that, executing
from the entry block in any entry state: whenever the original function
gives its instruction `t` the value `v`, the transformed function gives the
same value to `t`, or to `newLoad` when `t` is the read (so every use of the
read sees the value of `newLoad`); and for every concrete index `i < N`, when
the index operand has the value `i` and the original function reaches the
read, the read has the value `vs[i]` and the transformed function gives
`newLoad` the value `vs[i]`. -/
theorem transformed_read_yields_element (addr : Value → Nat) (S : ReadProgram)
    (hS : S.WellFormed) :
    ∃ (M1 : Module) (f : Function) (newLoad : InstId) (fuel0 : Nat),
      (∀ fuel, fuel0 ≤ fuel → runPass addr fuel S.module = some M1) ∧
      M1.functions[S.fsBefore.length]? = some f ∧ S.nextId ≤ newLoad ∧
      ∀ (fr : Frame) (entry : BasicBlock), S.Entry fr → S.blocks.head? = some entry →
        ∃ entryT, f.blocks.head? = some entryT ∧
          (∀ (t fuel : Nat) (v : RVal), t < S.nextId →
            runTo S.module.globals S.blocks t fuel fr entry.insts = some v →
            ∃ fuel1, runTo M1.globals f.blocks (if t = S.read.id then newLoad else t) fuel1 fr
              entryT.insts = some v) ∧
          (∀ (i : Nat) (hi : i < S.vs.length) (fuel : Nat) (v : RVal),
            evalOperand fr S.idx = some (.int i) →
            runTo S.module.globals S.blocks S.read.id fuel fr entry.insts = some v →
            v = .int S.vs[i] ∧
            ∃ fuel1, runTo M1.globals f.blocks newLoad fuel1 fr entryT.insts =
              some (.int S.vs[i])) := by
  obtain ⟨m, a, fuel0, hrun, hp1, hp2⟩ := S.runPass_returns hS addr
  have hV := S.valid hS m a hp1 hp2
  refine ⟨S.transformed m a, ⟨S.fname, S.blocksAfterPass m a⟩,
    S.nextId + 8 + 3 * m.pairs.length, fuel0, hrun, S.function_after m a, by omega, ?_⟩
  intro fr entry hE hentry
  have hR := ReadProgram.Entry.frameRel S hS fr hE m a
  have hmem : entry ∈ S.blocks := List.mem_of_mem_head? hentry
  have hsim := (S.data m a).simulation S.blocks (S.blocksAfterPass m a) hV
  refine ⟨⟨entry.id, (S.data m a).cut entry.insts⟩, S.entry_after hS m a entry hentry, ?_, ?_⟩
  · intro t fuel v ht h
    exact hsim fuel fr fr entry.insts t v ht hR ⟨entry, hmem, List.suffix_refl _⟩ h
  · intro i hi fuel v hidx h
    have hw : S.vs[i]? = some S.vs[i] := List.getElem?_eq_getElem hi
    have hstable : ∀ x ∈ S.module.insts, ∀ n ty, S.idx ≠ .reg x.id n ty := by
      intro x hx n ty e
      rw [e] at hidx
      exact (hE.args x.id _ hidx).2.2 x hx rfl
    have hsite : ∀ p, fr.env.lookup S.gepId = some p → p = .elemPtr S.name i := by
      intro p hp
      exact absurd rfl ((hE.args _ p hp).2.2 S.gep S.gep_mem)
    have hv := S.read_value hS i S.vs[i] hw hstable fuel fr entry.insts v
      ⟨entry, hmem, List.suffix_refl _⟩ hidx hsite h
    subst hv
    obtain ⟨hro, _, _⟩ := S.read_facts hS
    have hlt : S.read.id < S.nextId :=
      hS.inst_fresh S.read ((S.mem_insts S.read).mpr (Or.inr hro))
    obtain ⟨f1, hf1⟩ := hsim fuel fr fr entry.insts S.read.id _ hlt hR
      ⟨entry, hmem, List.suffix_refl _⟩ h
    refine ⟨rfl, f1, ?_⟩
    have ht : (S.data m a).target S.read.id = S.nextId + 8 + 3 * m.pairs.length := by
      show (if S.read.id = S.read.id then _ else _) = _
      rw [if_pos rfl]
      rfl
    rw [ht] at hf1
    exact hf1

theorem scenarioProgram_wellFormed : scenarioProgram.WellFormed :=
  ⟨by decide, by decide, by decide, by decide, by decide, by decide, by decide, by decide,
    by decide⟩

/-- Witness for C1: the scenario `data[5] = {0,2,4,6,8}`, `x = data[sym_i]`
with a use of `x`; with `sym_i = 2` the original function reaches the read,
which has the value 4, and the load of the stored `x` has the value 4 too. -/
theorem transformed_read_yields_element_witness :
    scenarioProgram.WellFormed ∧
    runTo scenarioProgram.module.globals scenarioProgram.blocks 11 4 ⟨[(1, .int 2)], []⟩
      [⟨2, "cell", .alloca (.integer 32)⟩, ⟨3, "", .br 5⟩] = some (.int 4) ∧
    runTo scenarioProgram.module.globals scenarioProgram.blocks 13 6 ⟨[(1, .int 2)], []⟩
      [⟨2, "cell", .alloca (.integer 32)⟩, ⟨3, "", .br 5⟩] = some (.int 4) ∧
    ∃ (M1 : Module) (f : Function) (newLoad : InstId) (fuel0 : Nat),
      (∀ fuel, fuel0 ≤ fuel → runPass payloadAddr fuel scenarioProgram.module = some M1) ∧
      M1.functions[scenarioProgram.fsBefore.length]? = some f ∧
      scenarioProgram.nextId ≤ newLoad ∧
      ∀ (fr : Frame) (entry : BasicBlock), scenarioProgram.Entry fr →
        scenarioProgram.blocks.head? = some entry →
        ∃ entryT, f.blocks.head? = some entryT ∧
          (∀ (t fuel : Nat) (v : RVal), t < scenarioProgram.nextId →
            runTo scenarioProgram.module.globals scenarioProgram.blocks t fuel fr entry.insts =
              some v →
            ∃ fuel1, runTo M1.globals f.blocks
              (if t = scenarioProgram.read.id then newLoad else t) fuel1 fr entryT.insts =
                some v) ∧
          (∀ (i : Nat) (hi : i < scenarioProgram.vs.length) (fuel : Nat) (v : RVal),
            evalOperand fr scenarioProgram.idx = some (.int i) →
            runTo scenarioProgram.module.globals scenarioProgram.blocks scenarioProgram.read.id
              fuel fr entry.insts = some v →
            v = .int scenarioProgram.vs[i] ∧
            ∃ fuel1, runTo M1.globals f.blocks newLoad fuel1 fr entryT.insts =
              some (.int scenarioProgram.vs[i])) :=
  ⟨scenarioProgram_wellFormed, by decide, by decide,
    transformed_read_yields_element payloadAddr scenarioProgram scenarioProgram_wellFormed⟩

end KleeArray
